import Mathlib

/-!
Verification development for the genosha object marshaller
(src/genosha/__init__.py).

The Python heap is embedded shallowly: a heap is a list of objects and an
object's identity (Python `id`) is its index.  Primitives (ints, bools,
strings, None) are immediate values without identity, matching the
encoder's `primitives` set.  Machine floats are not modelled; the claims
under study do not depend on them.

The encoder (`GenoshaEncoder`) and decoder (`GenoshaDecoder`) are embedded
as fuel-indexed functions: recursion in the source is bounded only by the
object graph, so a fuel parameter makes the embedding total while keeping
every code path of the source.  Running out of fuel is a distinguished
error that never corresponds to a source behaviour; theorems therefore
quantify over runs that return a non-fuel result.
-/

set_option maxHeartbeats 1000000

/-- Primitive values: the encoder's `primitives` set (int, long, float,
bool, NoneType, unicode, str, basestring), with machine floats omitted and
int/long fused into one mathematical integer. -/
inductive Prim where
  | pint (n : Int)
  | pbool (b : Bool)
  | pstr (s : String)
  | pnone
  deriving DecidableEq, Repr

/-- A Python value: either a primitive (no identity) or a reference to a
heap object (its identity being the heap index, standing for `id(obj)`). -/
inductive PyRef where
  | prim (p : Prim)
  | addr (a : Nat)
  deriving DecidableEq, Repr

/-- Heap objects, covering the structural kinds the source dispatches on:
built-in containers, complex numbers, functions (plus the unsupported
lambda/closure/generator/iterator variants), modules, classes
(`types.TypeType`), class instances and bound methods.  `defaultdict` and
`deque` are not modelled. -/
inductive PyObj where
  | pylist (xs : List PyRef)
  | pytuple (xs : List PyRef)
  | pydict (kvs : List (PyRef × PyRef))
  | pyset (xs : List PyRef)
  | pyfrozenset (xs : List PyRef)
  | pycomplex (re im : Int)
  | pyfunc (modName fname : String)
  | pylambda
  | pyclosure (modName fname : String)
  | pygenerator
  | pyiterator
  | pymodule (mname : String) (attrs : List (String × PyRef))
  | pyclass (modName tname : String) (attrs : List (String × PyRef))
  | pyinstance (cls : Nat) (dictItems : List (String × PyRef))
  | pyboundmethod (imSelf : PyRef) (imFunc : Nat)
  deriving DecidableEq, Repr

abbrev Heap := List PyObj

/-- Environment standing for `sys.modules`: module name to the heap address
of the module object. -/
structure PyEnv where
  mods : List (String × Nat)
  deriving DecidableEq, Repr

def lookupStr {α : Type} (l : List (String × α)) (k : String) : Option α :=
  (l.find? (fun p => p.1 == k)).map (·.2)

mutual
/-- Wire records: `GenoshaObject` (node), `GenoshaReference` (ref) and
primitives.  A node's six optional slots mirror the `__slots__` of
`GenoshaObject`; absence of a slot is `none`, matching `hasattr` checks in
the decoder. -/
inductive GRec where
  | prim (p : Prim)
  | ref (oid : Nat)
  | node (ty : Option String) (oid : Option Nat) (items : Option GItems)
         (flds : Option (List (String × GRec))) (attr : Option String)
         (inst : Option GRec)

/-- Contents of a node's `items` slot: a sequence (from `_sequence`), a
mapping (from `_map`), or a raw string (from `marshal_complex`). -/
inductive GItems where
  | iseq (xs : List GRec)
  | imap (kvs : List (GRec × GRec))
  | istr (s : String)
end

/-- Encoder errors: `TypeError` messages raised by the source, `KeyError`
from `sys.modules` lookup, a dangling-address artefact of the embedding,
and fuel exhaustion (no source counterpart). -/
inductive EncErr where
  | typeError (msg : String)
  | keyError
  | badAddr
  | outOfFuel
  deriving DecidableEq, Repr

/-- Encoder state: `self.objects` (emitted record list), `self.python_ids`
(identity map as an insertion-ordered association list address ↦ oid) and
`self.deferred` (queue of (address, index of the emitted shell node in
`objects`); the Python queue stores the mutable node itself, which the
functional embedding replaces by its position). -/
structure EncState where
  objects : List GRec
  ids : List (Nat × Nat)
  deferredQ : List (Nat × Nat)

def idLookup (ids : List (Nat × Nat)) (a : Nat) : Option Nat :=
  (ids.find? (fun p => p.1 == a)).map (·.2)

/-- GenoshaEncoder._id: `self.python_ids.setdefault(id(obj), len(self.python_ids))`. -/
def pyId (ids : List (Nat × Nat)) (a : Nat) : Nat × List (Nat × Nat) :=
  match idLookup ids a with
  | some k => (k, ids)
  | none => (ids.length, ids ++ [(a, ids.length)])

/-- Decimal digit to its character. -/
def digitChar10 (d : Nat) : Char := Char.ofNat (48 + d)

/-- Little-endian decimal digits of a positive number, by fuel-bounded
division (`fuel ≥ n` suffices). -/
def natCharsAux : Nat → Nat → List Char
  | 0, _ => []
  | _ + 1, 0 => []
  | f + 1, n + 1 => digitChar10 ((n + 1) % 10) :: natCharsAux f ((n + 1) / 10)

/-- Decimal string of a natural number, as Python prints it. -/
def natChars (n : Nat) : List Char :=
  if n = 0 then ['0'] else (natCharsAux n n).reverse

/-- Decimal string of an integer, as Python prints it. -/
def intChars (n : Int) : List Char :=
  if n < 0 then '-' :: natChars n.natAbs else natChars n.natAbs

/-- Characters of `str(complex(re, im))` in CPython: `(re+imj)` or
`(re-imj)` when the real part is nonzero, and the unparenthesised `imj`
when the real part is zero.  Integral components print without a decimal
point. -/
def complexStrChars (re im : Int) : List Char :=
  if re = 0 then intChars im ++ ['j']
  else '(' :: (intChars re ++ (if im < 0 then [] else ['+']) ++ intChars im ++ ['j', ')'])

/-- Items payload of `marshal_complex`: `str(obj)[1:-1]`. -/
def complexItemsStr (re im : Int) : String :=
  String.mk (((complexStrChars re im).drop 1).dropLast)

/-- Python `__name__` of a scope-capable object (module, class, function). -/
def scopeNameOf : PyObj → Option String
  | .pymodule n _ => some n
  | .pyclass _ n _ => some n
  | .pyfunc _ n => some n
  | .pyclosure _ n => some n
  | .pylambda => some "<lambda>"
  | _ => none

/-- Attribute dictionary (`scope.__dict__`) of a scope-capable object;
functions have an empty one. -/
def scopeAttrs : PyObj → List (String × PyRef)
  | .pymodule _ ats => ats
  | .pyclass _ _ ats => ats
  | _ => []

/-- Membership of `type(child)` in `GenoshaEncoder.scoping_types`
(`types.TypeType`, `types.FunctionType`). -/
def isScopingType : PyObj → Bool
  | .pyclass _ _ _ => true
  | .pyfunc _ _ => true
  | .pylambda => true
  | .pyclosure _ _ => true
  | _ => false

def joinDots : List String → String
  | [] => ""
  | [x] => x
  | x :: xs => x ++ "." ++ joinDots xs

/-- Scoped-name formatting: `"%s/%s" % (path[0], ".".join(path[1:]))`. -/
def fmtScopedName (path : List String) : String :=
  match path with
  | [] => ""
  | m :: rest => m ++ "/" ++ joinDots rest

/-- Children enqueued by `find_scoped_name`'s breadth-first search: values
of `scope.__dict__` whose type is a scoping type and whose identity is not
in `seen`. -/
def scopeChildrenOf (h : Heap) (o : PyObj) (seen : List Nat) : List Nat :=
  (scopeAttrs o).filterMap (fun p =>
    match p.2 with
    | .addr b =>
      match h[b]? with
      | some ob => if isScopingType ob && !(seen.contains b) then some b else none
      | none => none
    | _ => none)

/-- Loop of `GenoshaEncoder.find_scoped_name`: breadth-first search over
nested scopes for an attribute named `targetName` that is identical
(`is`, i.e. same address) to the target; exhausting the queue raises
`TypeError`. -/
def findScopedAux (h : Heap) (targetName : String) (ta : Nat) :
    Nat → List (List String × Nat) → List Nat → Except EncErr String
  | 0, _, _ => .error .outOfFuel
  | _ + 1, [], _ =>
      .error (.typeError "cannot be located in any nested scope. This type is not supported.")
  | f + 1, (path, sa) :: rest, seen =>
    match h[sa]? with
    | none => .error .badAddr
    | some so =>
      match scopeNameOf so with
      | none => .error .badAddr
      | some sn =>
        if lookupStr (scopeAttrs so) targetName == some (PyRef.addr ta) then
          .ok (fmtScopedName (path ++ [sn, targetName]))
        else
          findScopedAux h targetName ta f
            (rest ++ (scopeChildrenOf h so (sa :: seen)).map (fun b => (path ++ [sn], b)))
            (sa :: seen)

/-- GenoshaEncoder.find_scoped_name, started from
`sys.modules[obj.__module__]` (a missing module raises `KeyError`).  The
per-encoder `scoped_names` cache is omitted: it only memoises this pure
computation. -/
def findScopedName (h : Heap) (env : PyEnv) (fuel : Nat) (ta : Nat) : Except EncErr String :=
  match h[ta]? with
  | none => .error .badAddr
  | some o =>
    match o with
    | .pyfunc mo na | .pyclosure mo na | .pyclass mo na _ =>
      match lookupStr env.mods mo with
      | none => .error .keyError
      | some ma => findScopedAux h na ta fuel [([], ma)] []
    | _ => .error .badAddr

/-- Item-iteration spec for one object, standing for the `builders` closure
stored with a deferred entry (the closure re-reads the live object, which
the embedding performs by re-reading the heap). -/
inductive ISpec where
  | noItems
  | seqI (xs : List PyRef)
  | mapI (kvs : List (PyRef × PyRef))
  | strI (s : String)
  deriving DecidableEq, Repr

/-- Item spec used when a deferred entry for this object is drained
(`self.builders`): lists and sets iterate elements, dicts iterate pairs,
instances have no items builder. -/
def ispecOf : PyObj → ISpec
  | .pylist xs => .seqI xs
  | .pydict kvs => .mapI kvs
  | .pyset xs => .seqI xs
  | _ => .noItems

/-- Field source for `_object` when `is_instance`: built-in containers have
no `__dict__`/`__slots__` so their field dict is empty; instances expose
their `__dict__`.  `none` for the `kind`-given paths (functions, classes)
where `is_instance` is false. -/
def fspecOf : PyObj → Option (List (String × PyRef))
  | .pylist _ => some []
  | .pydict _ => some []
  | .pyset _ => some []
  | .pytuple _ => some []
  | .pyfrozenset _ => some []
  | .pycomplex _ _ => some []
  | .pyinstance _ fl => some fl
  | _ => none

/-- Python `hasattr(value, '__call__')` over the modelled kinds: functions,
bound methods and classes are callable. -/
def isCallable (h : Heap) : PyRef → Bool
  | .prim _ => false
  | .addr a =>
    match h[a]? with
    | some (.pyfunc _ _) => true
    | some (.pylambda) => true
    | some (.pyclosure _ _) => true
    | some (.pyboundmethod _ _) => true
    | some (.pyclass _ _ _) => true
    | _ => false

/-- Python `obj.im_func.func_name`: the declared name of a function
object. -/
def funcNameOf (h : Heap) (fi : Nat) : Option String :=
  match h[fi]? with
  | some (.pyfunc _ na) => some na
  | some (.pyclosure _ na) => some na
  | some (.pylambda) => some "<lambda>"
  | _ => none

/-- Weight of an item spec, used only for the termination measure. -/
def ispecW : ISpec → Nat
  | .seqI xs => xs.length + 1
  | .mapI kvs => 2 * kvs.length + 1
  | _ => 0

/-- Weight of a field spec, used only for the termination measure. -/
def fspecW : Option (List (String × PyRef)) → Nat
  | some l => l.length + 1
  | none => 0

mutual
/-- GenoshaEncoder._marshal: identity check first (second visits become
references), then dispatch on the value's type.  The `__mro__` walk of the
source resolves each modelled kind to the dispatch entries written out
below; `find_scoped_name` of the built-in container classes evaluates to
the fixed names `__builtin__/list` etc. in the standard environment, which
the embedding inlines. -/
def marshalRec (h : Heap) (env : PyEnv) (f : Nat) (st : EncState) (r : PyRef) :
    Except EncErr (EncState × GRec) :=
  match f with
  | 0 => .error .outOfFuel
  | f + 1 =>
    match r with
    | .prim p => .ok (st, .prim p)
    | .addr a =>
      match idLookup st.ids a with
      | some k => .ok (st, .ref k)
      | none =>
        match h[a]? with
        | none => .error .badAddr
        | some o =>
          match o with
          | .pylist xs =>
              marshalObjectC h env f st a "__builtin__/list" false (.seqI xs) (some [])
          | .pytuple xs =>
              marshalObjectC h env f st a "__builtin__/tuple" true (.seqI xs) (some [])
          | .pydict kvs =>
              marshalObjectC h env f st a "__builtin__/dict" false (.mapI kvs) (some [])
          | .pyset xs =>
              marshalObjectC h env f st a "__builtin__/set" false (.seqI xs) (some [])
          | .pyfrozenset xs =>
              marshalObjectC h env f st a "__builtin__/frozenset" true (.seqI xs) (some [])
          | .pycomplex re im =>
              marshalObjectC h env f st a "__builtin__/complex" true
                (.strI (complexItemsStr re im)) (some [])
          | .pyfunc _ _ =>
              match findScopedName h env (f + 1) a with
              | .error e => .error e
              | .ok kind => marshalObjectC h env f st a kind true .noItems none
          | .pylambda => .error (.typeError "lambdas are not supported.")
          | .pyclosure _ _ => .error (.typeError "closures are not supported.")
          | .pygenerator => .error (.typeError "'generator' is an unsupported type.")
          | .pyiterator =>
              -- an open iterator dispatches through `object` to `marshal_object`,
              -- whose `find_scoped_name(obj.__class__)` exhausts all scopes
              -- (iterator classes are not module attributes) and raises TypeError
              .error (.typeError "cannot be located in any nested scope. This type is not supported.")
          | .pymodule mname _ =>
              -- marshal_module: node with only `type` (the module name) and `oid`
              let (oid, ids') := pyId st.ids a
              let node : GRec := .node (some mname) (some oid) none none none none
              .ok ({ st with ids := ids', objects := st.objects ++ [node] }, .ref oid)
          | .pyclass _ _ _ =>
              match findScopedName h env (f + 1) a with
              | .error e => .error e
              | .ok kind => marshalObjectC h env f st a kind true .noItems none
          | .pyinstance ca _ =>
              -- generic instance: kind = find_scoped_name(obj.__class__)
              match findScopedName h env (f + 1) ca with
              | .error e => .error e
              | .ok kind => marshalObjectC h env f st a kind false .noItems (fspecOf o)
          | .pyboundmethod iref fi =>
              -- marshal_instancemethod: oid first, then marshal im_self, then a
              -- node carrying `attribute = obj.im_func.func_name`
              match funcNameOf h fi with
              | none => .error .badAddr
              | some m =>
                let (oid, ids') := pyId st.ids a
                let st1 := { st with ids := ids' }
                match marshalRec h env f st1 iref with
                | .error e => .error e
                | .ok (st2, iv) =>
                  let node : GRec := .node none (some oid) none none (some m) (some iv)
                  .ok ({ st2 with objects := st2.objects ++ [node] }, .ref oid)
termination_by (f, 0)

/-- GenoshaEncoder.marshal_object: assign the oid, emit either a fully
populated node (immutable kinds, via `_object`) or an empty shell plus a
deferred entry (mutable kinds), append the node to `self.objects`, and
return a reference. -/
def marshalObjectC (h : Heap) (env : PyEnv) (f : Nat) (st : EncState) (a : Nat)
    (kind : String) (imm : Bool) (ispec : ISpec) (fspec : Option (List (String × PyRef))) :
    Except EncErr (EncState × GRec) :=
  let (oid, ids') := pyId st.ids a
  let st1 := { st with ids := ids' }
  if imm then
    match buildItems h env f st1 ispec with
    | .error e => .error e
    | .ok (st2, items) =>
      match buildFields h env f st2 fspec with
      | .error e => .error e
      | .ok (st3, flds) =>
        let node : GRec := .node (some kind) (some oid) items flds none none
        .ok ({ st3 with objects := st3.objects ++ [node] }, .ref oid)
  else
    let node : GRec := .node (some kind) (some oid) none none none none
    .ok ({ st1 with
            objects := st1.objects ++ [node]
            deferredQ := st1.deferredQ ++ [(a, st1.objects.length)] }, .ref oid)
termination_by (f, ispecW ispec + fspecW fspec + 5)
decreasing_by
  all_goals simp_wf
  all_goals apply Prod.Lex.right
  all_goals simp [ispecW, fspecW]
  all_goals omega

/-- Items half of `GenoshaEncoder._object`: `out.items = items(obj)` when an
items builder was supplied. -/
def buildItems (h : Heap) (env : PyEnv) (f : Nat) (st : EncState) (ispec : ISpec) :
    Except EncErr (EncState × Option GItems) :=
  match ispec with
  | .noItems => .ok (st, none)
  | .seqI xs =>
    match marshalSeq h env f st xs with
    | .error e => .error e
    | .ok (st1, rs) => .ok (st1, some (.iseq rs))
  | .mapI kvs =>
    match marshalMap h env f st kvs with
    | .error e => .error e
    | .ok (st1, ps) => .ok (st1, some (.imap ps))
  | .strI s => .ok (st, some (.istr s))
termination_by (f, ispecW ispec + 2)
decreasing_by
  all_goals simp_wf
  all_goals apply Prod.Lex.right
  all_goals simp [ispecW, fspecW]
  all_goals omega

/-- Fields half of `GenoshaEncoder._object` (the `is_instance` branch):
collect `__dict__` entries that are public and non-callable, marshalling
each value. -/
def buildFields (h : Heap) (env : PyEnv) (f : Nat) (st : EncState)
    (fspec : Option (List (String × PyRef))) :
    Except EncErr (EncState × Option (List (String × GRec))) :=
  match fspec with
  | none => .ok (st, none)
  | some fl =>
    match marshalFlds h env f st fl with
    | .error e => .error e
    | .ok (st1, gs) => .ok (st1, some gs)
termination_by (f, fspecW fspec + 2)
decreasing_by
  all_goals simp_wf
  all_goals apply Prod.Lex.right
  all_goals simp [ispecW, fspecW]
  all_goals omega

/-- GenoshaEncoder._sequence: marshal each item in iteration order. -/
def marshalSeq (h : Heap) (env : PyEnv) (f : Nat) (st : EncState) (xs : List PyRef) :
    Except EncErr (EncState × List GRec) :=
  match xs with
  | [] => .ok (st, [])
  | x :: rest =>
    match marshalRec h env f st x with
    | .error e => .error e
    | .ok (st1, r) =>
      match marshalSeq h env f st1 rest with
      | .error e => .error e
      | .ok (st2, rs) => .ok (st2, r :: rs)
termination_by (f, xs.length + 1)

/-- GenoshaEncoder._map: `d[_marshal(key)] = _marshal(value)` — Python
evaluates the assignment's right-hand side first, so the value is
marshalled before the key. -/
def marshalMap (h : Heap) (env : PyEnv) (f : Nat) (st : EncState)
    (kvs : List (PyRef × PyRef)) : Except EncErr (EncState × List (GRec × GRec)) :=
  match kvs with
  | [] => .ok (st, [])
  | (k, v) :: rest =>
    match marshalRec h env f st v with
    | .error e => .error e
    | .ok (st1, vr) =>
      match marshalRec h env f st1 k with
      | .error e => .error e
      | .ok (st2, kr) =>
        match marshalMap h env f st2 rest with
        | .error e => .error e
        | .ok (st3, ps) => .ok (st3, (kr, vr) :: ps)
termination_by (f, 2 * kvs.length + 1)

/-- Field loop of `GenoshaEncoder._object`: skip keys starting with `__`
and callable values, marshal the rest. -/
def marshalFlds (h : Heap) (env : PyEnv) (f : Nat) (st : EncState)
    (fl : List (String × PyRef)) : Except EncErr (EncState × List (String × GRec)) :=
  match fl with
  | [] => .ok (st, [])
  | (k, v) :: rest =>
    if k.startsWith "__" || isCallable h v then marshalFlds h env f st rest
    else
      match marshalRec h env f st v with
      | .error e => .error e
      | .ok (st1, gv) =>
        match marshalFlds h env f st1 rest with
        | .error e => .error e
        | .ok (st2, gs) => .ok (st2, (k, gv) :: gs)
termination_by (f, fl.length + 1)
end

/-- Replacement for the in-place mutation `out.items = ...` / `out.fields =
...` that `_object` performs on a deferred node: rebuild the node with the
new items/fields slots. -/
def patchNode (g : GRec) (items : Option GItems) (flds : Option (List (String × GRec))) : GRec :=
  match g with
  | .node ty oid _ _ attr inst => .node ty oid items flds attr inst
  | g => g

/-- Drain loop of `GenoshaEncoder.marshal`: `while len(self.deferred) > 0:
self._object(*self.deferred.popleft())` — populate each deferred node's
items and fields, which may marshal new children and enqueue further
deferred entries at the back of the queue. -/
def drainDeferred (h : Heap) (env : PyEnv) (f : Nat) (st : EncState) :
    Except EncErr EncState :=
  match st.deferredQ with
  | [] => .ok st
  | (a, idx) :: rest =>
    match f with
    | 0 => .error .outOfFuel
    | f + 1 =>
      match h[a]? with
      | none => .error .badAddr
      | some o =>
        let st0 := { st with deferredQ := rest }
        match buildItems h env f st0 (ispecOf o) with
        | .error e => .error e
        | .ok (st1, items) =>
          match buildFields h env f st1 (fspecOf o) with
          | .error e => .error e
          | .ok (st2, flds) =>
            match st2.objects[idx]? with
            | none => .error .badAddr
            | some nd =>
              drainDeferred h env f
                { st2 with objects := st2.objects.set idx (patchNode nd items flds) }

/-- Top-level result of `GenoshaEncoder.marshal`:
`[SENTINEL, self.objects, payload]`. -/
structure Marshalled where
  sentinel : String
  records : List GRec
  payload : GRec

def SENTINEL : String := "@genosha:1@"

/-- GenoshaEncoder.marshal: marshal the root value, drain the deferred
queue, and return `[SENTINEL, objects, payload]`.  (The gc
disable/re-enable bracket has no observable counterpart here.) -/
def genMarshal (h : Heap) (env : PyEnv) (fuel : Nat) (root : PyRef) :
    Except EncErr Marshalled :=
  match marshalRec h env fuel ⟨[], [], []⟩ root with
  | .error e => .error e
  | .ok (st1, payload) =>
    match drainDeferred h env fuel st1 with
    | .error e => .error e
    | .ok st2 => .ok ⟨SENTINEL, st2.objects, payload⟩

/-- Decoder errors: the two `ValueError`s of the source (malformed input
and forward reference, kept distinct because the claims distinguish them),
`TypeError`/`AttributeError`/`ImportError` analogues, a resolution
artefact, and fuel exhaustion. -/
inductive DecErr where
  | malformed
  | forwardRef (oid : Nat)
  | valueError
  | typeError
  | attrError
  | importError
  | resolveFail
  | outOfFuel
  deriving DecidableEq, Repr

/-- Built-in kinds the decoder recognises after `resolve_type`. -/
inductive BKind where
  | blist
  | btuple
  | bdict
  | bset
  | bfrozenset
  | bcomplex
  deriving DecidableEq, Repr

/-- Decoded values: primitives, addresses into the decoded heap (objects
the decoder itself constructs), live objects of the original environment
reached by name resolution (functions, classes, modules), and built-in
type objects (the decoder's `raw type` path for a built-in name). -/
inductive DVal where
  | prim (p : Prim)
  | daddr (w : Nat)
  | live (a : Nat)
  | btype (b : BKind)
  deriving DecidableEq, Repr

/-- Objects of the decoded heap. -/
inductive DObj where
  | dlist (xs : List DVal)
  | dtuple (xs : List DVal)
  | ddict (kvs : List (DVal × DVal))
  | dset (xs : List DVal)
  | dfrozenset (xs : List DVal)
  | dcomplex (re im : Int)
  | dinstance (cls : Nat) (flds : List (String × DVal))
  | dboundmethod (imSelf : DVal) (func : Nat)
  deriving DecidableEq, Repr

/-- Decoder state: the decoded heap, `self.objects` (oid → live value) and
`self.to_populate` (decoded-heap address of each shell plus its node). -/
structure DecState where
  dheap : List DObj
  objTable : List (Nat × DVal)
  toPopulate : List (Nat × GRec)

def lookupNat {α : Type} (l : List (Nat × α)) (k : Nat) : Option α :=
  (l.find? (fun p => p.1 == k)).map (·.2)

/-- Python dict assignment `self.objects[oid] = obj` (later bindings win). -/
def registerOid (st : DecState) (oid : Option Nat) (v : DVal) : DecState :=
  match oid with
  | none => st
  | some k => { st with objTable := (k, v) :: st.objTable }

/-- Result of `resolve_type`: a built-in class or a live object of the
original heap. -/
inductive Resolved where
  | bi (b : BKind)
  | heapObj (a : Nat)
  deriving DecidableEq, Repr

/-- Split a character list at every occurrence of `c`, with Python
`str.split(c)` semantics (`''.split(c) == ['']`). -/
def splitAllChar (c : Char) : List Char → List (List Char)
  | [] => [[]]
  | x :: xs =>
    if x = c then [] :: splitAllChar c xs
    else
      match splitAllChar c xs with
      | l :: ls => (x :: l) :: ls
      | [] => [[x]]

/-- Built-in classes by name, as `getattr(__builtin__, name)` produces for
the names the encoder can emit. -/
def builtinOfName : String → Option BKind
  | "list" => some .blist
  | "tuple" => some .btuple
  | "dict" => some .bdict
  | "set" => some .bset
  | "frozenset" => some .bfrozenset
  | "complex" => some .bcomplex
  | _ => none

/-- Attribute walk of `resolve_type`: `scope = getattr(scope, name) if name
else scope` over the dotted path.  An attribute resolving to a primitive
stops with an error (the source would fail on its subsequent use as a
class). -/
def walkAttrs (h : Heap) (sc : Nat) : List (List Char) → Except DecErr Nat
  | [] => .ok sc
  | n :: ns =>
    if n.isEmpty then walkAttrs h sc ns
    else
      match h[sc]? with
      | none => .error .resolveFail
      | some so =>
        match lookupStr (scopeAttrs so) (String.mk n) with
        | some (.addr b) => walkAttrs h b ns
        | some (.prim _) => .error .resolveFail
        | none => .error .attrError

/-- Module fetch plus attribute walk for `resolve_type`.  A module not in
`sys.modules` would be `__import__`ed; the embedding's environment is
closed, so a missing module is an import failure. -/
def resolveIn (h : Heap) (env : PyEnv) (m : String) (path : List (List Char)) :
    Except DecErr Resolved :=
  if m == "__builtin__" then
    match path with
    | [k] =>
      match builtinOfName (String.mk k) with
      | some b => .ok (.bi b)
      | none => .error .attrError
    | _ => .error .attrError
  else
    match lookupStr env.mods m with
    | none => .error .importError
    | some ma =>
      match walkAttrs h ma path with
      | .ok sc => .ok (.heapObj sc)
      | .error e => .error e

/-- GenoshaDecoder.resolve_type: `modname, kind = kind.split('/') if '/'
in kind else (kind, '')`, import/fetch the module, then walk the dotted
path.  The per-decoder `kinds` cache is omitted (pure memoisation). -/
def resolveType (h : Heap) (env : PyEnv) (s : String) : Except DecErr Resolved :=
  match splitAllChar '/' s.data with
  | [m] => resolveIn h env (String.mk m) [[]]
  | [m, k] => resolveIn h env (String.mk m) (splitAllChar '.' k)
  | _ => .error .valueError

/-- Immutability test `self.immutables & set(kind.__mro__)` (the source
stores it in a dict called `mutability`, whose value is TRUE for immutable
kinds). -/
def isImmutableKind : Resolved → Bool
  | .bi .btuple => true
  | .bi .bfrozenset => true
  | .bi .bcomplex => true
  | _ => false

def rawValue : Resolved → DVal
  | .bi b => .btype b
  | .heapObj a => .live a

/-- Allocation `kind.__new__(kind)` of an empty mutable shell. -/
def allocShell (h : Heap) (kind : Resolved) (st : DecState) :
    Except DecErr (DecState × Nat) :=
  match kind with
  | .bi .blist => .ok ({ st with dheap := st.dheap ++ [.dlist []] }, st.dheap.length)
  | .bi .bdict => .ok ({ st with dheap := st.dheap ++ [.ddict []] }, st.dheap.length)
  | .bi .bset => .ok ({ st with dheap := st.dheap ++ [.dset []] }, st.dheap.length)
  | .heapObj a =>
    match h[a]? with
    | some (.pyclass _ _ _) =>
        .ok ({ st with dheap := st.dheap ++ [.dinstance a []] }, st.dheap.length)
    | _ => .error .typeError
  | _ => .error .typeError

def charVal (c : Char) : Nat := c.toNat - 48

def isDigitChar (c : Char) : Bool := 48 ≤ c.toNat && c.toNat ≤ 57

/-- Parse a nonempty run of decimal digits. -/
def parseNatChars (cs : List Char) : Option Nat :=
  if cs.isEmpty || !(cs.all isDigitChar) then none
  else some (cs.foldl (fun acc c => 10 * acc + charVal c) 0)

/-- Imaginary-part stage of the `complex(string)` parser: the characters
left after the leading integer. -/
def parseImagTail (a : Int) (rest1 : List Char) : Option (Int × Int) :=
  if rest1.isEmpty then some (a, 0)
  else if rest1.length == 1 && rest1.head? == some 'j' then some (0, a)
  else if rest1.head? == some '+' then
    (if rest1.tail.getLast? == some 'j' then
      (parseNatChars rest1.tail.dropLast).map (fun (b : Nat) => ((a, (b : Int)) : Int × Int))
    else none)
  else if rest1.head? == some '-' then
    (if rest1.tail.getLast? == some 'j' then
      (parseNatChars rest1.tail.dropLast).map (fun (b : Nat) => ((a, -(b : Int)) : Int × Int))
    else none)
  else none

/-- CPython `complex(string)` on the integral grammar the encoder can
produce: `A`, `Aj`, `A+Bj`, `A-Bj` (with an optional sign on `A`); any
other string is a `ValueError`. -/
def parseComplexChars (cs : List Char) : Option (Int × Int) :=
  let neg : Bool := cs.head? == some '-'
  let rest0 := if cs.head? == some '-' || cs.head? == some '+' then cs.tail else cs
  match parseNatChars (rest0.takeWhile isDigitChar) with
  | none => none
  | some n => parseImagTail (if neg then -(n : Int) else (n : Int)) (rest0.dropWhile isDigitChar)

/-- Python `getattr` as used by the decoder's bound-method path: instance
`__dict__` first, then the class dictionary, where a plain function found
on the class yields a fresh bound method. -/
def pyGetattrD (h : Heap) (st : DecState) (iv : DVal) (name : String) :
    Except DecErr (DecState × DVal) :=
  match iv with
  | .daddr w =>
    match st.dheap[w]? with
    | some (.dinstance ca flds) =>
      match lookupStr flds name with
      | some v => .ok (st, v)
      | none =>
        match h[ca]? with
        | some (.pyclass _ _ cattrs) =>
          match lookupStr cattrs name with
          | some (.prim p) => .ok (st, .prim p)
          | some (.addr b) =>
            match h[b]? with
            | some (.pyfunc _ _) | some (.pylambda) | some (.pyclosure _ _) =>
                .ok ({ st with dheap := st.dheap ++ [.dboundmethod iv b] },
                     .daddr st.dheap.length)
            | _ => .ok (st, .live b)
          | none => .error .attrError
        | _ => .error .attrError
    | _ => .error .attrError
  | .live a =>
    match h[a]? with
    | some o =>
      match lookupStr (scopeAttrs o) name with
      | some (.prim p) => .ok (st, .prim p)
      | some (.addr b) => .ok (st, .live b)
      | none => .error .attrError
    | none => .error .attrError
  | _ => .error .attrError

/-- Weight of a node's immediate contents, for the termination measure of
the decoder only. -/
def itemsW : Option GItems → Nat
  | some (.iseq xs) => xs.length + 1
  | some (.imap kvs) => 2 * kvs.length + 1
  | _ => 0

/-- Weight of a fields slot, for the termination measure only. -/
def gfldsW : Option (List (String × GRec)) → Nat
  | some l => l.length + 1
  | none => 0

mutual
/-- GenoshaDecoder._unmarshal together with the dispatch bodies `_object`,
`_reference` and `_primitive`: decode one record. -/
def decodeRec (h : Heap) (env : PyEnv) (f : Nat) (st : DecState) (r : GRec) :
    Except DecErr (DecState × DVal) :=
  match f with
  | 0 => .error .outOfFuel
  | f + 1 =>
    match r with
    | .prim p => .ok (st, .prim p)
    | .ref oid =>
      match lookupNat st.objTable oid with
      | some v => .ok (st, v)
      | none => .error (.forwardRef oid)
    | .node ty oid items flds attr inst =>
      match attr with
      | some aName =>
        match inst with
        | none => .error .attrError
        | some ir =>
          match decodeRec h env f st ir with
          | .error e => .error e
          | .ok (st1, iv) =>
            match pyGetattrD h st1 iv aName with
            | .error e => .error e
            | .ok (st2, mv) => .ok (registerOid st2 oid mv, mv)
      | none =>
        match ty with
        | none => .error .attrError
        | some tyName =>
          match resolveType h env tyName with
          | .error e => .error e
          | .ok kind =>
            if items.isNone && flds.isNone then
              let obj : DVal := rawValue kind
              .ok (registerOid st oid obj, obj)
            else if isImmutableKind kind then
              match decodeImmutable h env f st kind items with
              | .error e => .error e
              | .ok (st1, obj) => .ok (registerOid st1 oid obj, obj)
            else
              match allocShell h kind st with
              | .error e => .error e
              | .ok (st1, w) =>
                if oid.isNone then
                  match populateObject h env f st1 w items flds with
                  | .error e => .error e
                  | .ok st2 => .ok (st2, .daddr w)
                else
                  let st2 := { st1 with toPopulate := st1.toPopulate ++ [(w, r)] }
                  .ok (registerOid st2 oid (.daddr w), .daddr w)
termination_by (f, 0)

/-- Immutable construction `kind.__new__(kind, self._unmarshal(data.items))`
for tuple, frozenset and complex. -/
def decodeImmutable (h : Heap) (env : PyEnv) (f : Nat) (st : DecState)
    (kind : Resolved) (items : Option GItems) : Except DecErr (DecState × DVal) :=
  match kind, items with
  | .bi .btuple, some (.iseq xs) =>
    match decodeSeq h env f st xs with
    | .error e => .error e
    | .ok (st1, vs) =>
        .ok ({ st1 with dheap := st1.dheap ++ [.dtuple vs] }, .daddr st1.dheap.length)
  | .bi .bfrozenset, some (.iseq xs) =>
    match decodeSeq h env f st xs with
    | .error e => .error e
    | .ok (st1, vs) =>
        .ok ({ st1 with dheap := st1.dheap ++ [.dfrozenset vs] }, .daddr st1.dheap.length)
  | .bi .bcomplex, some (.istr s) =>
    match parseComplexChars s.data with
    | some (re, im) =>
        .ok ({ st with dheap := st.dheap ++ [.dcomplex re im] }, .daddr st.dheap.length)
    | none => .error .valueError
  | _, _ => .error .typeError
termination_by (f, itemsW items + 2)
decreasing_by
  all_goals simp_wf
  all_goals apply Prod.Lex.right
  all_goals simp [itemsW]

/-- GenoshaDecoder.populate_object: feed decoded items to the first
matching builder along the shell's mro (`list.extend`, `set.update`,
`dict.update`; instances have none), then assign decoded fields.  A `{}`
fields slot on a container assigns nothing; nonempty fields on a shell
without an attribute dictionary would raise, which the embedding reports
as an error. -/
def populateObject (h : Heap) (env : PyEnv) (f : Nat) (st : DecState) (w : Nat)
    (items : Option GItems) (flds : Option (List (String × GRec))) :
    Except DecErr DecState :=
  match populateItems h env f st w items with
  | .error e => .error e
  | .ok st1 => populateFields h env f st1 w flds
termination_by (f, itemsW items + gfldsW flds + 3)
decreasing_by
  all_goals simp_wf
  all_goals apply Prod.Lex.right
  all_goals simp [itemsW, gfldsW]
  all_goals omega

/-- Fields half of `populate_object`: a `{}` fields slot assigns nothing;
nonempty fields are decoded in order and appended to the instance shell's
attribute dictionary. -/
def populateFields (h : Heap) (env : PyEnv) (f : Nat) (st1 : DecState) (w : Nat)
    (flds : Option (List (String × GRec))) : Except DecErr DecState :=
  match flds with
  | none => .ok st1
  | some fl =>
    if fl.isEmpty then .ok st1
    else
      match st1.dheap[w]? with
      | some (.dinstance ca cur) =>
        match decodeFieldVals h env f st1 fl with
        | .error e => .error e
        | .ok (st2, dfl) =>
          match st2.dheap[w]? with
          | some (.dinstance ca' cur') =>
              .ok { st2 with dheap := st2.dheap.set w (.dinstance ca' (cur' ++ dfl)) }
          | _ => .error .attrError
      | _ => .error .attrError
termination_by (f, gfldsW flds + 2)
decreasing_by
  all_goals simp_wf
  all_goals apply Prod.Lex.right
  all_goals simp [gfldsW]

/-- Items half of `populate_object`. -/
def populateItems (h : Heap) (env : PyEnv) (f : Nat) (st : DecState) (w : Nat)
    (items : Option GItems) : Except DecErr DecState :=
  match items with
  | none => .ok st
  | some it =>
    match st.dheap[w]?, it with
    | some (.dlist xs), .iseq rs =>
      match decodeSeq h env f st rs with
      | .error e => .error e
      | .ok (st1, vs) => .ok { st1 with dheap := st1.dheap.set w (.dlist (xs ++ vs)) }
    | some (.dset xs), .iseq rs =>
      match decodeSeq h env f st rs with
      | .error e => .error e
      | .ok (st1, vs) => .ok { st1 with dheap := st1.dheap.set w (.dset (xs ++ vs)) }
    | some (.ddict kvs), .imap ps =>
      match decodePairs h env f st ps with
      | .error e => .error e
      | .ok (st1, qs) => .ok { st1 with dheap := st1.dheap.set w (.ddict (kvs ++ qs)) }
    | some (.dinstance _ _), _ => .ok st
    | _, _ => .error .typeError
termination_by (f, itemsW items + 2)
decreasing_by
  all_goals simp_wf
  all_goals apply Prod.Lex.right
  all_goals simp [itemsW]
  all_goals omega

/-- GenoshaDecoder._list: decode each element. -/
def decodeSeq (h : Heap) (env : PyEnv) (f : Nat) (st : DecState) (rs : List GRec) :
    Except DecErr (DecState × List DVal) :=
  match rs with
  | [] => .ok (st, [])
  | r :: rest =>
    match decodeRec h env f st r with
    | .error e => .error e
    | .ok (st1, v) =>
      match decodeSeq h env f st1 rest with
      | .error e => .error e
      | .ok (st2, vs) => .ok (st2, v :: vs)
termination_by (f, rs.length + 1)

/-- GenoshaDecoder._dict: `d[_unmarshal(key)] = _unmarshal(value)` — the
assignment's right-hand side runs first, so the value is decoded before
the key. -/
def decodePairs (h : Heap) (env : PyEnv) (f : Nat) (st : DecState)
    (ps : List (GRec × GRec)) : Except DecErr (DecState × List (DVal × DVal)) :=
  match ps with
  | [] => .ok (st, [])
  | (k, v) :: rest =>
    match decodeRec h env f st v with
    | .error e => .error e
    | .ok (st1, dv) =>
      match decodeRec h env f st1 k with
      | .error e => .error e
      | .ok (st2, dk) =>
        match decodePairs h env f st2 rest with
        | .error e => .error e
        | .ok (st3, qs) => .ok (st3, (dk, dv) :: qs)
termination_by (f, 2 * ps.length + 1)

/-- Fields loop of `populate_object`: decode each field value in order. -/
def decodeFieldVals (h : Heap) (env : PyEnv) (f : Nat) (st : DecState)
    (fl : List (String × GRec)) : Except DecErr (DecState × List (String × DVal)) :=
  match fl with
  | [] => .ok (st, [])
  | (k, v) :: rest =>
    match decodeRec h env f st v with
    | .error e => .error e
    | .ok (st1, dv) =>
      match decodeFieldVals h env f st1 rest with
      | .error e => .error e
      | .ok (st2, dfl) => .ok (st2, (k, dv) :: dfl)
termination_by (f, fl.length + 1)
end

/-- Record pass of `unmarshal`: `self._unmarshal(obj[1:-1])` decodes every
record of the top-level list in order, registering oid-bearing nodes and
discarding the produced values. -/
def decodeRecords (h : Heap) (env : PyEnv) (f : Nat) (st : DecState) :
    List GRec → Except DecErr DecState
  | [] => .ok st
  | r :: rs =>
    match decodeRec h env f st r with
    | .error e => .error e
    | .ok (st1, _) => decodeRecords h env f st1 rs

/-- The `for obj in self.to_populate` loop of `unmarshal`: Python iterates
a list that `populate_object` may extend, so the loop is a worklist
processed by index. -/
def drainPopulate (h : Heap) (env : PyEnv) : Nat → Nat → DecState → Except DecErr DecState
  | 0, _, _ => .error .outOfFuel
  | f + 1, i, st =>
    match st.toPopulate[i]? with
    | none => .ok st
    | some (w, r) =>
      match r with
      | .node _ _ items flds _ _ =>
        match populateObject h env f st w items flds with
        | .error e => .error e
        | .ok st1 => drainPopulate h env f (i + 1) st1
      | _ => .error .typeError

/-- GenoshaDecoder.unmarshal: check the sentinel, decode every record of
the list slice `obj[1:-1]`, decode the payload `obj[-1]`, then drain the
deferred-population list. -/
def genUnmarshal (h : Heap) (env : PyEnv) (fuel : Nat) (m : Marshalled) :
    Except DecErr (DecState × DVal) :=
  if m.sentinel ≠ SENTINEL then .error .malformed
  else
    match decodeRecords h env fuel ⟨[], [], []⟩ m.records with
    | .error e => .error e
    | .ok st1 =>
      match decodeRec h env fuel st1 m.payload with
      | .error e => .error e
      | .ok (st2, payload) =>
        match drainPopulate h env fuel 0 st2 with
        | .error e => .error e
        | .ok st3 => .ok (st3, payload)

/-! ## Claim C6: unsupported kinds are rejected -/

/-- C6: encoding a generator, an open iterator, a closure, or a lambda
fails with the `TypeError` standing for `UnsupportedType`, and the whole
encode call aborts with no partial result (`genMarshal` returns an error
carrying no record list and no payload). -/
theorem encode_unsupported_raises_typeError (h : Heap) (env : PyEnv) (fuel : Nat) (a : Nat)
    (hf : 0 < fuel)
    (hobj : h[a]? = some .pygenerator ∨ h[a]? = some .pylambda ∨
      (∃ mo na, h[a]? = some (.pyclosure mo na)) ∨ h[a]? = some .pyiterator) :
    ∃ msg, genMarshal h env fuel (.addr a) = .error (.typeError msg) := by
  obtain ⟨f, rfl⟩ : ∃ f, fuel = f + 1 := ⟨fuel - 1, by omega⟩
  rcases hobj with hg | hg | ⟨mo, na, hg⟩ | hg
  · exact ⟨"'generator' is an unsupported type.",
      by simp [genMarshal, marshalRec, idLookup, hg]⟩
  · exact ⟨"lambdas are not supported.", by simp [genMarshal, marshalRec, idLookup, hg]⟩
  · exact ⟨"closures are not supported.", by simp [genMarshal, marshalRec, idLookup, hg]⟩
  · exact ⟨"cannot be located in any nested scope. This type is not supported.",
      by simp [genMarshal, marshalRec, idLookup, hg]⟩

/-- Witness: a one-object heap holding a generator is rejected. -/
theorem encode_unsupported_raises_typeError_witness :
    0 < 1 ∧ ∃ msg,
      genMarshal [PyObj.pygenerator] ⟨[]⟩ 1 (.addr 0) = .error (.typeError msg) :=
  ⟨by decide, encode_unsupported_raises_typeError _ _ _ _ (by decide) (Or.inl rfl)⟩

/-! ## Decimal printing/parsing round-trip, used for the complex claim -/

theorem charVal_digitChar10 (d : Nat) (hd : d < 10) : charVal (digitChar10 d) = d := by
  interval_cases d <;> decide

theorem isDigitChar_digitChar10 (d : Nat) (hd : d < 10) : isDigitChar (digitChar10 d) = true := by
  interval_cases d <;> decide

theorem natCharsAux_digits (f : Nat) : ∀ n, ∀ c ∈ natCharsAux f n, isDigitChar c = true := by
  induction f with
  | zero => intro n c hc; simp [natCharsAux] at hc
  | succ f ih =>
    intro n c hc
    match n with
    | 0 => simp [natCharsAux] at hc
    | n + 1 =>
      simp only [natCharsAux, List.mem_cons] at hc
      rcases hc with rfl | hc
      · exact isDigitChar_digitChar10 _ (Nat.mod_lt _ (by omega))
      · exact ih _ c hc

theorem natCharsAux_foldl (f : Nat) : ∀ n, n ≤ f → ∀ acc : Nat,
    (natCharsAux f n).reverse.foldl (fun a c => 10 * a + charVal c) acc
      = acc * 10 ^ (natCharsAux f n).length + n := by
  induction f with
  | zero =>
    intro n hn acc
    have : n = 0 := by omega
    subst this
    simp [natCharsAux]
  | succ f ih =>
    intro n hn acc
    match n with
    | 0 => simp [natCharsAux]
    | n + 1 =>
      have hdivlt : (n + 1) / 10 < n + 1 := Nat.div_lt_self (by omega) (by omega)
      have hdiv : (n + 1) / 10 ≤ f := by omega
      simp only [natCharsAux, List.reverse_cons, List.foldl_append, List.foldl_cons,
        List.foldl_nil, List.length_cons]
      rw [ih _ hdiv acc, charVal_digitChar10 _ (Nat.mod_lt _ (by omega))]
      rw [pow_succ, ← mul_assoc]
      have hdm := Nat.div_add_mod (n + 1) 10
      generalize acc * 10 ^ (natCharsAux f ((n + 1) / 10)).length = A
      omega

theorem natChars_digits (n : Nat) : ∀ c ∈ natChars n, isDigitChar c = true := by
  intro c hc
  unfold natChars at hc
  by_cases h0 : n = 0
  · subst h0; simp at hc; subst hc; decide
  · rw [if_neg h0] at hc
    simp only [List.mem_reverse] at hc
    exact natCharsAux_digits n n c hc

theorem natChars_ne_nil (n : Nat) : natChars n ≠ [] := by
  unfold natChars
  by_cases h0 : n = 0
  · subst h0; simp
  · rw [if_neg h0]
    obtain ⟨m, rfl⟩ : ∃ m, n = m + 1 := ⟨n - 1, by omega⟩
    simp [natCharsAux]

theorem parseNatChars_natChars (n : Nat) : parseNatChars (natChars n) = some n := by
  by_cases h0 : n = 0
  · subst h0; decide
  · unfold natChars
    rw [if_neg h0]
    unfold parseNatChars
    have hne : natCharsAux n n ≠ [] := by
      obtain ⟨m, rfl⟩ : ∃ m, n = m + 1 := ⟨n - 1, by omega⟩
      simp [natCharsAux]
    have hdig : (natCharsAux n n).reverse.all isDigitChar = true := by
      simp only [List.all_eq_true, List.mem_reverse]
      exact natCharsAux_digits n n
    rw [if_neg (by simp [hdig, List.isEmpty_iff, hne])]
    rw [natCharsAux_foldl n n le_rfl 0]
    simp

theorem digit_not_minus {c : Char} (hc : isDigitChar c = true) : (c == '-') = false := by
  by_contra hne
  have : c = '-' := by
    have := eq_of_beq (a := c) (b := '-') (by revert hne; cases c == '-' <;> simp)
    exact this
  subst this
  simp [isDigitChar] at hc

theorem digit_not_plus {c : Char} (hc : isDigitChar c = true) : (c == '+') = false := by
  by_contra hne
  have : c = '+' := by
    have := eq_of_beq (a := c) (b := '+') (by revert hne; cases c == '+' <;> simp)
    exact this
  subst this
  simp [isDigitChar] at hc

theorem takeWhile_append_of_all {p : Char → Bool} (l1 : List Char) (c : Char) (l2 : List Char)
    (h1 : ∀ x ∈ l1, p x = true) (h2 : p c = false) :
    (l1 ++ c :: l2).takeWhile p = l1 ∧ (l1 ++ c :: l2).dropWhile p = c :: l2 := by
  induction l1 with
  | nil => simp [List.takeWhile_cons, List.dropWhile_cons, h2]
  | cons x t ih =>
    have hx := h1 x (by simp)
    have := ih (fun y hy => h1 y (by simp [hy]))
    simp [List.takeWhile_cons, List.dropWhile_cons, hx, this.1, this.2]

theorem some_beq_some_char (x y : Char) : (some x == some y) = (x == y) := rfl

theorem complexItems_data (re im : Int) (hre : re ≠ 0) :
    (complexItemsStr re im).data
      = intChars re ++ ((if im < 0 then [] else ['+']) ++ (intChars im ++ ['j'])) := by
  unfold complexItemsStr complexStrChars
  rw [if_neg hre]
  show (('(' :: (intChars re ++ (if im < 0 then [] else ['+']) ++ intChars im
      ++ ['j', ')'])).drop 1).dropLast = _
  rw [List.drop_one, List.tail_cons]
  have hsh : intChars re ++ (if im < 0 then [] else ['+']) ++ intChars im ++ ['j', ')']
      = (intChars re ++ ((if im < 0 then [] else ['+']) ++ (intChars im ++ ['j']))) ++ [')'] := by
    simp [List.append_assoc]
  rw [hsh, List.dropLast_concat]

theorem intChars_shape_pos (z : Int) (hz : 0 ≤ z) : intChars z = natChars z.natAbs := by
  unfold intChars
  rw [if_neg (by omega)]

theorem intChars_shape_neg (z : Int) (hz : z < 0) : intChars z = '-' :: natChars z.natAbs := by
  unfold intChars
  rw [if_pos (by omega)]


theorem parseImagTail_eval (a : Int) (s : Char) (B : Nat) :
    parseImagTail a (s :: (natChars B ++ ['j']))
      = if s = '+' then some (a, (B : Int))
        else if s = '-' then some (a, -(B : Int)) else none := by
  obtain ⟨c, t, hct⟩ := List.exists_cons_of_ne_nil (natChars_ne_nil B)
  unfold parseImagTail
  rw [hct]
  rw [show ((s :: (c :: t ++ ['j'])).isEmpty = false) from rfl]
  rw [show ((s :: (c :: t ++ ['j'])).length == 1 && (s :: (c :: t ++ ['j'])).head? == some 'j')
      = false from by simp [List.length_append]]
  rw [show (s :: (c :: t ++ ['j'])).tail = (c :: t) ++ ['j'] from rfl]
  rw [show (((c :: t) ++ ['j']).getLast? == some 'j') = true from by
    rw [List.getLast?_concat]; rfl]
  rw [List.dropLast_concat, ← hct, parseNatChars_natChars]
  simp only [Bool.false_eq_true, if_false, if_true, List.head?_cons, some_beq_some_char,
    Option.map_some]
  by_cases hp : s = '+'
  · rw [if_pos (by simp [hp]), if_pos hp]
    rfl
  · rw [if_neg (by simp [hp]), if_neg hp]
    by_cases hm : s = '-'
    · rw [if_pos (by simp [hm]), if_pos hm]
      rfl
    · rw [if_neg (by simp [hm]), if_neg hm]

theorem parseComplexChars_roundtrip (re im : Int) (hre : re ≠ 0) :
    parseComplexChars ((complexItemsStr re im).data) = some (re, im) := by
  rw [complexItems_data re im hre]
  obtain ⟨s, hT, hss⟩ :
      ∃ s, (if im < 0 then [] else ['+']) ++ (intChars im ++ ['j'])
            = s :: (natChars im.natAbs ++ ['j']) ∧
        (if 0 ≤ im then s = '+' else s = '-') := by
    by_cases him : im < 0
    · rw [if_pos him, intChars_shape_neg im him]
      exact ⟨'-', rfl, by rw [if_neg (by omega)]⟩
    · rw [if_neg him, intChars_shape_pos im (by omega)]
      exact ⟨'+', rfl, by rw [if_pos (by omega)]⟩
  rw [hT]
  have hsd : isDigitChar s = false := by
    by_cases him : 0 ≤ im
    · rw [if_pos him] at hss; rw [hss]; decide
    · rw [if_neg him] at hss; rw [hss]; decide
  have hsplit := takeWhile_append_of_all (natChars re.natAbs) s (natChars im.natAbs ++ ['j'])
    (fun y hy => natChars_digits _ y hy) hsd
  have dmm : ((some '-' == some '-' || some '-' == some '+')) = true := by decide
  have dm : ((some '-' == some '-')) = true := by decide
  rcases lt_or_gt_of_ne hre with hre0 | hre0
  · -- negative real part
    rw [intChars_shape_neg re hre0]
    simp only [parseComplexChars, List.cons_append, List.head?_cons, List.tail_cons,
      dmm, dm, Bool.true_or, if_true, hsplit.1, hsplit.2, parseNatChars_natChars,
      parseImagTail_eval]
    by_cases him : 0 ≤ im
    · rw [if_pos him] at hss
      rw [if_pos hss]
      rw [Option.some.injEq, Prod.mk.injEq]
      constructor <;> omega
    · rw [if_neg him] at hss
      rw [if_neg (by rw [hss]; decide), if_pos hss]
      rw [Option.some.injEq, Prod.mk.injEq]
      constructor <;> omega
  · -- positive real part
    rw [intChars_shape_pos re (by omega)]
    obtain ⟨c, t, hct⟩ := List.exists_cons_of_ne_nil (natChars_ne_nil re.natAbs)
    have hcd : isDigitChar c = true := natChars_digits re.natAbs c (by rw [hct]; simp)
    have hh : (natChars re.natAbs ++ s :: (natChars im.natAbs ++ ['j'])).head? = some c := by
      rw [hct]; rfl
    have e1 : ((natChars re.natAbs ++ s :: (natChars im.natAbs ++ ['j'])).head?
        == some '-') = false := by
      rw [hh, some_beq_some_char, digit_not_minus hcd]
    have e2 : ((natChars re.natAbs ++ s :: (natChars im.natAbs ++ ['j'])).head?
        == some '+') = false := by
      rw [hh, some_beq_some_char, digit_not_plus hcd]
    simp only [parseComplexChars, e1, e2, Bool.or_false, Bool.false_eq_true, if_false,
      hsplit.1, hsplit.2, parseNatChars_natChars, parseImagTail_eval]
    by_cases him : 0 ≤ im
    · rw [if_pos him] at hss
      rw [if_pos hss]
      rw [Option.some.injEq, Prod.mk.injEq]
      constructor <;> omega
    · rw [if_neg him] at hss
      rw [if_neg (by rw [hss]; decide), if_pos hss]
      rw [Option.some.injEq, Prod.mk.injEq]
      constructor <;> omega

/-! ## Claim C8: complex-number encoding -/

/-- C8 counterexample: for the complex number `2j` (zero real part) the
emitted node's `items` is the STRING `""` (`str(2j)[1:-1]`), not a
2-element sequence, and decoding does not reconstruct the value — it
fails with a `ValueError` from `complex("")`. -/
theorem complex_encoding_cex :
    genMarshal [PyObj.pycomplex 0 2] ⟨[]⟩ 5 (.addr 0)
      = .ok ⟨SENTINEL,
          [.node (some "__builtin__/complex") (some 0) (some (.istr "")) (some []) none none],
          .ref 0⟩ ∧
    (∀ xs, GItems.istr "" ≠ .iseq xs) ∧
    genUnmarshal [PyObj.pycomplex 0 2] ⟨[]⟩ 5
      ⟨SENTINEL,
        [.node (some "__builtin__/complex") (some 0) (some (.istr "")) (some []) none none],
        .ref 0⟩ = .error .valueError := by
  have hc : complexItemsStr 0 2 = "" := rfl
  refine ⟨?_, ?_, ?_⟩
  · simp [genMarshal, marshalRec, idLookup, marshalObjectC, pyId, buildItems, buildFields,
      marshalFlds, drainDeferred, hc]
  · intro xs hx
    cases hx
  · have hres : resolveType [PyObj.pycomplex 0 2] ⟨[]⟩ "__builtin__/complex"
        = .ok (.bi .bcomplex) := rfl
    have hpar : parseComplexChars ("".data) = none := rfl
    simp [genUnmarshal, SENTINEL, decodeRecords, decodeRec, hres, isImmutableKind,
      decodeImmutable, hpar]

/-- C8 amended: a complex number is encoded as an immutable node whose
`items` is the string `str(z)[1:-1]` (not a 2-element sequence); for a
complex number with nonzero real part — whose repr is parenthesised, so
the character trimming is sound — decoding reconstructs the same complex
value. -/
theorem complex_encoding_amended (re im : Int) (env : PyEnv) (fuel : Nat)
    (hre : re ≠ 0) (hf : 0 < fuel) :
    genMarshal [PyObj.pycomplex re im] env fuel (.addr 0)
      = .ok ⟨SENTINEL,
          [.node (some "__builtin__/complex") (some 0)
             (some (.istr (complexItemsStr re im))) (some []) none none], .ref 0⟩ ∧
    genUnmarshal [PyObj.pycomplex re im] env fuel
      ⟨SENTINEL,
        [.node (some "__builtin__/complex") (some 0)
           (some (.istr (complexItemsStr re im))) (some []) none none], .ref 0⟩
      = .ok (⟨[.dcomplex re im], [(0, .daddr 0)], []⟩, .daddr 0) := by
  obtain ⟨f, rfl⟩ : ∃ f, fuel = f + 1 := ⟨fuel - 1, by omega⟩
  constructor
  · simp [genMarshal, marshalRec, idLookup, marshalObjectC, pyId, buildItems, buildFields,
      marshalFlds, drainDeferred]
  · have hres : resolveType [PyObj.pycomplex re im] env "__builtin__/complex"
        = .ok (.bi .bcomplex) := rfl
    simp [genUnmarshal, SENTINEL, decodeRecords, decodeRec, hres, isImmutableKind,
      decodeImmutable, parseComplexChars_roundtrip re im hre, registerOid, lookupNat,
      drainPopulate]

/-- Witness for the amended complex claim at `1+2j`. -/
theorem complex_encoding_amended_witness :
    ((1 : Int) ≠ 0 ∧ 0 < 1) ∧
    (genMarshal [PyObj.pycomplex 1 2] ⟨[]⟩ 1 (.addr 0)
      = .ok ⟨SENTINEL,
          [.node (some "__builtin__/complex") (some 0)
             (some (.istr (complexItemsStr 1 2))) (some []) none none], .ref 0⟩ ∧
    genUnmarshal [PyObj.pycomplex 1 2] ⟨[]⟩ 1
      ⟨SENTINEL,
        [.node (some "__builtin__/complex") (some 0)
           (some (.istr (complexItemsStr 1 2))) (some []) none none], .ref 0⟩
      = .ok (⟨[.dcomplex 1 2], [(0, .daddr 0)], []⟩, .daddr 0)) :=
  ⟨⟨by decide, by decide⟩, complex_encoding_amended 1 2 ⟨[]⟩ 1 (by decide) (by decide)⟩

/-! ## Claim C9: scope-name round trip for top-level functions -/

theorem splitAllChar_no_occ (c : Char) (l : List Char) (hc : ¬ c ∈ l) :
    splitAllChar c l = [l] := by
  induction l with
  | nil => rfl
  | cons x xs ih =>
    have hx : ¬ x = c := fun hx => hc (by simp [hx])
    have hxs : ¬ c ∈ xs := fun hm => hc (by simp [hm])
    simp only [splitAllChar, if_neg hx, ih hxs]

theorem splitAllChar_single_sep (c : Char) (l1 l2 : List Char)
    (h1 : ¬ c ∈ l1) (h2 : ¬ c ∈ l2) :
    splitAllChar c (l1 ++ c :: l2) = [l1, l2] := by
  induction l1 with
  | nil => simp [splitAllChar, splitAllChar_no_occ c l2 h2]
  | cons x xs ih =>
    have hx : ¬ x = c := fun hx => h1 (by simp [hx])
    have hxs : ¬ c ∈ xs := fun hm => h1 (by simp [hm])
    simp [splitAllChar, if_neg hx, ih hxs]

/-- Portable names of the form produced for top-level attributes resolve
back to the same heap object. -/
theorem resolveType_topLevel (h : Heap) (env : PyEnv) (mo na : String)
    (ma fa : Nat) (mattrs : List (String × PyRef))
    (hma : lookupStr env.mods mo = some ma)
    (hmod : h[ma]? = some (.pymodule mo mattrs))
    (hattr : lookupStr mattrs na = some (.addr fa))
    (hmo1 : ¬ '/' ∈ mo.data) (hmob : mo ≠ "__builtin__")
    (hna1 : ¬ '/' ∈ na.data) (hna2 : ¬ '.' ∈ na.data) (hnane : na ≠ "") :
    resolveType h env (mo ++ "/" ++ na) = .ok (.heapObj fa) := by
  have hdata : (mo ++ "/" ++ na).data = mo.data ++ '/' :: na.data := by
    simp [String.data_append]
  unfold resolveType
  rw [hdata, splitAllChar_single_sep '/' mo.data na.data hmo1 hna1]
  show resolveIn h env (String.mk mo.data) (splitAllChar '.' na.data) = _
  rw [splitAllChar_no_occ '.' na.data hna2]
  unfold resolveIn
  have hmoeq : String.mk mo.data = mo := rfl
  rw [hmoeq]
  rw [if_neg (by simpa using hmob)]
  rw [hma]
  have hne : ¬ na.data.isEmpty = true := by
    intro hx
    exact hnane (by
      have : na.data = [] := by simpa [List.isEmpty_iff] using hx
      cases na
      simp_all)
  have hw : walkAttrs h ma [na.data] = .ok fa := by
    simp only [walkAttrs, if_neg hne, hmod]
    rw [show scopeAttrs (PyObj.pymodule mo mattrs) = mattrs from rfl]
    rw [show String.mk na.data = na from rfl, hattr]
  simp [hw]

/-- Breadth-first identity search succeeds at the first queue entry for a
top-level function: the declaring module's attribute of the function's
name is the function itself. -/
theorem findScopedName_topLevel (h : Heap) (env : PyEnv) (fuel : Nat) (mo na : String)
    (ma fa : Nat) (mattrs : List (String × PyRef))
    (hfa : h[fa]? = some (.pyfunc mo na))
    (hma : lookupStr env.mods mo = some ma)
    (hmod : h[ma]? = some (.pymodule mo mattrs))
    (hattr : lookupStr mattrs na = some (.addr fa))
    (hf : 0 < fuel) :
    findScopedName h env fuel fa = .ok (mo ++ "/" ++ na) := by
  obtain ⟨f, rfl⟩ : ∃ f, fuel = f + 1 := ⟨fuel - 1, by omega⟩
  simp only [findScopedName, hfa, hma]
  simp only [findScopedAux, hmod]
  rw [show scopeNameOf (PyObj.pymodule mo mattrs) = some mo from rfl]
  rw [show scopeAttrs (PyObj.pymodule mo mattrs) = mattrs from rfl]
  rw [hattr]
  simp [fmtScopedName, joinDots]

/-- C9: a named top-level function reachable as an attribute of its
declaring module is encoded under the portable name `module/name` found by
the breadth-first identity search, and decoding resolves that name back to
the identical live function (the same heap object, not a copy).  The side
conditions require the names to be ordinary Python identifiers (no `/` or
`.`, nonempty) and the module to be a user module registered under its own
name. -/
theorem scoped_name_roundtrip (h : Heap) (env : PyEnv) (fuel : Nat) (mo na : String)
    (ma fa : Nat) (mattrs : List (String × PyRef))
    (hfa : h[fa]? = some (.pyfunc mo na))
    (hma : lookupStr env.mods mo = some ma)
    (hmod : h[ma]? = some (.pymodule mo mattrs))
    (hattr : lookupStr mattrs na = some (.addr fa))
    (hmo1 : ¬ '/' ∈ mo.data) (hmob : mo ≠ "__builtin__")
    (hna1 : ¬ '/' ∈ na.data) (hna2 : ¬ '.' ∈ na.data) (hnane : na ≠ "")
    (hf : 0 < fuel) :
    findScopedName h env fuel fa = .ok (mo ++ "/" ++ na) ∧
    resolveType h env (mo ++ "/" ++ na) = .ok (.heapObj fa) ∧
    genMarshal h env fuel (.addr fa)
      = .ok ⟨SENTINEL, [.node (some (mo ++ "/" ++ na)) (some 0) none none none none],
             .ref 0⟩ ∧
    genUnmarshal h env fuel
      ⟨SENTINEL, [.node (some (mo ++ "/" ++ na)) (some 0) none none none none], .ref 0⟩
      = .ok (⟨[], [(0, .live fa)], []⟩, .live fa) := by
  obtain ⟨f, rfl⟩ : ∃ f, fuel = f + 1 := ⟨fuel - 1, by omega⟩
  have hfind := findScopedName_topLevel h env (f + 1) mo na ma fa mattrs hfa hma hmod hattr
    (by omega)
  have hres := resolveType_topLevel h env mo na ma fa mattrs hma hmod hattr hmo1 hmob
    hna1 hna2 hnane
  refine ⟨hfind, hres, ?_, ?_⟩
  · simp [genMarshal, marshalRec, idLookup, hfa, hfind, marshalObjectC, pyId,
      buildItems, buildFields, drainDeferred]
  · simp [genUnmarshal, SENTINEL, decodeRecords, decodeRec, hres, rawValue, registerOid,
      lookupNat, drainPopulate]

/-- Witness for the scope-name round trip on a two-object heap. -/
theorem scoped_name_roundtrip_witness :
    findScopedName [.pymodule "m" [("g", .addr 1)], .pyfunc "m" "g"] ⟨[("m", 0)]⟩ 1 1
      = .ok ("m" ++ "/" ++ "g") ∧
    resolveType [.pymodule "m" [("g", .addr 1)], .pyfunc "m" "g"] ⟨[("m", 0)]⟩
      ("m" ++ "/" ++ "g") = .ok (.heapObj 1) ∧
    genMarshal [.pymodule "m" [("g", .addr 1)], .pyfunc "m" "g"] ⟨[("m", 0)]⟩ 1 (.addr 1)
      = .ok ⟨SENTINEL, [.node (some ("m" ++ "/" ++ "g")) (some 0) none none none none],
             .ref 0⟩ ∧
    genUnmarshal [.pymodule "m" [("g", .addr 1)], .pyfunc "m" "g"] ⟨[("m", 0)]⟩ 1
      ⟨SENTINEL, [.node (some ("m" ++ "/" ++ "g")) (some 0) none none none none], .ref 0⟩
      = .ok (⟨[], [(0, .live 1)], []⟩, .live 1) :=
  scoped_name_roundtrip _ _ _ "m" "g" 0 1 [("g", .addr 1)] rfl rfl rfl rfl
    (by decide) (by decide) (by decide) (by decide) (by decide) (by decide)

/-! ## Encoder invariants: identity map, record list and deferred queue -/

/-- Oid slot of a record, when it is a node. -/
def recOid : GRec → Option Nat
  | .node _ oid _ _ _ _ => oid
  | _ => none

/-- A record that may legally appear as a child value: a primitive or a
reference, never an inline node. -/
def isAtomB : GRec → Bool
  | .prim _ => true
  | .ref _ => true
  | _ => false

def itemsAtomsB : Option GItems → Bool
  | none => true
  | some (.iseq xs) => xs.all isAtomB
  | some (.imap kvs) => kvs.all (fun p => isAtomB p.1 && isAtomB p.2)
  | some (.istr _) => true

def fldsAtomsB : Option (List (String × GRec)) → Bool
  | none => true
  | some fl => fl.all (fun p => isAtomB p.2)

/-- Well-shaped emitted node: carries an oid, and every child position
(items, mapping keys/values, field values, bound-method instance slot)
holds a primitive or a reference. -/
def goodNodeB : GRec → Bool
  | .node _ oid items flds _ inst =>
      oid.isSome && itemsAtomsB items && fldsAtomsB flds &&
      (match inst with | none => true | some i => isAtomB i)
  | _ => false

/-- The mutable composite kinds: exactly those the encoder defers. -/
def mutableKindAt (h : Heap) (a : Nat) : Bool :=
  match h[a]? with
  | some (.pylist _) => true
  | some (.pydict _) => true
  | some (.pyset _) => true
  | some (.pyinstance _ _) => true
  | _ => false

/-- Well-formed identity map: oids are `0, 1, 2, ...` in insertion order
and each address appears once. -/
def IdsWF (ids : List (Nat × Nat)) : Prop :=
  ids.map Prod.snd = List.range ids.length ∧ (ids.map Prod.fst).Nodup

theorem idLookup_eq_none_iff (ids : List (Nat × Nat)) (a : Nat) :
    idLookup ids a = none ↔ a ∉ ids.map Prod.fst := by
  unfold idLookup
  rw [Option.map_eq_none', List.find?_eq_none]
  constructor
  · intro hf hm
    obtain ⟨p, hp, hpe⟩ := List.mem_map.mp hm
    exact absurd (by simp [hpe]) (hf p hp)
  · intro hm p hp
    intro he
    exact hm (List.mem_map.mpr ⟨p, hp, by simpa using he⟩)

/-- State transition facts shared by every marshalling helper: the
identity map only grows at the end, well-formedness of oids is preserved,
records and deferred entries are only appended, appended nodes are
well-shaped, their oids are exactly the freshly assigned interval, and
deferred entries are only created for mutable composites. -/
def EncTrans (h : Heap) (s t : EncState) : Prop :=
  (∃ dids, t.ids = s.ids ++ dids) ∧
  (IdsWF s.ids → IdsWF t.ids) ∧
  ∃ post dpost,
    t.objects = s.objects ++ post ∧
    t.deferredQ = s.deferredQ ++ dpost ∧
    List.Perm (post.filterMap recOid)
      (List.range' s.ids.length (t.ids.length - s.ids.length)) ∧
    (∀ g ∈ post, goodNodeB g = true) ∧
    (∀ e ∈ dpost, mutableKindAt h e.1 = true)

theorem encTrans_refl (h : Heap) (s : EncState) : EncTrans h s s :=
  ⟨⟨[], by simp⟩, id, [], [], by simp, by simp, by simp, by simp, by simp⟩

theorem encTrans_trans {h : Heap} {s t u : EncState}
    (h1 : EncTrans h s t) (h2 : EncTrans h t u) : EncTrans h s u := by
  obtain ⟨⟨d1, hd1⟩, hwf1, p1, q1, ho1, hq1, hp1, hg1, hm1⟩ := h1
  obtain ⟨⟨d2, hd2⟩, hwf2, p2, q2, ho2, hq2, hp2, hg2, hm2⟩ := h2
  refine ⟨⟨d1 ++ d2, by rw [hd2, hd1, List.append_assoc]⟩, fun hw => hwf2 (hwf1 hw),
    p1 ++ p2, q1 ++ q2, by rw [ho2, ho1, List.append_assoc],
    by rw [hq2, hq1, List.append_assoc], ?_,
    fun g hg => (List.mem_append.mp hg).elim (hg1 g) (hg2 g),
    fun e he => (List.mem_append.mp he).elim (hm1 e) (hm2 e)⟩
  rw [List.filterMap_append]
  have hlen1 : t.ids.length = s.ids.length + d1.length := by rw [hd1]; simp
  have hlen2 : u.ids.length = t.ids.length + d2.length := by rw [hd2]; simp
  have hperm := List.Perm.append hp1 hp2
  have heq := List.range'_append_1 s.ids.length (t.ids.length - s.ids.length)
    (u.ids.length - t.ids.length)
  rw [show s.ids.length + (t.ids.length - s.ids.length) = t.ids.length by omega] at heq
  rw [show u.ids.length - t.ids.length + (t.ids.length - s.ids.length)
      = u.ids.length - s.ids.length by omega] at heq
  rw [heq] at hperm
  exact hperm

/-- Effect of `_id` on the identity map. -/
theorem pyId_spec (ids : List (Nat × Nat)) (a : Nat) :
    (∃ dids, (pyId ids a).2 = ids ++ dids) ∧
    (IdsWF ids → IdsWF (pyId ids a).2) := by
  unfold pyId
  cases hl : idLookup ids a with
  | some k => exact ⟨⟨[], by simp⟩, id⟩
  | none =>
    refine ⟨⟨[(a, ids.length)], rfl⟩, fun hw => ⟨?_, ?_⟩⟩
    · simp only [List.map_append, List.length_append, hw.1]
      simp [List.range_succ]
    · simp only [List.map_append]
      rw [List.nodup_append]
      refine ⟨hw.2, by simp, ?_⟩
      simp only [List.map_cons, List.map_nil]
      intro x hx hy
      simp only [List.mem_singleton] at hy
      rw [hy] at hx
      exact (idLookup_eq_none_iff ids a).mp hl hx

/-- Fresh `_id` assignment: on an unseen address the next oid is the map's
size and one entry is appended. -/
theorem pyId_fresh (ids : List (Nat × Nat)) (a : Nat) (hl : idLookup ids a = none) :
    pyId ids a = (ids.length, ids ++ [(a, ids.length)]) := by
  unfold pyId
  rw [hl]

/-- Shorthand for the transition facts of `_marshal` at one fuel level. -/
def RecOK (h : Heap) (env : PyEnv) (F : Nat) : Prop :=
  ∀ st r st' out, marshalRec h env F st r = .ok (st', out) →
    EncTrans h st st' ∧ isAtomB out = true

theorem marshalSeq_trans {h : Heap} {env : PyEnv} {F : Nat} (hrec : RecOK h env F) :
    ∀ xs st st' outs, marshalSeq h env F st xs = .ok (st', outs) →
      EncTrans h st st' ∧ outs.all isAtomB = true := by
  intro xs
  induction xs with
  | nil =>
    intro st st' outs hc
    rw [marshalSeq] at hc
    cases hc
    exact ⟨encTrans_refl h st, rfl⟩
  | cons x rest ih =>
    intro st st' outs hc
    rw [marshalSeq] at hc
    split at hc
    · cases hc
    · rename_i st1 r heq1
      split at hc
      · cases hc
      · rename_i st2 rs heq2
        obtain ⟨ht1, ha1⟩ := hrec st x st1 r heq1
        obtain ⟨ht2, ha2⟩ := ih st1 st2 rs heq2
        cases hc
        exact ⟨encTrans_trans ht1 ht2, by simp only [List.all_cons, ha1, ha2, Bool.and_self]⟩

theorem marshalMap_trans {h : Heap} {env : PyEnv} {F : Nat} (hrec : RecOK h env F) :
    ∀ kvs st st' ps, marshalMap h env F st kvs = .ok (st', ps) →
      EncTrans h st st' ∧ ps.all (fun p => isAtomB p.1 && isAtomB p.2) = true := by
  intro kvs
  induction kvs with
  | nil =>
    intro st st' ps hc
    rw [marshalMap] at hc
    cases hc
    exact ⟨encTrans_refl h st, rfl⟩
  | cons kv rest ih =>
    intro st st' ps hc
    rw [marshalMap] at hc
    split at hc
    · cases hc
    · rename_i st1 vr heq1
      split at hc
      · cases hc
      · rename_i st2 kr heq2
        split at hc
        · cases hc
        · rename_i st3 qs heq3
          obtain ⟨ht1, ha1⟩ := hrec st kv.2 st1 vr heq1
          obtain ⟨ht2, ha2⟩ := hrec st1 kv.1 st2 kr heq2
          obtain ⟨ht3, ha3⟩ := ih st2 st3 qs heq3
          cases hc
          refine ⟨encTrans_trans ht1 (encTrans_trans ht2 ht3), ?_⟩
          simp only [List.all_cons, ha1, ha2, Bool.and_self, Bool.true_and]
          exact ha3

theorem marshalFlds_trans {h : Heap} {env : PyEnv} {F : Nat} (hrec : RecOK h env F) :
    ∀ fl st st' gs, marshalFlds h env F st fl = .ok (st', gs) →
      EncTrans h st st' ∧ gs.all (fun p => isAtomB p.2) = true := by
  intro fl
  induction fl with
  | nil =>
    intro st st' gs hc
    rw [marshalFlds] at hc
    cases hc
    exact ⟨encTrans_refl h st, rfl⟩
  | cons kv rest ih =>
    intro st st' gs hc
    rw [marshalFlds] at hc
    split at hc
    · exact ih st st' gs hc
    · split at hc
      · cases hc
      · rename_i st1 gv heq1
        split at hc
        · cases hc
        · rename_i st2 hs heq2
          obtain ⟨ht1, ha1⟩ := hrec st kv.2 st1 gv heq1
          obtain ⟨ht2, ha2⟩ := ih st1 st2 hs heq2
          cases hc
          refine ⟨encTrans_trans ht1 ht2, ?_⟩
          simp only [List.all_cons, ha1, Bool.true_and]
          exact ha2

theorem buildItems_trans {h : Heap} {env : PyEnv} {F : Nat} (hrec : RecOK h env F)
    (st : EncState) (isp : ISpec) (st' : EncState) (items : Option GItems)
    (hc : buildItems h env F st isp = .ok (st', items)) :
    EncTrans h st st' ∧ itemsAtomsB items = true := by
  rw [buildItems.eq_def] at hc
  split at hc
  · cases hc
    exact ⟨encTrans_refl h st, rfl⟩
  · split at hc
    · cases hc
    · rename_i st1 rs heq
      obtain ⟨ht, ha⟩ := marshalSeq_trans hrec _ st st1 rs heq
      cases hc
      exact ⟨ht, ha⟩
  · split at hc
    · cases hc
    · rename_i st1 ps heq
      obtain ⟨ht, ha⟩ := marshalMap_trans hrec _ st st1 ps heq
      cases hc
      exact ⟨ht, ha⟩
  · cases hc
    exact ⟨encTrans_refl h st, rfl⟩

theorem buildFields_trans {h : Heap} {env : PyEnv} {F : Nat} (hrec : RecOK h env F)
    (st : EncState) (fsp : Option (List (String × PyRef))) (st' : EncState)
    (flds : Option (List (String × GRec)))
    (hc : buildFields h env F st fsp = .ok (st', flds)) :
    EncTrans h st st' ∧ fldsAtomsB flds = true := by
  rw [buildFields.eq_def] at hc
  split at hc
  · cases hc
    exact ⟨encTrans_refl h st, rfl⟩
  · split at hc
    · cases hc
    · rename_i st1 gs heq
      obtain ⟨ht, ha⟩ := marshalFlds_trans hrec _ st st1 gs heq
      cases hc
      exact ⟨ht, ha⟩

/-- Appending the node for a freshly assigned oid, after the intermediate
work of its children, yields a legal transition from the original state. -/
theorem encTrans_push (h : Heap) (st st3 : EncState) (a : Nat) (node : GRec)
    (hl : idLookup st.ids a = none)
    (ht : EncTrans h { st with ids := st.ids ++ [(a, st.ids.length)] } st3)
    (hg : goodNodeB node = true)
    (ho : recOid node = some st.ids.length) :
    EncTrans h st { st3 with objects := st3.objects ++ [node] } := by
  obtain ⟨⟨d2, hd2⟩, hwf2, p2, q2, ho2, hq2, hp2, hg2, hm2⟩ := ht
  have hids1 : ({ st with ids := st.ids ++ [(a, st.ids.length)] } : EncState).ids
      = st.ids ++ [(a, st.ids.length)] := rfl
  rw [hids1] at hd2 hp2
  have hlen1 : (st.ids ++ [(a, st.ids.length)]).length = st.ids.length + 1 := by simp
  have hlen3 : st3.ids.length = st.ids.length + 1 + d2.length := by
    rw [hd2]
    simp
    omega
  have hwf1 : IdsWF st.ids → IdsWF (st.ids ++ [(a, st.ids.length)]) := by
    have := (pyId_spec st.ids a).2
    rw [pyId_fresh st.ids a hl] at this
    exact this
  refine ⟨⟨[(a, st.ids.length)] ++ d2, by rw [hd2, List.append_assoc]⟩,
    fun hw => hwf2 (hwf1 hw), p2 ++ [node], q2, by
      show ({ st3 with objects := st3.objects ++ [node] } : EncState).objects = _
      rw [show ({ st3 with objects := st3.objects ++ [node] } : EncState).objects
          = st3.objects ++ [node] from rfl, ho2, List.append_assoc], by
      exact hq2, ?_, ?_, hm2⟩
  · show List.Perm ((p2 ++ [node]).filterMap recOid)
      (List.range' st.ids.length (st3.ids.length - st.ids.length))
    rw [List.filterMap_append]
    have hone : List.filterMap recOid [node] = [st.ids.length] := by
      simp [List.filterMap, ho]
    rw [hone]
    have hp2' : List.Perm (p2.filterMap recOid)
        (List.range' (st.ids.length + 1) d2.length) := by
      have h1 := hp2
      rw [hlen1] at h1
      rw [show st3.ids.length - (st.ids.length + 1) = d2.length by omega] at h1
      exact h1
    rw [show st3.ids.length - st.ids.length = d2.length + 1 by omega]
    refine List.Perm.trans (List.Perm.append hp2' (List.Perm.refl [st.ids.length])) ?_
    rw [show List.range' st.ids.length (d2.length + 1)
        = st.ids.length :: List.range' (st.ids.length + 1) d2.length from rfl]
    exact List.perm_append_comm
  · intro g hgm
    rcases List.mem_append.mp hgm with hx | hx
    · exact hg2 g hx
    · simp only [List.mem_singleton] at hx
      rw [hx]
      exact hg

theorem marshalObjectC_trans {h : Heap} {env : PyEnv} {F : Nat} (hrec : RecOK h env F)
    (st : EncState) (a : Nat) (kind : String) (imm : Bool) (isp : ISpec)
    (fsp : Option (List (String × PyRef))) (st' : EncState) (out : GRec)
    (hl : idLookup st.ids a = none)
    (hmut : imm = false → mutableKindAt h a = true)
    (hc : marshalObjectC h env F st a kind imm isp fsp = .ok (st', out)) :
    EncTrans h st st' ∧ isAtomB out = true := by
  rw [marshalObjectC] at hc
  rw [pyId_fresh st.ids a hl] at hc
  simp only [] at hc
  split at hc
  · -- immutable: items and fields are built now, then the node is emitted
    split at hc
    · cases hc
    · rename_i st2 items heqI
      split at hc
      · cases hc
      · rename_i st3 flds heqF
        obtain ⟨htI, haI⟩ := buildItems_trans hrec _ isp st2 items heqI
        obtain ⟨htF, haF⟩ := buildFields_trans hrec st2 fsp st3 flds heqF
        cases hc
        refine ⟨encTrans_push h st st3 a _ hl (encTrans_trans htI htF) ?_ rfl, rfl⟩
        simp [goodNodeB, haI, haF]
  · -- mutable: an empty shell is emitted and the population is deferred
    cases hc
    have hstep : EncTrans h { st with ids := st.ids ++ [(a, st.ids.length)] }
        { st with ids := st.ids ++ [(a, st.ids.length)],
                  deferredQ := st.deferredQ ++ [(a, st.objects.length)] } := by
      refine ⟨⟨[], by simp⟩, id, [], [(a, st.objects.length)], by simp, by simp, by simp, by
        simp, ?_⟩
      intro e he
      simp only [List.mem_singleton] at he
      rw [he]
      exact hmut (by rename_i hif; simpa using hif)
    refine ⟨encTrans_push h st _ a _ hl hstep ?_ rfl, rfl⟩
    simp [goodNodeB, itemsAtomsB, fldsAtomsB]

theorem marshalRec_succ {h : Heap} {env : PyEnv} {F : Nat} (hrec : RecOK h env F) :
    RecOK h env (F + 1) := by
  intro st r st' out hc
  rw [marshalRec.eq_def] at hc
  simp only [] at hc
  split at hc
  · cases hc
    exact ⟨encTrans_refl h st, rfl⟩
  · rename_i a
    split at hc
    · rename_i k hk
      cases hc
      exact ⟨encTrans_refl h st, rfl⟩
    · rename_i hk
      split at hc
      · cases hc
      · rename_i o ho
        split at hc
        · -- list
          rename_i xs
          exact marshalObjectC_trans hrec st a _ false _ _ st' out hk
            (fun _ => by simp [mutableKindAt, ho]) hc
        · -- tuple
          exact marshalObjectC_trans hrec st a _ true _ _ st' out hk
            (fun hx => Bool.noConfusion hx) hc
        · -- dict
          exact marshalObjectC_trans hrec st a _ false _ _ st' out hk
            (fun _ => by simp [mutableKindAt, ho]) hc
        · -- set
          exact marshalObjectC_trans hrec st a _ false _ _ st' out hk
            (fun _ => by simp [mutableKindAt, ho]) hc
        · -- frozenset
          exact marshalObjectC_trans hrec st a _ true _ _ st' out hk
            (fun hx => Bool.noConfusion hx) hc
        · -- complex
          exact marshalObjectC_trans hrec st a _ true _ _ st' out hk
            (fun hx => Bool.noConfusion hx) hc
        · -- function
          split at hc
          · cases hc
          · exact marshalObjectC_trans hrec st a _ true _ _ st' out hk
              (fun hx => Bool.noConfusion hx) hc
        · cases hc
        · cases hc
        · cases hc
        · cases hc
        · -- module
          rename_i mname ats
          rw [pyId_fresh st.ids a hk] at hc
          simp only [] at hc
          cases hc
          refine ⟨encTrans_push h st _ a _ hk (encTrans_refl h _) ?_ rfl, rfl⟩
          simp [goodNodeB, itemsAtomsB, fldsAtomsB]
        · -- class
          split at hc
          · cases hc
          · exact marshalObjectC_trans hrec st a _ true _ _ st' out hk
              (fun hx => Bool.noConfusion hx) hc
        · -- instance
          split at hc
          · cases hc
          · exact marshalObjectC_trans hrec st a _ false _ _ st' out hk
              (fun _ => by simp [mutableKindAt, ho]) hc
        · -- bound method
          rename_i iref fi
          split at hc
          · cases hc
          · rename_i m hm
            rw [pyId_fresh st.ids a hk] at hc
            simp only [] at hc
            split at hc
            · cases hc
            · rename_i st2 iv heq
              obtain ⟨ht2, hatom⟩ := hrec _ iref st2 iv heq
              cases hc
              refine ⟨encTrans_push h st st2 a _ hk ht2 ?_ rfl, rfl⟩
              simp [goodNodeB, itemsAtomsB, fldsAtomsB, hatom]

/-- The transition facts hold at every fuel level. -/
theorem recOK_all (h : Heap) (env : PyEnv) : ∀ F, RecOK h env F := by
  intro F
  induction F with
  | zero =>
    intro st r st' out hc
    rw [marshalRec.eq_def] at hc
    cases hc
  | succ f ih => exact marshalRec_succ ih

/-- Global well-formedness of an encoder state: oids in the identity map
are `0..n-1` in insertion order, the record list holds exactly one node
per assigned oid, every record is well-shaped, and every deferred entry is
a mutable composite. -/
def EncGood (h : Heap) (st : EncState) : Prop :=
  IdsWF st.ids ∧
  List.Perm (st.objects.filterMap recOid) (List.range st.ids.length) ∧
  (∀ g ∈ st.objects, goodNodeB g = true) ∧
  (∀ e ∈ st.deferredQ, mutableKindAt h e.1 = true)

theorem encGood_init (h : Heap) : EncGood h ⟨[], [], []⟩ := by
  refine ⟨⟨rfl, List.nodup_nil⟩, ?_, by simp, by simp⟩
  simp

theorem encGood_step {h : Heap} {st st' : EncState}
    (hg : EncGood h st) (ht : EncTrans h st st') : EncGood h st' := by
  obtain ⟨hwf, hperm, hgood, hmut⟩ := hg
  obtain ⟨⟨d, hd⟩, hwf', p, q, ho, hq, hp, hgp, hmq⟩ := ht
  refine ⟨hwf' hwf, ?_, ?_, ?_⟩
  · rw [ho, List.filterMap_append]
    have hlen : st'.ids.length = st.ids.length + d.length := by rw [hd]; simp
    have hinst := List.range'_append_1 0 st.ids.length (st'.ids.length - st.ids.length)
    rw [Nat.zero_add] at hinst
    have hr : List.range' 0 st.ids.length
        ++ List.range' st.ids.length (st'.ids.length - st.ids.length)
        = List.range' 0 st'.ids.length := by
      rw [hinst]
      congr 1
      omega
    have hcomb := List.Perm.append hperm hp
    rw [List.range_eq_range'] at hcomb
    rw [hr] at hcomb
    rw [List.range_eq_range']
    exact hcomb
  · intro g hgm
    rw [ho] at hgm
    rcases List.mem_append.mp hgm with hx | hx
    · exact hgood g hx
    · exact hgp g hx
  · intro e he
    rw [hq] at he
    rcases List.mem_append.mp he with hx | hx
    · exact hmut e hx
    · exact hmq e hx

theorem recOid_patchNode (g : GRec) (i : Option GItems) (fl : Option (List (String × GRec))) :
    recOid (patchNode g i fl) = recOid g := by
  cases g <;> rfl

theorem goodNodeB_patchNode {g : GRec} {i : Option GItems}
    {fl : Option (List (String × GRec))} (hg : goodNodeB g = true)
    (hi : itemsAtomsB i = true) (hf : fldsAtomsB fl = true) :
    goodNodeB (patchNode g i fl) = true := by
  cases g with
  | node ty oid items flds attr inst =>
    simp only [goodNodeB, Bool.and_eq_true] at hg
    simp only [patchNode, goodNodeB, Bool.and_eq_true]
    exact ⟨⟨⟨hg.1.1.1, hi⟩, hf⟩, hg.2⟩
  | prim p => simpa [patchNode] using hg
  | ref k => simpa [patchNode] using hg

theorem filterMap_set_congr {α β : Type} (f : α → Option β) :
    ∀ (l : List α) (i : Nat) (x g : α), l[i]? = some g → f x = f g →
      (l.set i x).filterMap f = l.filterMap f := by
  intro l
  induction l with
  | nil => intro i x g hg; simp at hg
  | cons y t ih =>
    intro i x g hg hfx
    cases i with
    | zero =>
      simp only [List.getElem?_cons_zero, Option.some.injEq] at hg
      rw [← hg] at hfx
      rw [List.set_cons_zero, List.filterMap_cons, List.filterMap_cons, hfx]
    | succ j =>
      simp only [List.getElem?_cons_succ] at hg
      simp only [List.set_cons_succ, List.filterMap_cons, ih j x g hg hfx]

/-- Patching a deferred node's items and fields in place preserves global
well-formedness. -/
theorem encGood_patch {h : Heap} {st : EncState} (hg : EncGood h st) (idx : Nat) (nd : GRec)
    (hnd : st.objects[idx]? = some nd) (items : Option GItems)
    (flds : Option (List (String × GRec)))
    (haI : itemsAtomsB items = true) (haF : fldsAtomsB flds = true) :
    EncGood h { st with objects := st.objects.set idx (patchNode nd items flds) } := by
  obtain ⟨hwf, hperm, hgood, hmut⟩ := hg
  refine ⟨hwf, ?_, ?_, hmut⟩
  · show List.Perm ((st.objects.set idx (patchNode nd items flds)).filterMap recOid) _
    rw [filterMap_set_congr recOid st.objects idx _ nd hnd (recOid_patchNode nd items flds)]
    exact hperm
  · intro g hgm
    rcases List.mem_or_eq_of_mem_set hgm with hx | hx
    · exact hgood g hx
    · rw [hx]
      exact goodNodeB_patchNode (hgood nd (List.getElem?_mem hnd)) haI haF

/-- The drain loop preserves global well-formedness, only extends the
identity map, and terminates with an empty deferred queue. -/
theorem drainDeferred_good (h : Heap) (env : PyEnv) :
    ∀ F st st', EncGood h st → drainDeferred h env F st = .ok st' →
      EncGood h st' ∧ (∃ dids, st'.ids = st.ids ++ dids) ∧ st'.deferredQ = [] := by
  intro F
  induction F with
  | zero =>
    intro st st' hg hc
    rw [drainDeferred.eq_def] at hc
    split at hc
    · rename_i heq
      cases hc
      exact ⟨hg, ⟨[], by simp⟩, heq⟩
    · cases hc
  | succ f ih =>
    intro st st' hg hc
    rw [drainDeferred.eq_def] at hc
    split at hc
    · rename_i heq
      cases hc
      exact ⟨hg, ⟨[], by simp⟩, heq⟩
    · rename_i a idx rest heq
      simp only [] at hc
      split at hc
      · cases hc
      · rename_i o hoa
        split at hc
        · cases hc
        · rename_i st1 items heqI
          split at hc
          · cases hc
          · rename_i st2 flds heqF
            split at hc
            · cases hc
            · rename_i nd hnd
              have hg0 : EncGood h { st with deferredQ := rest } := by
                obtain ⟨hwf, hperm, hgood, hmut⟩ := hg
                exact ⟨hwf, hperm, hgood, fun e he =>
                  hmut e (by rw [heq]; exact List.mem_cons_of_mem _ he)⟩
              obtain ⟨htI, haI⟩ := buildItems_trans (recOK_all h env f) _ _ _ _ heqI
              obtain ⟨htF, haF⟩ := buildFields_trans (recOK_all h env f) _ _ _ _ heqF
              have hg2 : EncGood h st2 :=
                encGood_step (encGood_step hg0 htI) htF
              obtain ⟨hgood', ⟨d3, hd3⟩, hempty⟩ :=
                ih _ st' (encGood_patch hg2 idx nd hnd items flds haI haF) hc
              obtain ⟨⟨d02, hd02⟩, _⟩ := encTrans_trans htI htF
              refine ⟨hgood', ⟨d02 ++ d3, ?_⟩, hempty⟩
              rw [hd3]
              show st2.ids ++ d3 = st.ids ++ (d02 ++ d3)
              rw [hd02]
              show (st.ids ++ d02) ++ d3 = st.ids ++ (d02 ++ d3)
              rw [List.append_assoc]

/-- A full encode run: the final state is well-formed and `marshal`'s
output is its record list plus the payload. -/
theorem genMarshal_run_good (h : Heap) (env : PyEnv) (fuel : Nat) (root : PyRef)
    (st1 st2 : EncState) (pay : GRec)
    (h1 : marshalRec h env fuel ⟨[], [], []⟩ root = .ok (st1, pay))
    (h2 : drainDeferred h env fuel st1 = .ok st2) :
    EncGood h st2 ∧ st2.deferredQ = [] ∧ isAtomB pay = true ∧
      genMarshal h env fuel root = .ok ⟨SENTINEL, st2.objects, pay⟩ := by
  obtain ⟨ht1, hatom⟩ := recOK_all h env fuel _ root _ _ h1
  have hg1 : EncGood h st1 := encGood_step (encGood_init h) ht1
  obtain ⟨hg2, _, hq⟩ := drainDeferred_good h env fuel st1 st2 hg1 h2
  refine ⟨hg2, hq, hatom, ?_⟩
  rw [genMarshal, h1]
  simp [h2]

/-! ## Claim C10: no inline nodes in encoder output -/

/-- C10: in any successful `marshal` output, every record of the top-level
list is a node carrying an oid whose child positions (sequence items,
mapping keys and values, field values, the bound-method instance slot)
hold only primitives or references, and the payload itself is a primitive
or a reference — never an inline oid-less node. -/
theorem encoder_no_inline_nodes (h : Heap) (env : PyEnv) (fuel : Nat) (root : PyRef)
    (m : Marshalled) (hm : genMarshal h env fuel root = .ok m) :
    (∀ g ∈ m.records, goodNodeB g = true) ∧ isAtomB m.payload = true := by
  rw [genMarshal] at hm
  split at hm
  · cases hm
  · rename_i st1 pay h1
    split at hm
    · cases hm
    · rename_i st2 h2
      obtain ⟨⟨_, _, hgood, _⟩, _, hatom, _⟩ :=
        genMarshal_run_good h env fuel root st1 st2 pay h1 h2
      cases hm
      exact ⟨hgood, hatom⟩

/-- Witness: the single self-referential list. -/
theorem encoder_no_inline_nodes_witness :
    genMarshal [PyObj.pylist [.addr 0]] ⟨[]⟩ 5 (.addr 0)
      = .ok ⟨SENTINEL,
          [.node (some "__builtin__/list") (some 0) (some (.iseq [.ref 0])) (some []) none none],
          .ref 0⟩ ∧
    ((∀ g ∈ (⟨SENTINEL,
          [.node (some "__builtin__/list") (some 0) (some (.iseq [.ref 0])) (some []) none none],
          .ref 0⟩ : Marshalled).records, goodNodeB g = true) ∧
      isAtomB (⟨SENTINEL,
          [.node (some "__builtin__/list") (some 0) (some (.iseq [.ref 0])) (some []) none none],
          .ref 0⟩ : Marshalled).payload = true) := by
  have henc : genMarshal [PyObj.pylist [.addr 0]] ⟨[]⟩ 5 (.addr 0)
      = .ok ⟨SENTINEL,
          [.node (some "__builtin__/list") (some 0) (some (.iseq [.ref 0])) (some []) none none],
          .ref 0⟩ := by
    simp [genMarshal, marshalRec, idLookup, marshalObjectC, pyId, buildItems, buildFields,
      marshalSeq, marshalFlds, drainDeferred, ispecOf, fspecOf, patchNode]
  exact ⟨henc, encoder_no_inline_nodes _ _ _ _ _ henc⟩

/-! ## Claim C4: record-list ordering -/

/-- C4 amended: the record list of a successful encode contains exactly
one node for each assigned oid `0..n-1` (their oids are a permutation of
`0..n-1`), but position `k` need not hold the node with oid `k`. -/
theorem record_list_oids_perm (h : Heap) (env : PyEnv) (fuel : Nat) (root : PyRef)
    (st1 st2 : EncState) (pay : GRec)
    (h1 : marshalRec h env fuel ⟨[], [], []⟩ root = .ok (st1, pay))
    (h2 : drainDeferred h env fuel st1 = .ok st2) :
    genMarshal h env fuel root = .ok ⟨SENTINEL, st2.objects, pay⟩ ∧
    List.Perm (st2.objects.filterMap recOid) (List.range st2.ids.length) := by
  obtain ⟨⟨_, hperm, _, _⟩, _, _, hout⟩ :=
    genMarshal_run_good h env fuel root st1 st2 pay h1 h2
  exact ⟨hout, hperm⟩

/-- Witness for the record-oid permutation on the nested-tuple heap. -/
theorem record_list_oids_perm_witness :
    genMarshal [PyObj.pytuple [.addr 1], PyObj.pytuple []] ⟨[]⟩ 10 (.addr 0)
      = .ok ⟨SENTINEL,
          [.node (some "__builtin__/tuple") (some 1) (some (.iseq [])) (some []) none none,
           .node (some "__builtin__/tuple") (some 0) (some (.iseq [.ref 1])) (some []) none none],
          .ref 0⟩ ∧
    List.Perm
      ([GRec.node (some "__builtin__/tuple") (some 1) (some (.iseq [])) (some []) none none,
        GRec.node (some "__builtin__/tuple") (some 0) (some (.iseq [.ref 1])) (some []) none
          none].filterMap recOid)
      (List.range ([((0 : Nat), (0 : Nat)), (1, 1)] : List (Nat × Nat)).length) := by
  have h1 : marshalRec [PyObj.pytuple [.addr 1], PyObj.pytuple []] ⟨[]⟩ 10 ⟨[], [], []⟩
      (.addr 0) = .ok
      (⟨[.node (some "__builtin__/tuple") (some 1) (some (.iseq [])) (some []) none none,
         .node (some "__builtin__/tuple") (some 0) (some (.iseq [.ref 1])) (some []) none none],
        [(0, 0), (1, 1)], []⟩, .ref 0) := by
    simp [marshalRec, idLookup, marshalObjectC, pyId, buildItems, buildFields, marshalSeq,
      marshalFlds]
  have h2 : drainDeferred [PyObj.pytuple [.addr 1], PyObj.pytuple []] ⟨[]⟩ 10
      ⟨[.node (some "__builtin__/tuple") (some 1) (some (.iseq [])) (some []) none none,
        .node (some "__builtin__/tuple") (some 0) (some (.iseq [.ref 1])) (some []) none none],
       [(0, 0), (1, 1)], []⟩ = .ok
      ⟨[.node (some "__builtin__/tuple") (some 1) (some (.iseq [])) (some []) none none,
        .node (some "__builtin__/tuple") (some 0) (some (.iseq [.ref 1])) (some []) none none],
       [(0, 0), (1, 1)], []⟩ := by
    rw [drainDeferred.eq_def]
  exact record_list_oids_perm _ _ _ _ _ _ _ h1 h2

/-- C4 counterexample: for a tuple containing a tuple, the record at
position 0 carries oid 1 and the record at position 1 carries oid 0 — the
child's node is appended before its parent's, so position `k` does not
hold the node with oid `k`. -/
theorem record_list_position_cex :
    genMarshal [PyObj.pytuple [.addr 1], PyObj.pytuple []] ⟨[]⟩ 10 (.addr 0)
      = .ok ⟨SENTINEL,
          [.node (some "__builtin__/tuple") (some 1) (some (.iseq [])) (some []) none none,
           .node (some "__builtin__/tuple") (some 0) (some (.iseq [.ref 1])) (some []) none none],
          .ref 0⟩ ∧
    [GRec.node (some "__builtin__/tuple") (some 1) (some (.iseq [])) (some []) none none,
     GRec.node (some "__builtin__/tuple") (some 0) (some (.iseq [.ref 1])) (some []) none
       none].map recOid = [some 1, some 0] ∧
    some (1 : Nat) ≠ some 0 := by
  refine ⟨?_, by decide, by decide⟩
  simp [genMarshal, marshalRec, idLookup, marshalObjectC, pyId, buildItems, buildFields,
    marshalSeq, marshalFlds, drainDeferred]

/-! ## Claim C3: oid assignment order -/

/-- Child references of one heap object, in iteration order. -/
def childRefs (h : Heap) (a : Nat) : List PyRef :=
  match h[a]? with
  | some (.pylist xs) => xs
  | some (.pytuple xs) => xs
  | some (.pydict kvs) => kvs.foldr (fun p acc => p.1 :: p.2 :: acc) []
  | some (.pyset xs) => xs
  | some (.pyfrozenset xs) => xs
  | some (.pyinstance _ fl) => fl.map Prod.snd
  | some (.pyboundmethod iref _) => [iref]
  | _ => []

mutual
/-- Modelled from the spec for the C3 comparison only: "the order objects
are first reached by a depth-first walk from the root" — visit the root,
then recursively each child left to right, skipping objects already
visited. -/
def specDfsOrder (h : Heap) (f : Nat) (seen : List Nat) (r : PyRef) : List Nat :=
  match f, r with
  | _, .prim _ => seen
  | 0, .addr _ => seen
  | f + 1, .addr a =>
    if a ∈ seen then seen else specDfsMany h f (seen ++ [a]) (childRefs h a)
termination_by (f, 0)

/-- Depth-first visit of a child list, left to right. -/
def specDfsMany (h : Heap) (f : Nat) (seen : List Nat) (rs : List PyRef) : List Nat :=
  match rs with
  | [] => seen
  | r :: rest => specDfsMany h f (specDfsOrder h f seen r) rest
termination_by (f, rs.length + 1)
end

/-- C3 counterexample: for the heap `v = [x, y]`, `x = [z]`, `y = []`,
`z = []` (addresses 0..3), the encoder assigns oids in queue order
`v, x, y, z` (address k gets oid k), while a depth-first walk first
reaches `v, x, z, y` — so discovery order is NOT depth-first order. -/
theorem oid_dfs_order_cex :
    marshalRec [PyObj.pylist [.addr 1, .addr 2], PyObj.pylist [.addr 3], PyObj.pylist [],
        PyObj.pylist []] ⟨[]⟩ 10 ⟨[], [], []⟩ (.addr 0)
      = .ok (⟨[.node (some "__builtin__/list") (some 0) none none none none],
              [(0, 0)], [(0, 0)]⟩, .ref 0) ∧
    drainDeferred [PyObj.pylist [.addr 1, .addr 2], PyObj.pylist [.addr 3], PyObj.pylist [],
        PyObj.pylist []] ⟨[]⟩ 10
      ⟨[.node (some "__builtin__/list") (some 0) none none none none], [(0, 0)], [(0, 0)]⟩
      = .ok ⟨[.node (some "__builtin__/list") (some 0) (some (.iseq [.ref 1, .ref 2]))
                (some []) none none,
              .node (some "__builtin__/list") (some 1) (some (.iseq [.ref 3])) (some []) none
                none,
              .node (some "__builtin__/list") (some 2) (some (.iseq [])) (some []) none none,
              .node (some "__builtin__/list") (some 3) (some (.iseq [])) (some []) none none],
             [(0, 0), (1, 1), (2, 2), (3, 3)], []⟩ ∧
    ([((0 : Nat), (0 : Nat)), (1, 1), (2, 2), (3, 3)] : List (Nat × Nat)).map Prod.fst
      = [0, 1, 2, 3] ∧
    specDfsOrder [PyObj.pylist [.addr 1, .addr 2], PyObj.pylist [.addr 3], PyObj.pylist [],
        PyObj.pylist []] 10 [] (.addr 0) = [0, 1, 3, 2] ∧
    ([0, 1, 2, 3] : List Nat) ≠ [0, 1, 3, 2] := by
  refine ⟨?_, ?_, by decide, ?_, by decide⟩
  · simp [marshalRec, idLookup, marshalObjectC, pyId, buildItems, buildFields, marshalSeq,
      marshalFlds]
  · have s1 : drainDeferred [PyObj.pylist [.addr 1, .addr 2], PyObj.pylist [.addr 3],
        PyObj.pylist [], PyObj.pylist []] ⟨[]⟩ 10
        ⟨[.node (some "__builtin__/list") (some 0) none none none none], [(0, 0)], [(0, 0)]⟩
        = drainDeferred [PyObj.pylist [.addr 1, .addr 2], PyObj.pylist [.addr 3],
            PyObj.pylist [], PyObj.pylist []] ⟨[]⟩ 9
          ⟨[.node (some "__builtin__/list") (some 0) (some (.iseq [.ref 1, .ref 2])) (some [])
              none none,
            .node (some "__builtin__/list") (some 1) none none none none,
            .node (some "__builtin__/list") (some 2) none none none none],
           [(0, 0), (1, 1), (2, 2)], [(1, 1), (2, 2)]⟩ := by
      rw [drainDeferred.eq_def]
      simp [ispecOf, fspecOf, buildItems, buildFields, marshalSeq, marshalFlds, marshalRec,
        idLookup, pyId, marshalObjectC, patchNode]
    have s2 : drainDeferred [PyObj.pylist [.addr 1, .addr 2], PyObj.pylist [.addr 3],
        PyObj.pylist [], PyObj.pylist []] ⟨[]⟩ 9
        ⟨[.node (some "__builtin__/list") (some 0) (some (.iseq [.ref 1, .ref 2])) (some [])
            none none,
          .node (some "__builtin__/list") (some 1) none none none none,
          .node (some "__builtin__/list") (some 2) none none none none],
         [(0, 0), (1, 1), (2, 2)], [(1, 1), (2, 2)]⟩
        = drainDeferred [PyObj.pylist [.addr 1, .addr 2], PyObj.pylist [.addr 3],
            PyObj.pylist [], PyObj.pylist []] ⟨[]⟩ 8
          ⟨[.node (some "__builtin__/list") (some 0) (some (.iseq [.ref 1, .ref 2])) (some [])
              none none,
            .node (some "__builtin__/list") (some 1) (some (.iseq [.ref 3])) (some []) none
              none,
            .node (some "__builtin__/list") (some 2) none none none none,
            .node (some "__builtin__/list") (some 3) none none none none],
           [(0, 0), (1, 1), (2, 2), (3, 3)], [(2, 2), (3, 3)]⟩ := by
      rw [drainDeferred.eq_def]
      simp [ispecOf, fspecOf, buildItems, buildFields, marshalSeq, marshalFlds, marshalRec,
        idLookup, pyId, marshalObjectC, patchNode]
    have s3 : drainDeferred [PyObj.pylist [.addr 1, .addr 2], PyObj.pylist [.addr 3],
        PyObj.pylist [], PyObj.pylist []] ⟨[]⟩ 8
        ⟨[.node (some "__builtin__/list") (some 0) (some (.iseq [.ref 1, .ref 2])) (some [])
            none none,
          .node (some "__builtin__/list") (some 1) (some (.iseq [.ref 3])) (some []) none none,
          .node (some "__builtin__/list") (some 2) none none none none,
          .node (some "__builtin__/list") (some 3) none none none none],
         [(0, 0), (1, 1), (2, 2), (3, 3)], [(2, 2), (3, 3)]⟩
        = drainDeferred [PyObj.pylist [.addr 1, .addr 2], PyObj.pylist [.addr 3],
            PyObj.pylist [], PyObj.pylist []] ⟨[]⟩ 7
          ⟨[.node (some "__builtin__/list") (some 0) (some (.iseq [.ref 1, .ref 2])) (some [])
              none none,
            .node (some "__builtin__/list") (some 1) (some (.iseq [.ref 3])) (some []) none
              none,
            .node (some "__builtin__/list") (some 2) (some (.iseq [])) (some []) none none,
            .node (some "__builtin__/list") (some 3) none none none none],
           [(0, 0), (1, 1), (2, 2), (3, 3)], [(3, 3)]⟩ := by
      rw [drainDeferred.eq_def]
      simp [ispecOf, fspecOf, buildItems, buildFields, marshalSeq, marshalFlds, marshalRec,
        idLookup, pyId, marshalObjectC, patchNode]
    have s4 : drainDeferred [PyObj.pylist [.addr 1, .addr 2], PyObj.pylist [.addr 3],
        PyObj.pylist [], PyObj.pylist []] ⟨[]⟩ 7
        ⟨[.node (some "__builtin__/list") (some 0) (some (.iseq [.ref 1, .ref 2])) (some [])
            none none,
          .node (some "__builtin__/list") (some 1) (some (.iseq [.ref 3])) (some []) none none,
          .node (some "__builtin__/list") (some 2) (some (.iseq [])) (some []) none none,
          .node (some "__builtin__/list") (some 3) none none none none],
         [(0, 0), (1, 1), (2, 2), (3, 3)], [(3, 3)]⟩
        = drainDeferred [PyObj.pylist [.addr 1, .addr 2], PyObj.pylist [.addr 3],
            PyObj.pylist [], PyObj.pylist []] ⟨[]⟩ 6
          ⟨[.node (some "__builtin__/list") (some 0) (some (.iseq [.ref 1, .ref 2])) (some [])
              none none,
            .node (some "__builtin__/list") (some 1) (some (.iseq [.ref 3])) (some []) none
              none,
            .node (some "__builtin__/list") (some 2) (some (.iseq [])) (some []) none none,
            .node (some "__builtin__/list") (some 3) (some (.iseq [])) (some []) none none],
           [(0, 0), (1, 1), (2, 2), (3, 3)], []⟩ := by
      rw [drainDeferred.eq_def]
      simp [ispecOf, fspecOf, buildItems, buildFields, marshalSeq, marshalFlds, marshalRec,
        idLookup, pyId, marshalObjectC, patchNode]
    rw [s1, s2, s3, s4]
    rw [drainDeferred.eq_def]
  · simp [specDfsOrder, specDfsMany, childRefs]

/-- C3 amended: in any successful encode run, oids are the non-negative
integers `0, 1, ..., n-1`, unique, assigned in strictly increasing
first-visit order starting at 0 (the identity map lists first-visited
addresses in order, paired with consecutive oids); the first-visit order
is the encoder's traversal order — immediate recursion into immutable
composites but FIFO deferred-queue order across mutable composites — which
differs in general from a depth-first walk. -/
theorem oid_assignment_order (h : Heap) (env : PyEnv) (fuel : Nat) (root : PyRef)
    (st1 st2 : EncState) (pay : GRec)
    (h1 : marshalRec h env fuel ⟨[], [], []⟩ root = .ok (st1, pay))
    (h2 : drainDeferred h env fuel st1 = .ok st2) :
    st2.ids.map Prod.snd = List.range st2.ids.length ∧
    (st2.ids.map Prod.snd).Nodup ∧ (st2.ids.map Prod.fst).Nodup := by
  obtain ⟨⟨hwf, _, _, _⟩, _, _, _⟩ := genMarshal_run_good h env fuel root st1 st2 pay h1 h2
  exact ⟨hwf.1, by rw [hwf.1]; exact List.nodup_range _, hwf.2⟩

/-- Witness for the oid-order facts on the same four-list heap. -/
theorem oid_assignment_order_witness :
    (([(0, 0), (1, 1), (2, 2), (3, 3)] : List (Nat × Nat)).map Prod.snd
        = List.range ([(0, 0), (1, 1), (2, 2), (3, 3)] : List (Nat × Nat)).length) ∧
    (([(0, 0), (1, 1), (2, 2), (3, 3)] : List (Nat × Nat)).map Prod.snd).Nodup ∧
    (([(0, 0), (1, 1), (2, 2), (3, 3)] : List (Nat × Nat)).map Prod.fst).Nodup := by
  have hrun := oid_dfs_order_cex
  exact oid_assignment_order _ ⟨[]⟩ 10 (.addr 0) _ _ _ hrun.1 hrun.2.1

/-! ## Claim C5: immutable composites populated at emission, never deferred -/

theorem buildItems_seqI_shape {h : Heap} {env : PyEnv} {F : Nat} {st : EncState}
    {xs : List PyRef} {st' : EncState} {items : Option GItems}
    (hc : buildItems h env F st (.seqI xs) = .ok (st', items)) :
    ∃ rs, items = some (.iseq rs) := by
  simp only [buildItems.eq_def] at hc
  split at hc
  · cases hc
  · cases hc
    exact ⟨_, rfl⟩

theorem buildItems_strI_shape {h : Heap} {env : PyEnv} {F : Nat} {st : EncState}
    {s : String} {st' : EncState} {items : Option GItems}
    (hc : buildItems h env F st (.strI s) = .ok (st', items)) :
    items = some (.istr s) := by
  simp only [buildItems.eq_def] at hc
  cases hc
  rfl

theorem buildFields_some_shape {h : Heap} {env : PyEnv} {F : Nat} {st : EncState}
    {fl : List (String × PyRef)} {st' : EncState} {flds : Option (List (String × GRec))}
    (hc : buildFields h env F st (some fl) = .ok (st', flds)) :
    ∃ gs, flds = some gs := by
  simp only [buildFields.eq_def] at hc
  split at hc
  · cases hc
  · cases hc
    exact ⟨_, rfl⟩

/-- Emission shape of `marshal_object` for an immutable composite that was
given a kind name, items and a `{}` field source: the node is emitted with
items and fields populated, as the last record appended. -/
theorem marshalObjectC_imm_emits {h : Heap} {env : PyEnv} {F : Nat} {st : EncState}
    {a : Nat} {kind : String} {isp : ISpec} {fsp : Option (List (String × PyRef))}
    {st' : EncState} {out : GRec}
    (hl : idLookup st.ids a = none)
    (hc : marshalObjectC h env F st a kind true isp fsp = .ok (st', out)) :
    ∃ pre items flds,
      st'.objects = st.objects ++ pre ++
        [.node (some kind) (some st.ids.length) items flds none none] ∧
      (∀ xs, isp = .seqI xs → ∃ rs, items = some (.iseq rs)) ∧
      (∀ s, isp = .strI s → items = some (.istr s)) ∧
      (∀ fl, fsp = some fl → ∃ gs, flds = some gs) ∧
      st'.deferredQ = st.deferredQ ++
        (st'.deferredQ.drop st.deferredQ.length) := by
  rw [marshalObjectC] at hc
  rw [pyId_fresh st.ids a hl] at hc
  simp only [] at hc
  split at hc
  · split at hc
    · cases hc
    · rename_i st2 items heqI
      split at hc
      · cases hc
      · rename_i st3 flds heqF
        have hT := encTrans_trans (buildItems_trans (recOK_all h env F) _ isp st2 items heqI).1
          (buildFields_trans (recOK_all h env F) st2 fsp st3 flds heqF).1
        cases hc
        obtain ⟨_, _, p2, _, ho2, hq2, _, _, _⟩ := hT
        refine ⟨p2, items, flds, ?_, ?_, ?_, ?_, ?_⟩
        · show st3.objects ++ _ = _
          rw [ho2]
        · intro xs hxs
          rw [hxs] at heqI
          exact buildItems_seqI_shape heqI
        · intro s hs
          rw [hs] at heqI
          exact buildItems_strI_shape heqI
        · intro fl hfl
          rw [hfl] at heqF
          exact buildFields_some_shape heqF
        · show st3.deferredQ = _
          rw [hq2]
          show st.deferredQ ++ _ = st.deferredQ ++ (st.deferredQ ++ _).drop st.deferredQ.length
          rw [List.drop_left]
  · rename_i hfalse
    exact absurd trivial hfalse

/-- C5: every node for an immutable composite (tuple, frozen set, complex
number, function, class, module) is fully populated at the moment it is
emitted and its object is never placed on the deferred queue — every
deferred entry ever enqueued is for a mutable composite (list, dict, set
or generic instance) — while a mutable composite's node is emitted as an
empty shell and populated later by the drain loop. -/
theorem immutable_populated_never_deferred (h : Heap) (env : PyEnv) :
    (∀ F st r st' out, marshalRec h env F st r = .ok (st', out) →
      ∃ dpost, st'.deferredQ = st.deferredQ ++ dpost ∧
        ∀ e ∈ dpost, mutableKindAt h e.1 = true) ∧
    (∀ F st a st' out, idLookup st.ids a = none →
      marshalRec h env (F + 1) st (.addr a) = .ok (st', out) →
      ((∃ xs, h[a]? = some (.pytuple xs)) ∨ (∃ xs, h[a]? = some (.pyfrozenset xs)) ∨
        (∃ re im, h[a]? = some (.pycomplex re im))) →
      ∃ pre ty items flds, st'.objects = st.objects ++ pre ++
        [.node (some ty) (some st.ids.length) (some items) (some flds) none none]) := by
  constructor
  · intro F st r st' out hc
    obtain ⟨⟨_, _⟩, _, _, dpost, _, hq, _, _, hm⟩ := (recOK_all h env F st r st' out hc).1
    exact ⟨dpost, hq, hm⟩
  · intro F st a st' out hk hc hkind
    rw [marshalRec.eq_def] at hc
    simp only [] at hc
    rw [hk] at hc
    rcases hkind with ⟨xs, ho⟩ | ⟨xs, ho⟩ | ⟨re, im, ho⟩
    · rw [ho] at hc
      simp only [] at hc
      obtain ⟨pre, items, flds, hobj, hseq, _, hfl, _⟩ := marshalObjectC_imm_emits hk hc
      obtain ⟨rs, hrs⟩ := hseq xs rfl
      obtain ⟨gs, hgs⟩ := hfl [] rfl
      exact ⟨pre, _, _, _, by rw [hobj, hrs, hgs]⟩
    · rw [ho] at hc
      simp only [] at hc
      obtain ⟨pre, items, flds, hobj, hseq, _, hfl, _⟩ := marshalObjectC_imm_emits hk hc
      obtain ⟨rs, hrs⟩ := hseq xs rfl
      obtain ⟨gs, hgs⟩ := hfl [] rfl
      exact ⟨pre, _, _, _, by rw [hobj, hrs, hgs]⟩
    · rw [ho] at hc
      simp only [] at hc
      obtain ⟨pre, items, flds, hobj, _, hstr, hfl, _⟩ := marshalObjectC_imm_emits hk hc
      have hrs := hstr _ rfl
      obtain ⟨gs, hgs⟩ := hfl [] rfl
      exact ⟨pre, _, _, _, by rw [hobj, hrs, hgs]⟩

/-- Witness for the C5 facts on the nested-tuple heap: the run defers
nothing, and the outer tuple's node is emitted with populated items. -/
theorem immutable_populated_never_deferred_witness :
    (∃ dpost, ([] : List (Nat × Nat)) = [] ++ dpost ∧
      ∀ e ∈ dpost, mutableKindAt [PyObj.pytuple [.addr 1], PyObj.pytuple []] e.1 = true) ∧
    (∃ pre ty items flds,
      [GRec.node (some "__builtin__/tuple") (some 1) (some (.iseq [])) (some []) none none,
       GRec.node (some "__builtin__/tuple") (some 0) (some (.iseq [.ref 1])) (some []) none
         none]
        = [] ++ pre ++ [.node (some ty) (some 0) (some items) (some flds) none none]) := by
  have h1 : marshalRec [PyObj.pytuple [.addr 1], PyObj.pytuple []] ⟨[]⟩ 10 ⟨[], [], []⟩
      (.addr 0) = .ok
      (⟨[.node (some "__builtin__/tuple") (some 1) (some (.iseq [])) (some []) none none,
         .node (some "__builtin__/tuple") (some 0) (some (.iseq [.ref 1])) (some []) none none],
        [(0, 0), (1, 1)], []⟩, .ref 0) := by
    simp [marshalRec, idLookup, marshalObjectC, pyId, buildItems, buildFields, marshalSeq,
      marshalFlds]
  constructor
  · exact (immutable_populated_never_deferred _ _).1 10 _ _ _ _ h1
  · exact (immutable_populated_never_deferred _ _).2 9 ⟨[], [], []⟩ 0 _ _ rfl h1
      (Or.inl ⟨[.addr 1], rfl⟩)

/-! ## Encoder output characterization

The record the encoder emits for each identity-mapped object, with child
references resolved through the identity map, and the ordering guarantee
that an immediately-marshalled composite's children are on record before
the composite itself. -/

def oidsOf (l : List GRec) : List Nat := l.filterMap recOid

/-- Child translation: a primitive stays itself, an address becomes a
reference to its assigned oid. -/
def encChild (ids : List (Nat × Nat)) : PyRef → Option GRec
  | .prim p => some (.prim p)
  | .addr b => (idLookup ids b).map GRec.ref

def encChildren (ids : List (Nat × Nat)) : List PyRef → Option (List GRec)
  | [] => some []
  | x :: xs =>
    match encChild ids x, encChildren ids xs with
    | some g, some gs => some (g :: gs)
    | _, _ => none

def encPairs (ids : List (Nat × Nat)) : List (PyRef × PyRef) → Option (List (GRec × GRec))
  | [] => some []
  | (k, v) :: rest =>
    match encChild ids k, encChild ids v, encPairs ids rest with
    | some kg, some vg, some ps => some ((kg, vg) :: ps)
    | _, _, _ => none

/-- Field translation of `_object`: keys starting with `__` and callable
values are dropped, the rest are marshalled. -/
def encFields (h : Heap) (ids : List (Nat × Nat)) :
    List (String × PyRef) → Option (List (String × GRec))
  | [] => some []
  | (key, v) :: rest =>
    if key.startsWith "__" || isCallable h v then encFields h ids rest
    else
      match encChild ids v, encFields h ids rest with
      | some g, some gs => some ((key, g) :: gs)
      | _, _ => none

def addrsOf (xs : List PyRef) : List Nat :=
  xs.filterMap (fun r => match r with | .addr b => some b | _ => none)

/-- The kinds whose children are marshalled inside the owner's `_marshal`
call, before the owner's node is appended: tuples, frozen sets and bound
methods. -/
def immNodeKind (h : Heap) (a : Nat) : Bool :=
  match h[a]? with
  | some (.pytuple _) => true
  | some (.pyfrozenset _) => true
  | some (.pyboundmethod _ _) => true
  | _ => false

/-- Addresses marshalled immediately within the owner's `_marshal` call. -/
def immChildAddrs (h : Heap) (a : Nat) : List Nat :=
  match h[a]? with
  | some (.pytuple xs) => addrsOf xs
  | some (.pyfrozenset xs) => addrsOf xs
  | some (.pyboundmethod iref _) => addrsOf [iref]
  | _ => []

/-- Addresses an item spec iterates over. -/
def ispecAddrs : ISpec → List Nat
  | .seqI xs => addrsOf xs
  | .mapI kvs => addrsOf (kvs.map Prod.fst) ++ addrsOf (kvs.map Prod.snd)
  | _ => []

/-- Addresses a field spec iterates over. -/
def fspecAddrs : Option (List (String × PyRef)) → List Nat
  | none => []
  | some fl => addrsOf (fl.map Prod.snd)

/-- Content specification of the completed node for the object at `a`
under oid `k`, with every child resolved through `ids` (dispatch by the
object's kind). -/
def nodeForCore (h : Heap) (ids : List (Nat × Nat)) (k : Nat) :
    Option PyObj → GRec → Prop
  | some (.pylist xs), g => ∃ rs, encChildren ids xs = some rs ∧
      g = .node (some "__builtin__/list") (some k) (some (.iseq rs)) (some []) none none
  | some (.pytuple xs), g => ∃ rs, encChildren ids xs = some rs ∧
      g = .node (some "__builtin__/tuple") (some k) (some (.iseq rs)) (some []) none none
  | some (.pydict kvs), g => ∃ ps, encPairs ids kvs = some ps ∧
      g = .node (some "__builtin__/dict") (some k) (some (.imap ps)) (some []) none none
  | some (.pyset xs), g => ∃ rs, encChildren ids xs = some rs ∧
      g = .node (some "__builtin__/set") (some k) (some (.iseq rs)) (some []) none none
  | some (.pyfrozenset xs), g => ∃ rs, encChildren ids xs = some rs ∧
      g = .node (some "__builtin__/frozenset") (some k) (some (.iseq rs)) (some []) none none
  | some (.pycomplex re im), g =>
      g = .node (some "__builtin__/complex") (some k)
        (some (.istr (complexItemsStr re im))) (some []) none none
  | some (.pyfunc mo na), g => g = .node (some (mo ++ "/" ++ na)) (some k) none none none none
  | some (.pyclass mo na _), g => g = .node (some (mo ++ "/" ++ na)) (some k) none none none none
  | some (.pymodule mname _), g => g = .node (some mname) (some k) none none none none
  | some (.pyinstance ca fl), g => ∃ mo na ats gs, h[ca]? = some (.pyclass mo na ats) ∧
      encFields h ids fl = some gs ∧
      g = .node (some (mo ++ "/" ++ na)) (some k) none (some gs) none none
  | some (.pyboundmethod iref fi), g => ∃ m iv, funcNameOf h fi = some m ∧
      encChild ids iref = some iv ∧
      g = .node none (some k) none none (some m) (some iv)
  | _, _ => False

def NodeFor (h : Heap) (ids : List (Nat × Nat)) (a k : Nat) (g : GRec) : Prop :=
  nodeForCore h ids k h[a]? g

/-- Shape of the shell node emitted for a deferred mutable composite. -/
def shellForCore (h : Heap) (k : Nat) : Option PyObj → GRec → Prop
  | some (.pylist _), g => g = .node (some "__builtin__/list") (some k) none none none none
  | some (.pydict _), g => g = .node (some "__builtin__/dict") (some k) none none none none
  | some (.pyset _), g => g = .node (some "__builtin__/set") (some k) none none none none
  | some (.pyinstance ca _), g => ∃ mo na ats, h[ca]? = some (.pyclass mo na ats) ∧
      g = .node (some (mo ++ "/" ++ na)) (some k) none none none none
  | _, _ => False

def ShellFor (h : Heap) (a k : Nat) (g : GRec) : Prop :=
  shellForCore h k h[a]? g

/-- Identifier-shaped scoped-name components: no separator characters and
a nonempty attribute name, with the module distinct from `__builtin__`. -/
def NameOK (mo na : String) : Prop :=
  ¬ '/' ∈ mo.data ∧ mo ≠ "__builtin__" ∧ ¬ '/' ∈ na.data ∧ ¬ '.' ∈ na.data ∧ na ≠ ""

/-- Environment sanity and resolvability conditions: functions, classes
and modules are reachable as top-level attributes of their declaring
modules under identifier-shaped names, instances carry a class, bound
methods wrap a named function, and `rk` is a rank function witnessing that
no containment cycle passes through an immediately-marshalled kind (a
tuple, frozen set or bound method cannot contain itself in CPython, since
it is fully built before it becomes reachable). -/
structure SupHeap (h : Heap) (env : PyEnv) (rk : Nat → Nat) : Prop where
  ranks : ∀ a b, immNodeKind h a = true → b ∈ immChildAddrs h a → rk b < rk a
  funcRes : ∀ a mo na, h[a]? = some (.pyfunc mo na) →
    ∃ ma mattrs, lookupStr env.mods mo = some ma ∧ h[ma]? = some (.pymodule mo mattrs) ∧
      lookupStr mattrs na = some (.addr a) ∧ NameOK mo na
  classRes : ∀ a mo na ats, h[a]? = some (.pyclass mo na ats) →
    ∃ ma mattrs, lookupStr env.mods mo = some ma ∧ h[ma]? = some (.pymodule mo mattrs) ∧
      lookupStr mattrs na = some (.addr a) ∧ NameOK mo na
  instCls : ∀ (a ca : Nat) (fl : List (String × PyRef)),
    h[a]? = some (PyObj.pyinstance ca fl) →
    ∃ (mo na : String) (ats : List (String × PyRef)),
      h[ca]? = some (PyObj.pyclass mo na ats)
  modRes : ∀ (a : Nat) (mname : String) (ats : List (String × PyRef)),
    h[a]? = some (PyObj.pymodule mname ats) →
    lookupStr env.mods mname = some a ∧ mname ≠ "__builtin__" ∧ ¬ '/' ∈ mname.data
  bmRes : ∀ (a : Nat) (iref : PyRef) (fi : Nat),
    h[a]? = some (PyObj.pyboundmethod iref fi) →
    ∃ (ia ca : Nat) (fl : List (String × PyRef)), iref = .addr ia ∧
      h[ia]? = some (PyObj.pyinstance ca fl) ∧
      ∃ (mo2 na2 : String) (ats : List (String × PyRef)),
        h[ca]? = some (PyObj.pyclass mo2 na2 ats) ∧
        ∃ (m mo3 : String), funcNameOf h fi = some m ∧
          lookupStr ats m = some (.addr fi) ∧ h[fi]? = some (PyObj.pyfunc mo3 m)
  cplxRe : ∀ (a : Nat) (re im : Int), h[a]? = some (PyObj.pycomplex re im) → re ≠ 0

/-- All identity-mapped pairs whose oid has no node yet rank above `ρ`:
the in-flight immutables of the recursion. -/
def PendBound (h : Heap) (rk : Nat → Nat) (st : EncState) (ρ : Nat) : Prop :=
  ∀ b k, (b, k) ∈ st.ids → k ∉ oidsOf st.objects → ρ < rk b

/-- Every assigned oid already has its node on record. -/
def NoPend (st : EncState) : Prop :=
  ∀ b k, (b, k) ∈ st.ids → k ∈ oidsOf st.objects

/-- The three state components only grow. -/
def ExtOnly (s t : EncState) : Prop :=
  (∃ p, t.objects = s.objects ++ p) ∧ (∃ d, t.ids = s.ids ++ d) ∧
  (∃ q, t.deferredQ = s.deferredQ ++ q)

/-- The completed node for `(a, k)` is on record, with correct contents,
and if `a` is an immediately-marshalled kind its children precede it. -/
def DoneAt (h : Heap) (st : EncState) (a k : Nat) : Prop :=
  ∃ p g, st.objects[p]? = some g ∧ recOid g = some k ∧ NodeFor h st.ids a k g ∧
    (immNodeKind h a = true → ∀ b ∈ immChildAddrs h a,
      ∃ k', idLookup st.ids b = some k' ∧ k' ∈ oidsOf (st.objects.take p))

/-- A live deferred entry: its address is identity-mapped and its recorded
position holds the matching shell. -/
def QEntry (h : Heap) (st : EncState) (e : Nat × Nat) : Prop :=
  ∃ k g, idLookup st.ids e.1 = some k ∧ st.objects[e.2]? = some g ∧
    recOid g = some k ∧ ShellFor h e.1 k g

/-- Per-call characterization delta: every newly mapped pair is completed
or deferred, new deferred entries are live and had unseen addresses, and
the deferred queue's addresses stay duplicate-free. -/
def Char2 (h : Heap) (s t : EncState) : Prop :=
  (∀ b k, (b, k) ∈ t.ids → (b, k) ∉ s.ids →
      DoneAt h t b k ∨ ∃ idx, (b, idx) ∈ t.deferredQ) ∧
  (∀ e ∈ t.deferredQ, e ∉ s.deferredQ → QEntry h t e) ∧
  (∀ e ∈ t.deferredQ, e ∉ s.deferredQ → idLookup s.ids e.1 = none) ∧
  (((s.deferredQ.map Prod.fst).Nodup ∧ ∀ e ∈ s.deferredQ, e.1 ∈ s.ids.map Prod.fst) →
      (t.deferredQ.map Prod.fst).Nodup)

/-- Global mid-run characterization invariant. -/
def CharInv (h : Heap) (st : EncState) : Prop :=
  (∀ a k, (a, k) ∈ st.ids →
      DoneAt h st a k ∨ (∃ idx, (a, idx) ∈ st.deferredQ) ∨ k ∉ oidsOf st.objects) ∧
  (∀ e ∈ st.deferredQ, QEntry h st e) ∧
  (st.deferredQ.map Prod.fst).Nodup

/-! ### Identity-map and oid-list toolbox -/

theorem idLookup_cons (q : Nat × Nat) (l : List (Nat × Nat)) (a : Nat) :
    idLookup (q :: l) a = if q.1 == a then some q.2 else idLookup l a := by
  unfold idLookup
  cases hqa : (q.1 == a) <;> simp [List.find?_cons, hqa]

theorem idLookup_append_some {l : List (Nat × Nat)} {a k : Nat}
    (hl : idLookup l a = some k) (d : List (Nat × Nat)) :
    idLookup (l ++ d) a = some k := by
  induction l with
  | nil => simp [idLookup] at hl
  | cons q rest ih =>
    rw [idLookup_cons] at hl
    rw [List.cons_append, idLookup_cons]
    split at hl
    · rename_i hq
      rw [if_pos hq]
      exact hl
    · rename_i hq
      rw [if_neg hq]
      exact ih hl

theorem idLookup_append_none {l d : List (Nat × Nat)} {a : Nat}
    (hl : idLookup (l ++ d) a = none) : idLookup l a = none := by
  cases hc : idLookup l a with
  | none => rfl
  | some k => rw [idLookup_append_some hc d] at hl; cases hl

theorem idLookup_append_fresh {l : List (Nat × Nat)} {a : Nat} (k : Nat)
    (d : List (Nat × Nat)) (hl : idLookup l a = none) :
    idLookup (l ++ (a, k) :: d) a = some k := by
  induction l with
  | nil => simp [idLookup_cons]
  | cons q rest ih =>
    rw [idLookup_cons] at hl
    rw [List.cons_append, idLookup_cons]
    split at hl
    · cases hl
    · rename_i hq
      rw [if_neg hq]
      exact ih hl

theorem idLookup_some_mem {l : List (Nat × Nat)} {a k : Nat}
    (hl : idLookup l a = some k) : (a, k) ∈ l := by
  induction l with
  | nil => simp [idLookup] at hl
  | cons q rest ih =>
    rw [idLookup_cons] at hl
    split at hl
    · rename_i hq
      obtain ⟨x, y⟩ := q
      simp only [Option.some.injEq] at hl
      have hx : x = a := by simpa using hq
      simp [hx, hl]
    · exact List.mem_cons_of_mem _ (ih hl)

theorem mem_idLookup {l : List (Nat × Nat)} {a k : Nat}
    (hnd : (l.map Prod.fst).Nodup) (hm : (a, k) ∈ l) : idLookup l a = some k := by
  induction l with
  | nil => cases hm
  | cons q rest ih =>
    rw [idLookup_cons]
    rcases List.mem_cons.mp hm with hq | hq
    · rw [← hq]
      simp
    · have hnd' : (rest.map Prod.fst).Nodup := (List.nodup_cons.mp hnd).2
      have hq1 : ¬ (q.1 == a) = true := by
        intro hb
        have ha1 : q.1 = a := by simpa using hb
        have : a ∈ rest.map Prod.fst := List.mem_map.mpr ⟨(a, k), hq, rfl⟩
        exact (List.nodup_cons.mp hnd).1 (ha1 ▸ this)
      rw [if_neg hq1]
      exact ih hnd' hq

theorem ids_pair_lookup {ids : List (Nat × Nat)} {a k : Nat}
    (hw : IdsWF ids) (hm : (a, k) ∈ ids) : idLookup ids a = some k :=
  mem_idLookup hw.2 hm

theorem ids_snd_nodup {ids : List (Nat × Nat)} (hw : IdsWF ids) :
    (ids.map Prod.snd).Nodup := by
  rw [hw.1]
  exact List.nodup_range _

theorem ids_snd_inj {ids : List (Nat × Nat)} {a b k : Nat}
    (hw : IdsWF ids) (ha : (a, k) ∈ ids) (hb : (b, k) ∈ ids) : a = b := by
  have := List.inj_on_of_nodup_map (ids_snd_nodup hw) ha hb rfl
  exact congrArg Prod.fst this

theorem ids_snd_lt {ids : List (Nat × Nat)} {a k : Nat}
    (hw : IdsWF ids) (ha : (a, k) ∈ ids) : k < ids.length := by
  have : k ∈ ids.map Prod.snd := List.mem_map.mpr ⟨(a, k), ha, rfl⟩
  rw [hw.1] at this
  exact List.mem_range.mp this

theorem ids_snd_surj {ids : List (Nat × Nat)} (hw : IdsWF ids) {k : Nat}
    (hk : k < ids.length) : ∃ a, (a, k) ∈ ids := by
  have : k ∈ ids.map Prod.snd := by
    rw [hw.1]
    exact List.mem_range.mpr hk
  obtain ⟨p, hp, hpe⟩ := List.mem_map.mp this
  obtain ⟨x, y⟩ := p
  have hy : y = k := hpe
  subst hy
  exact ⟨x, hp⟩

theorem oidsOf_append (l1 l2 : List GRec) :
    oidsOf (l1 ++ l2) = oidsOf l1 ++ oidsOf l2 := by
  simp [oidsOf]

theorem mem_oidsOf_of_at {l : List GRec} {p : Nat} {g : GRec} {k : Nat}
    (hp : l[p]? = some g) (hk : recOid g = some k) : k ∈ oidsOf l := by
  have hg : g ∈ l := List.getElem?_mem hp
  unfold oidsOf
  exact List.mem_filterMap.mpr ⟨g, hg, hk⟩

theorem oidsOf_at_of_mem {l : List GRec} {k : Nat} (hm : k ∈ oidsOf l) :
    ∃ (p : Nat) (g : GRec), l[p]? = some g ∧ recOid g = some k := by
  unfold oidsOf at hm
  obtain ⟨g, hg, hk⟩ := List.mem_filterMap.mp hm
  obtain ⟨n, hn, he⟩ := List.getElem_of_mem hg
  refine ⟨n, g, ?_, hk⟩
  rw [List.getElem?_eq_getElem hn]
  exact congrArg some he

/-! ### Stability of the characterization under state growth -/

theorem encChild_ext {ids : List (Nat × Nat)} {r : PyRef} {g : GRec}
    (hc : encChild ids r = some g) (d : List (Nat × Nat)) :
    encChild (ids ++ d) r = some g := by
  cases r with
  | prim p => exact hc
  | addr b =>
    simp only [encChild, Option.map_eq_some'] at hc ⊢
    obtain ⟨k, hk, hg⟩ := hc
    exact ⟨k, idLookup_append_some hk d, hg⟩

theorem encChildren_ext {ids : List (Nat × Nat)} {xs : List PyRef} {rs : List GRec}
    (hc : encChildren ids xs = some rs) (d : List (Nat × Nat)) :
    encChildren (ids ++ d) xs = some rs := by
  induction xs generalizing rs with
  | nil => exact hc
  | cons x rest ih =>
    rw [encChildren] at hc
    split at hc
    · rename_i g gs hg hgs
      cases hc
      rw [encChildren, encChild_ext hg d, ih hgs]
    · cases hc

theorem encPairs_ext {ids : List (Nat × Nat)} {kvs : List (PyRef × PyRef)}
    {ps : List (GRec × GRec)}
    (hc : encPairs ids kvs = some ps) (d : List (Nat × Nat)) :
    encPairs (ids ++ d) kvs = some ps := by
  induction kvs generalizing ps with
  | nil => exact hc
  | cons kv rest ih =>
    obtain ⟨kk, vv⟩ := kv
    rw [encPairs] at hc
    split at hc
    · rename_i kg vg qs hkg hvg hqs
      cases hc
      rw [encPairs, encChild_ext hkg d, encChild_ext hvg d, ih hqs]
    · cases hc

theorem encFields_ext {h : Heap} {ids : List (Nat × Nat)} {fl : List (String × PyRef)}
    {gs : List (String × GRec)}
    (hc : encFields h ids fl = some gs) (d : List (Nat × Nat)) :
    encFields h (ids ++ d) fl = some gs := by
  induction fl generalizing gs with
  | nil => exact hc
  | cons kv rest ih =>
    obtain ⟨key, v⟩ := kv
    rw [encFields] at hc
    rw [encFields]
    split at hc
    · rename_i hskip
      rw [if_pos hskip]
      exact ih hc
    · rename_i hskip
      rw [if_neg hskip]
      split at hc
      · rename_i g hs hg hhs
        cases hc
        rw [encChild_ext hg d, ih hhs]
      · cases hc

theorem nodeForCore_ext (h : Heap) (ids : List (Nat × Nat)) (k : Nat)
    (ob : Option PyObj) (g : GRec) (d : List (Nat × Nat))
    (hn : nodeForCore h ids k ob g) : nodeForCore h (ids ++ d) k ob g := by
  cases ob with
  | none => simp only [nodeForCore] at hn
  | some o =>
    cases o with
    | pylist xs =>
      simp only [nodeForCore] at hn ⊢
      obtain ⟨rs, h1, h2⟩ := hn
      exact ⟨rs, encChildren_ext h1 d, h2⟩
    | pytuple xs =>
      simp only [nodeForCore] at hn ⊢
      obtain ⟨rs, h1, h2⟩ := hn
      exact ⟨rs, encChildren_ext h1 d, h2⟩
    | pydict kvs =>
      simp only [nodeForCore] at hn ⊢
      obtain ⟨ps, h1, h2⟩ := hn
      exact ⟨ps, encPairs_ext h1 d, h2⟩
    | pyset xs =>
      simp only [nodeForCore] at hn ⊢
      obtain ⟨rs, h1, h2⟩ := hn
      exact ⟨rs, encChildren_ext h1 d, h2⟩
    | pyfrozenset xs =>
      simp only [nodeForCore] at hn ⊢
      obtain ⟨rs, h1, h2⟩ := hn
      exact ⟨rs, encChildren_ext h1 d, h2⟩
    | pyinstance ca fl =>
      simp only [nodeForCore] at hn ⊢
      obtain ⟨mo, na, ats, gs, h1, h2, h3⟩ := hn
      exact ⟨mo, na, ats, gs, h1, encFields_ext h2 d, h3⟩
    | pyboundmethod iref fi =>
      simp only [nodeForCore] at hn ⊢
      obtain ⟨m, iv, h1, h2, h3⟩ := hn
      exact ⟨m, iv, h1, encChild_ext h2 d, h3⟩
    | pycomplex re im => exact hn
    | pyfunc mo na => exact hn
    | pyclass mo na ats => exact hn
    | pymodule mn ats => exact hn
    | pylambda => simp only [nodeForCore] at hn
    | pyclosure mo na => simp only [nodeForCore] at hn
    | pygenerator => simp only [nodeForCore] at hn
    | pyiterator => simp only [nodeForCore] at hn

theorem nodeFor_ext {h : Heap} {ids : List (Nat × Nat)} {a k : Nat} {g : GRec}
    (hn : NodeFor h ids a k g) (d : List (Nat × Nat)) :
    NodeFor h (ids ++ d) a k g :=
  nodeForCore_ext h ids k h[a]? g d hn

/-! ### Monotonicity of statuses under state growth -/

theorem extOnly_refl (s : EncState) : ExtOnly s s :=
  ⟨⟨[], by simp⟩, ⟨[], by simp⟩, ⟨[], by simp⟩⟩

theorem encTrans_extOnly {h : Heap} {s t : EncState} (ht : EncTrans h s t) :
    ExtOnly s t := by
  obtain ⟨hd, _, p, q, ho, hq, _, _, _⟩ := ht
  exact ⟨⟨p, ho⟩, hd, ⟨q, hq⟩⟩

theorem getElem?_append_left_of_some {α : Type} {l1 l2 : List α} {p : Nat} {x : α}
    (hp : l1[p]? = some x) : (l1 ++ l2)[p]? = some x := by
  have hlen : p < l1.length := (List.getElem?_eq_some_iff.mp hp).1
  rw [List.getElem?_append_left hlen]
  exact hp

theorem doneAt_ext {h : Heap} {s t : EncState} {a k : Nat}
    (hx : ExtOnly s t) (hd : DoneAt h s a k) : DoneAt h t a k := by
  obtain ⟨p, g, hp, hk, hnf, hord⟩ := hd
  obtain ⟨⟨po, hpo⟩, ⟨d, hdi⟩, _⟩ := hx
  refine ⟨p, g, ?_, hk, ?_, ?_⟩
  · rw [hpo]
    exact getElem?_append_left_of_some hp
  · rw [hdi]
    exact nodeFor_ext hnf d
  · intro himm b hb
    obtain ⟨k', hk', hko⟩ := hord himm b hb
    refine ⟨k', by rw [hdi]; exact idLookup_append_some hk' d, ?_⟩
    rw [hpo]
    have hple : p ≤ s.objects.length :=
      Nat.le_of_lt (List.getElem?_eq_some_iff.mp hp).1
    rw [List.take_append_of_le_length hple]
    exact hko

theorem qentry_ext {h : Heap} {s t : EncState} {e : Nat × Nat}
    (hx : ExtOnly s t) (hq : QEntry h s e) : QEntry h t e := by
  obtain ⟨k, g, h1, h2, h3, h4⟩ := hq
  obtain ⟨⟨po, hpo⟩, ⟨d, hdi⟩, _⟩ := hx
  exact ⟨k, g, by rw [hdi]; exact idLookup_append_some h1 d,
    by rw [hpo]; exact getElem?_append_left_of_some h2, h3, h4⟩

/-! ### Pending pairs: oids assigned but not yet on record -/

/-- A pair pending after a marshalling transition was already pending
before it: every freshly assigned oid receives its node within the very
call that assigns it. -/
theorem pending_back {h : Heap} {s t : EncState} (ht : EncTrans h s t)
    (hw : IdsWF s.ids) {b k : Nat} (hm : (b, k) ∈ t.ids)
    (hp : k ∉ oidsOf t.objects) : (b, k) ∈ s.ids ∧ k ∉ oidsOf s.objects := by
  obtain ⟨⟨d, hd⟩, hwf, p, q, ho, hq, hperm, _, _⟩ := ht
  have hosub : oidsOf s.objects ⊆ oidsOf t.objects := by
    rw [ho, oidsOf_append]
    exact fun x hx => List.mem_append_left _ hx
  have hm' := hm
  rw [hd] at hm'
  rcases List.mem_append.mp hm' with hms | hmd
  · exact ⟨hms, fun hx => hp (hosub hx)⟩
  · exfalso
    have hw' : IdsWF t.ids := hwf hw
    have hlen : t.ids.length = s.ids.length + d.length := by rw [hd]; simp
    have hsnd : t.ids.map Prod.snd = s.ids.map Prod.snd ++ d.map Prod.snd := by
      rw [hd, List.map_append]
    have hrange : s.ids.map Prod.snd ++ d.map Prod.snd
        = List.range s.ids.length ++ (List.range d.length).map (s.ids.length + ·) := by
      rw [← hsnd, hw'.1, hlen, List.range_add]
    rw [hw.1] at hrange
    have hdsnd : d.map Prod.snd = (List.range d.length).map (s.ids.length + ·) :=
      List.append_cancel_left hrange
    have hk1 : k ∈ d.map Prod.snd := List.mem_map.mpr ⟨(b, k), hmd, rfl⟩
    rw [hdsnd, ← List.range'_eq_map_range] at hk1
    have hk2 : k ∈ p.filterMap recOid := by
      apply hperm.mem_iff.mpr
      rw [show t.ids.length - s.ids.length = d.length by omega]
      exact hk1
    apply hp
    rw [ho, oidsOf_append]
    exact List.mem_append_right _ hk2

theorem pendBound_pres {h : Heap} {rk : Nat → Nat} {s t : EncState} {ρ : Nat}
    (ht : EncTrans h s t) (hw : IdsWF s.ids) (hp : PendBound h rk s ρ) :
    PendBound h rk t ρ := by
  intro b k hm hpe
  obtain ⟨hms, hpo⟩ := pending_back ht hw hm hpe
  exact hp b k hms hpo

/-- An oid pending before a transition stays pending: appended nodes carry
only freshly assigned oids. -/
theorem pending_ext {h : Heap} {s t : EncState} (ht : EncTrans h s t)
    (hw : IdsWF s.ids) {b k : Nat} (hm : (b, k) ∈ s.ids)
    (hp : k ∉ oidsOf s.objects) : k ∉ oidsOf t.objects := by
  obtain ⟨⟨d, hd⟩, hwf, p, q, ho, hq, hperm, _, _⟩ := ht
  intro hx
  rw [ho, oidsOf_append] at hx
  rcases List.mem_append.mp hx with h1 | h1
  · exact hp h1
  · have hk : k < s.ids.length := ids_snd_lt hw hm
    have := hperm.mem_iff.mp h1
    rw [List.mem_range'_1] at this
    omega

/-! ### Composition of characterization deltas -/

theorem char2_refl (h : Heap) (s : EncState) : Char2 h s s :=
  ⟨fun b k hm hnm => absurd hm hnm, fun e he hne => absurd he hne,
   fun e he hne => absurd he hne, fun hp => hp.1⟩

theorem char2_trans {h : Heap} {s t u : EncState}
    (hx1 : ExtOnly s t) (hx2 : ExtOnly t u)
    (c1 : Char2 h s t) (c2 : Char2 h t u) : Char2 h s u := by
  obtain ⟨n1, q1, f1, d1⟩ := c1
  obtain ⟨n2, q2, f2, d2⟩ := c2
  obtain ⟨⟨po1, hpo1⟩, ⟨dd1, hd1⟩, ⟨dq1, hq1⟩⟩ := hx1
  refine ⟨?_, ?_, ?_, ?_⟩
  · intro b k hm hnm
    by_cases hmt : (b, k) ∈ t.ids
    · rcases n1 b k hmt hnm with hdone | ⟨idx, hidx⟩
      · exact Or.inl (doneAt_ext hx2 hdone)
      · obtain ⟨_, _, ⟨dq2, hq2⟩⟩ := hx2
        exact Or.inr ⟨idx, by rw [hq2]; exact List.mem_append_left _ hidx⟩
    · exact n2 b k hm hmt
  · intro e he hne
    by_cases het : e ∈ t.deferredQ
    · exact qentry_ext hx2 (q1 e het hne)
    · exact q2 e he het
  · intro e he hne
    by_cases het : e ∈ t.deferredQ
    · exact f1 e het hne
    · have := f2 e he het
      rw [hd1] at this
      exact idLookup_append_none this
  · rintro ⟨hnd, hsub⟩
    refine d2 ⟨d1 ⟨hnd, hsub⟩, ?_⟩
    intro e he
    by_cases hes : e ∈ s.deferredQ
    · have := hsub e hes
      rw [hd1, List.map_append]
      exact List.mem_append_left _ this
    · obtain ⟨k, g, h1, _⟩ := q1 e he hes
      exact List.mem_map.mpr ⟨(e.1, k), idLookup_some_mem h1, rfl⟩

/-- A characterization delta together with a legal transition preserves
the global invariant. -/
theorem charInv_step {h : Heap} {s t : EncState} (hw : IdsWF s.ids)
    (hci : CharInv h s) (ht : EncTrans h s t) (hc2 : Char2 h s t) : CharInv h t := by
  obtain ⟨hids, hqv, hnd⟩ := hci
  obtain ⟨hnew, hqnew, hqfresh, hndstep⟩ := hc2
  have hx : ExtOnly s t := encTrans_extOnly ht
  refine ⟨?_, ?_, ?_⟩
  · intro a k hm
    by_cases hms : (a, k) ∈ s.ids
    · rcases hids a k hms with hdone | ⟨idx, hidx⟩ | hpend
      · exact Or.inl (doneAt_ext hx hdone)
      · obtain ⟨_, _, ⟨dq, hq⟩⟩ := hx
        exact Or.inr (Or.inl ⟨idx, by rw [hq]; exact List.mem_append_left _ hidx⟩)
      · exact Or.inr (Or.inr (pending_ext ht hw hms hpend))
    · rcases hnew a k hm hms with hdone | hq2
      · exact Or.inl hdone
      · exact Or.inr (Or.inl hq2)
  · intro e he
    by_cases hes : e ∈ s.deferredQ
    · exact qentry_ext hx (hqv e hes)
    · exact hqnew e he hes
  · refine hndstep ⟨hnd, ?_⟩
    intro e he
    obtain ⟨k, g, h1, _⟩ := hqv e he
    exact List.mem_map.mpr ⟨(e.1, k), idLookup_some_mem h1, rfl⟩

/-! ### Item and field result specifications -/

def ItemsSpec (ids : List (Nat × Nat)) : ISpec → Option GItems → Prop
  | .noItems, items => items = none
  | .seqI xs, items => ∃ rs, encChildren ids xs = some rs ∧ items = some (.iseq rs)
  | .mapI kvs, items => ∃ ps, encPairs ids kvs = some ps ∧ items = some (.imap ps)
  | .strI s, items => items = some (.istr s)

def FldsSpec (h : Heap) (ids : List (Nat × Nat)) :
    Option (List (String × PyRef)) → Option (List (String × GRec)) → Prop
  | none, flds => flds = none
  | some fl, flds => ∃ gs, encFields h ids fl = some gs ∧ flds = some gs

theorem mem_addrsOf {xs : List PyRef} {a : Nat} (hm : (PyRef.addr a) ∈ xs) :
    a ∈ addrsOf xs :=
  List.mem_filterMap.mpr ⟨.addr a, hm, rfl⟩

theorem addrsOf_mem {xs : List PyRef} {a : Nat} (hm : a ∈ addrsOf xs) :
    (PyRef.addr a) ∈ xs := by
  obtain ⟨r, hr, he⟩ := List.mem_filterMap.mp hm
  cases r with
  | prim p => cases he
  | addr b =>
    simp only [Option.some.injEq] at he
    rwa [← he]

theorem encChildren_mem {ids : List (Nat × Nat)} {xs : List PyRef} {rs : List GRec}
    (hc : encChildren ids xs = some rs) :
    ∀ b, (PyRef.addr b) ∈ xs → ∃ k', idLookup ids b = some k' := by
  induction xs generalizing rs with
  | nil =>
    intro b hb
    cases hb
  | cons x rest ih =>
    intro b hb
    rw [encChildren] at hc
    split at hc
    · rename_i g gs hg hgs
      rcases List.mem_cons.mp hb with hx | hx
      · rw [← hx] at hg
        simp only [encChild, Option.map_eq_some'] at hg
        obtain ⟨k, hk, _⟩ := hg
        exact ⟨k, hk⟩
      · exact ih hgs b hx
    · cases hc

/-- The characterization shorthand for `_marshal` at one fuel level. -/
def RecOK2 (h : Heap) (env : PyEnv) (rk : Nat → Nat) (F : Nat) : Prop :=
  ∀ st r st' out, IdsWF st.ids →
    (∀ a, r = .addr a → PendBound h rk st (rk a)) →
    marshalRec h env F st r = .ok (st', out) →
    Char2 h st st' ∧ encChild st'.ids r = some out ∧
      ∀ k, out = .ref k → k ∈ oidsOf st'.objects

theorem marshalSeq_char {h : Heap} {env : PyEnv} {rk : Nat → Nat} {F : Nat}
    (hr2 : RecOK2 h env rk F) :
    ∀ xs st st' rs, IdsWF st.ids →
      (∀ a, (PyRef.addr a) ∈ xs → PendBound h rk st (rk a)) →
      marshalSeq h env F st xs = .ok (st', rs) →
      Char2 h st st' ∧ encChildren st'.ids xs = some rs := by
  intro xs
  induction xs with
  | nil =>
    intro st st' rs hw hp hc
    rw [marshalSeq] at hc
    cases hc
    exact ⟨char2_refl h st, rfl⟩
  | cons x rest ih =>
    intro st st' rs hw hp hc
    rw [marshalSeq] at hc
    split at hc
    · cases hc
    · rename_i st1 r heq1
      split at hc
      · cases hc
      · rename_i st2 rs2 heq2
        obtain ⟨ht1, _⟩ := recOK_all h env F st x st1 r heq1
        obtain ⟨c1, he1, _⟩ := hr2 st x st1 r hw
          (fun a ha => hp a (by rw [← ha]; exact List.mem_cons_self x rest)) heq1
        have hw1 : IdsWF st1.ids := ht1.2.1 hw
        have hp1 : ∀ a, (PyRef.addr a) ∈ rest → PendBound h rk st1 (rk a) :=
          fun a ha => pendBound_pres ht1 hw (hp a (List.mem_cons_of_mem x ha))
        obtain ⟨c2, he2⟩ := ih st1 st2 rs2 hw1 hp1 heq2
        obtain ⟨ht2, _⟩ := marshalSeq_trans (recOK_all h env F) rest st1 st2 rs2 heq2
        cases hc
        refine ⟨char2_trans (encTrans_extOnly ht1) (encTrans_extOnly ht2) c1 c2, ?_⟩
        have he1' : encChild st'.ids x = some r := by
          obtain ⟨⟨d2, hd2⟩, _⟩ := ht2
          rw [hd2]
          exact encChild_ext he1 d2
        rw [encChildren, he1', he2]

theorem marshalMap_char {h : Heap} {env : PyEnv} {rk : Nat → Nat} {F : Nat}
    (hr2 : RecOK2 h env rk F) :
    ∀ kvs st st' ps, IdsWF st.ids →
      (∀ a kv, kv ∈ kvs → (kv.1 = PyRef.addr a ∨ kv.2 = PyRef.addr a) →
        PendBound h rk st (rk a)) →
      marshalMap h env F st kvs = .ok (st', ps) →
      Char2 h st st' ∧ encPairs st'.ids kvs = some ps := by
  intro kvs
  induction kvs with
  | nil =>
    intro st st' ps hw hp hc
    rw [marshalMap] at hc
    cases hc
    exact ⟨char2_refl h st, rfl⟩
  | cons kv rest ih =>
    intro st st' ps hw hp hc
    obtain ⟨kk, vv⟩ := kv
    rw [marshalMap] at hc
    split at hc
    · cases hc
    · rename_i st1 vr heq1
      split at hc
      · cases hc
      · rename_i st2 kr heq2
        split at hc
        · cases hc
        · rename_i st3 qs heq3
          obtain ⟨ht1, _⟩ := recOK_all h env F st vv st1 vr heq1
          obtain ⟨ht2, _⟩ := recOK_all h env F st1 kk st2 kr heq2
          obtain ⟨ht3, _⟩ := marshalMap_trans (recOK_all h env F) rest st2 st3 qs heq3
          have hw1 : IdsWF st1.ids := ht1.2.1 hw
          have hw2 : IdsWF st2.ids := ht2.2.1 hw1
          obtain ⟨c1, he1, _⟩ := hr2 st vv st1 vr hw
            (fun a ha => hp a (kk, vv) (List.mem_cons_self _ _) (Or.inr ha)) heq1
          obtain ⟨c2, he2, _⟩ := hr2 st1 kk st2 kr hw1
            (fun a ha => pendBound_pres ht1 hw
              (hp a (kk, vv) (List.mem_cons_self _ _) (Or.inl ha))) heq2
          have hp3 : ∀ a kv2, kv2 ∈ rest → (kv2.1 = PyRef.addr a ∨ kv2.2 = PyRef.addr a) →
              PendBound h rk st2 (rk a) := fun a kv2 hm hor =>
            pendBound_pres ht2 hw1 (pendBound_pres ht1 hw
              (hp a kv2 (List.mem_cons_of_mem _ hm) hor))
          obtain ⟨c3, he3⟩ := ih st2 st3 qs hw2 hp3 heq3
          cases hc
          refine ⟨char2_trans (encTrans_extOnly ht1)
            (encTrans_extOnly (encTrans_trans ht2 ht3))
            c1 (char2_trans (encTrans_extOnly ht2) (encTrans_extOnly ht3) c2 c3), ?_⟩
          have he2' : encChild st'.ids kk = some kr := by
            obtain ⟨⟨d3, hd3⟩, _⟩ := ht3
            rw [hd3]
            exact encChild_ext he2 d3
          have he1' : encChild st'.ids vv = some vr := by
            obtain ⟨⟨d2, hd2⟩, _⟩ := encTrans_trans ht2 ht3
            rw [hd2]
            exact encChild_ext he1 d2
          rw [encPairs, he2', he1', he3]

theorem marshalFlds_char {h : Heap} {env : PyEnv} {rk : Nat → Nat} {F : Nat}
    (hr2 : RecOK2 h env rk F) :
    ∀ fl st st' gs, IdsWF st.ids →
      (∀ a kv, kv ∈ fl → kv.2 = PyRef.addr a → PendBound h rk st (rk a)) →
      marshalFlds h env F st fl = .ok (st', gs) →
      Char2 h st st' ∧ encFields h st'.ids fl = some gs := by
  intro fl
  induction fl with
  | nil =>
    intro st st' gs hw hp hc
    rw [marshalFlds] at hc
    cases hc
    exact ⟨char2_refl h st, rfl⟩
  | cons kv rest ih =>
    intro st st' gs hw hp hc
    obtain ⟨key, v⟩ := kv
    rw [marshalFlds] at hc
    rw [encFields]
    split at hc
    · rename_i hskip
      rw [if_pos hskip]
      exact ih st st' gs hw
        (fun a kv2 hm he => hp a kv2 (List.mem_cons_of_mem _ hm) he) hc
    · rename_i hskip
      rw [if_neg hskip]
      split at hc
      · cases hc
      · rename_i st1 gv heq1
        split at hc
        · cases hc
        · rename_i st2 hs heq2
          obtain ⟨ht1, _⟩ := recOK_all h env F st v st1 gv heq1
          obtain ⟨ht2, _⟩ := marshalFlds_trans (recOK_all h env F) rest st1 st2 hs heq2
          have hw1 : IdsWF st1.ids := ht1.2.1 hw
          obtain ⟨c1, he1, _⟩ := hr2 st v st1 gv hw
            (fun a ha => hp a (key, v) (List.mem_cons_self _ _) ha) heq1
          obtain ⟨c2, he2⟩ := ih st1 st2 hs hw1
            (fun a kv2 hm he => pendBound_pres ht1 hw
              (hp a kv2 (List.mem_cons_of_mem _ hm) he)) heq2
          cases hc
          refine ⟨char2_trans (encTrans_extOnly ht1) (encTrans_extOnly ht2) c1 c2, ?_⟩
          have he1' : encChild st'.ids v = some gv := by
            obtain ⟨⟨d2, hd2⟩, _⟩ := ht2
            rw [hd2]
            exact encChild_ext he1 d2
          rw [he1', he2]

theorem buildItems_char {h : Heap} {env : PyEnv} {rk : Nat → Nat} {F : Nat}
    (hr2 : RecOK2 h env rk F) (st : EncState) (isp : ISpec) (st' : EncState)
    (items : Option GItems) (hw : IdsWF st.ids)
    (hp : ∀ a, a ∈ ispecAddrs isp → PendBound h rk st (rk a))
    (hc : buildItems h env F st isp = .ok (st', items)) :
    Char2 h st st' ∧ ItemsSpec st'.ids isp items := by
  rw [buildItems.eq_def] at hc
  split at hc
  · cases hc
    exact ⟨char2_refl h st, rfl⟩
  · rename_i xs
    split at hc
    · cases hc
    · rename_i st1 rs heq
      obtain ⟨c1, he1⟩ := marshalSeq_char hr2 xs st st1 rs hw
        (fun a ha => hp a (mem_addrsOf ha)) heq
      cases hc
      exact ⟨c1, rs, he1, rfl⟩
  · rename_i kvs
    split at hc
    · cases hc
    · rename_i st1 ps heq
      obtain ⟨c1, he1⟩ := marshalMap_char hr2 kvs st st1 ps hw
        (fun a kv hm hor => hp a (by
          rcases hor with hx | hx
          · exact List.mem_append_left _ (mem_addrsOf (by
              rw [← hx]; exact List.mem_map.mpr ⟨kv, hm, rfl⟩))
          · exact List.mem_append_right _ (mem_addrsOf (by
              rw [← hx]; exact List.mem_map.mpr ⟨kv, hm, rfl⟩)))) heq
      cases hc
      exact ⟨c1, ps, he1, rfl⟩
  · cases hc
    exact ⟨char2_refl h st, rfl⟩

theorem buildFields_char {h : Heap} {env : PyEnv} {rk : Nat → Nat} {F : Nat}
    (hr2 : RecOK2 h env rk F) (st : EncState) (fsp : Option (List (String × PyRef)))
    (st' : EncState) (flds : Option (List (String × GRec))) (hw : IdsWF st.ids)
    (hp : ∀ a, a ∈ fspecAddrs fsp → PendBound h rk st (rk a))
    (hc : buildFields h env F st fsp = .ok (st', flds)) :
    Char2 h st st' ∧ FldsSpec h st'.ids fsp flds := by
  rw [buildFields.eq_def] at hc
  split at hc
  · cases hc
    exact ⟨char2_refl h st, rfl⟩
  · rename_i fl
    split at hc
    · cases hc
    · rename_i st1 gs heq
      obtain ⟨c1, he1⟩ := marshalFlds_char hr2 fl st st1 gs hw
        (fun a kv hm he => hp a (mem_addrsOf (by
          rw [← he]; exact List.mem_map.mpr ⟨kv, hm, rfl⟩))) heq
      cases hc
      exact ⟨c1, gs, he1, rfl⟩

theorem itemsSpec_ext {ids : List (Nat × Nat)} {isp : ISpec} {items : Option GItems}
    (hi : ItemsSpec ids isp items) (d : List (Nat × Nat)) :
    ItemsSpec (ids ++ d) isp items := by
  cases isp with
  | noItems => exact hi
  | seqI xs =>
    obtain ⟨rs, h1, h2⟩ := hi
    exact ⟨rs, encChildren_ext h1 d, h2⟩
  | mapI kvs =>
    obtain ⟨ps, h1, h2⟩ := hi
    exact ⟨ps, encPairs_ext h1 d, h2⟩
  | strI s => exact hi

theorem fldsSpec_ext {h : Heap} {ids : List (Nat × Nat)}
    {fsp : Option (List (String × PyRef))} {flds : Option (List (String × GRec))}
    (hf : FldsSpec h ids fsp flds) (d : List (Nat × Nat)) :
    FldsSpec h (ids ++ d) fsp flds := by
  cases fsp with
  | none => exact hf
  | some fl =>
    obtain ⟨gs, h1, h2⟩ := hf
    exact ⟨gs, encFields_ext h1 d, h2⟩

/-- Characterization of `marshal_object`: the call returns a reference to
the fresh oid; an immutable call appends last a fully populated node whose
children are on record at earlier positions, while a mutable call appends
an empty shell and a deferred entry. -/
theorem marshalObjectC_char {h : Heap} {env : PyEnv} {rk : Nat → Nat} {F : Nat}
    (hr2 : RecOK2 h env rk F)
    (st : EncState) (a : Nat) (kind : String) (imm : Bool) (isp : ISpec)
    (fsp : Option (List (String × PyRef))) (st' : EncState) (out : GRec)
    (hw : IdsWF st.ids)
    (hl : idLookup st.ids a = none)
    (hpa : PendBound h rk st (rk a))
    (hch : imm = true → ∀ b, b ∈ ispecAddrs isp ++ fspecAddrs fsp → rk b < rk a)
    (hc : marshalObjectC h env F st a kind imm isp fsp = .ok (st', out)) :
    out = .ref st.ids.length ∧ idLookup st'.ids a = some st.ids.length ∧
    (imm = true →
      ∃ (p : Nat) (items : Option GItems) (flds : Option (List (String × GRec))),
        st'.objects[p]? = some (.node (some kind) (some st.ids.length) items flds none none) ∧
        p + 1 = st'.objects.length ∧
        ItemsSpec st'.ids isp items ∧ FldsSpec h st'.ids fsp flds ∧
        (∀ b k', b ∈ ispecAddrs isp ++ fspecAddrs fsp → idLookup st'.ids b = some k' →
          k' ∈ oidsOf (st'.objects.take p)) ∧
        (∀ bb kk, (bb, kk) ∈ st'.ids → (bb, kk) ∉ st.ids → bb ≠ a →
          DoneAt h st' bb kk ∨ ∃ idx, (bb, idx) ∈ st'.deferredQ) ∧
        (∀ e ∈ st'.deferredQ, e ∉ st.deferredQ → QEntry h st' e) ∧
        (∀ e ∈ st'.deferredQ, e ∉ st.deferredQ → idLookup st.ids e.1 = none) ∧
        (((st.deferredQ.map Prod.fst).Nodup ∧
            ∀ e ∈ st.deferredQ, e.1 ∈ st.ids.map Prod.fst) →
          (st'.deferredQ.map Prod.fst).Nodup)) ∧
    (imm = false →
      st'.objects = st.objects
        ++ [.node (some kind) (some st.ids.length) none none none none] ∧
      st'.ids = st.ids ++ [(a, st.ids.length)] ∧
      st'.deferredQ = st.deferredQ ++ [(a, st.objects.length)]) := by
  rw [marshalObjectC] at hc
  rw [pyId_fresh st.ids a hl] at hc
  simp only [] at hc
  have hw1 : IdsWF (st.ids ++ [(a, st.ids.length)]) := by
    have := (pyId_spec st.ids a).2
    rw [pyId_fresh st.ids a hl] at this
    exact this hw
  split at hc
  · -- immutable: build items and fields, then append the completed node
    rename_i himm
    have hpall : ∀ b, b ∈ ispecAddrs isp ++ fspecAddrs fsp →
        PendBound h rk { st with ids := st.ids ++ [(a, st.ids.length)] } (rk b) := by
      intro b hb bb kk hm hpend
      have hbr : rk b < rk a := hch himm b hb
      rcases List.mem_append.mp hm with hms | hmd
      · exact Nat.lt_trans hbr (hpa bb kk hms hpend)
      · simp only [List.mem_singleton, Prod.mk.injEq] at hmd
        rw [hmd.1]
        exact hbr
    split at hc
    · cases hc
    · rename_i st2 items heqI
      split at hc
      · cases hc
      · rename_i st3 flds heqF
        obtain ⟨htI, _⟩ := buildItems_trans (recOK_all h env F) _ isp st2 items heqI
        obtain ⟨htF, _⟩ := buildFields_trans (recOK_all h env F) st2 fsp st3 flds heqF
        have hw2 : IdsWF st2.ids := htI.2.1 hw1
        have hw3 : IdsWF st3.ids := htF.2.1 hw2
        obtain ⟨cI, hIspec⟩ := buildItems_char hr2 _ isp st2 items hw1
          (fun b hb => hpall b (List.mem_append_left _ hb)) heqI
        obtain ⟨cF, hFspec⟩ := buildFields_char hr2 st2 fsp st3 flds hw2
          (fun b hb => pendBound_pres htI hw1 (hpall b (List.mem_append_right _ hb))) heqF
        have c13 : Char2 h { st with ids := st.ids ++ [(a, st.ids.length)] } st3 :=
          char2_trans (encTrans_extOnly htI) (encTrans_extOnly htF) cI cF
        have ht13 : EncTrans h { st with ids := st.ids ++ [(a, st.ids.length)] } st3 :=
          encTrans_trans htI htF
        obtain ⟨d13, hd13⟩ := ht13.1
        have hd13' : st3.ids = st.ids ++ [(a, st.ids.length)] ++ d13 := hd13
        cases hc
        have hlook1 : idLookup (st.ids ++ [(a, st.ids.length)]) a = some st.ids.length :=
          idLookup_append_fresh st.ids.length [] hl
        have hlook3 : idLookup st3.ids a = some st.ids.length := by
          rw [hd13']
          exact idLookup_append_some hlook1 d13
        have hext3 : ExtOnly st3 { st3 with objects := st3.objects ++ [GRec.node
            (some kind) (some st.ids.length) items flds none none] } :=
          ⟨⟨_, rfl⟩, ⟨[], by simp⟩, ⟨[], by simp⟩⟩
        refine ⟨rfl, hlook3, ?_, fun hfx => absurd himm (by rw [hfx]; simp)⟩
        intro _
        refine ⟨st3.objects.length, items, flds, ?_, by simp, ?_, ?_, ?_, ?_, ?_, ?_, ?_⟩
        · show (st3.objects ++ [_])[st3.objects.length]? = _
          rw [List.getElem?_concat_length]
        · show ItemsSpec st3.ids isp items
          obtain ⟨dF, hdF⟩ := htF.1
          rw [hdF]
          exact itemsSpec_ext hIspec dF
        · exact hFspec
        · -- children of the immediate composite are on record before it
          intro b k' hb hlk
          have hmem : (b, k') ∈ st3.ids := idLookup_some_mem hlk
          show k' ∈ oidsOf ((st3.objects ++ [_]).take st3.objects.length)
          rw [List.take_left]
          by_cases hko : k' ∈ oidsOf st3.objects
          · exact hko
          · exfalso
            obtain ⟨hm1, hp1⟩ := pending_back ht13 hw1 hmem hko
            rcases List.mem_append.mp hm1 with hms | hmd
            · have := hpa b k' hms hp1
              exact absurd (hch himm b hb) (by omega)
            · simp only [List.mem_singleton, Prod.mk.injEq] at hmd
              have := hch himm b hb
              rw [hmd.1] at this
              omega
        · -- other fresh pairs got their status from the children calls
          intro bb kk hm hnm hne
          have hm3 : (bb, kk) ∈ st3.ids := hm
          by_cases hm1 : (bb, kk) ∈ st.ids ++ [(a, st.ids.length)]
          · rcases List.mem_append.mp hm1 with hms | hmd
            · exact absurd hms hnm
            · simp only [List.mem_singleton, Prod.mk.injEq] at hmd
              exact absurd hmd.1 hne
          · rcases c13.1 bb kk hm3 hm1 with hdone | ⟨idx, hidx⟩
            · exact Or.inl (doneAt_ext hext3 hdone)
            · exact Or.inr ⟨idx, hidx⟩
        · intro e he hne
          have hne1 : e ∉ ({ st with ids := st.ids ++ [(a, st.ids.length)] }
              : EncState).deferredQ := hne
          exact qentry_ext hext3 (c13.2.1 e he hne1)
        · intro e he hne
          have := c13.2.2.1 e he hne
          exact idLookup_append_none this
        · rintro ⟨hnd, hsub⟩
          refine c13.2.2.2 ⟨hnd, ?_⟩
          intro e he
          have := hsub e he
          show e.1 ∈ (st.ids ++ [(a, st.ids.length)]).map Prod.fst
          rw [List.map_append]
          exact List.mem_append_left _ this
  · -- mutable: append the shell and defer the population
    rename_i himm
    cases hc
    have himmf : imm = false := by
      cases imm
      · rfl
      · exact absurd rfl himm
    refine ⟨rfl, ?_, fun hft => absurd hft (by rw [himmf]; simp), fun _ => ⟨rfl, rfl, rfl⟩⟩
    show idLookup (st.ids ++ [(a, st.ids.length)]) a = some st.ids.length
    exact idLookup_append_fresh st.ids.length [] hl

/-- Breadth-first identity search for a top-level class, mirroring the
function case: the declaring module's attribute of the class's name is the
class itself. -/
theorem findScopedName_topLevelClass (h : Heap) (env : PyEnv) (fuel : Nat) (mo na : String)
    (ma fa : Nat) (ats : List (String × PyRef)) (mattrs : List (String × PyRef))
    (hfa : h[fa]? = some (.pyclass mo na ats))
    (hma : lookupStr env.mods mo = some ma)
    (hmod : h[ma]? = some (.pymodule mo mattrs))
    (hattr : lookupStr mattrs na = some (.addr fa))
    (hf : 0 < fuel) :
    findScopedName h env fuel fa = .ok (mo ++ "/" ++ na) := by
  obtain ⟨f, rfl⟩ : ∃ f, fuel = f + 1 := ⟨fuel - 1, by omega⟩
  simp only [findScopedName, hfa, hma]
  simp only [findScopedAux, hmod]
  rw [show scopeNameOf (PyObj.pymodule mo mattrs) = some mo from rfl]
  rw [show scopeAttrs (PyObj.pymodule mo mattrs) = mattrs from rfl]
  rw [hattr]
  simp [fmtScopedName, joinDots]

/-- Assembly of the per-call characterization for a mutable dispatch: the
freshly deferred pair is the only new one. -/
theorem mutable_branch_char {h : Heap} {st st' : EncState} {a : Nat} {kind : String}
    {out : GRec}
    (hk : idLookup st.ids a = none)
    (hout : out = GRec.ref st.ids.length)
    (hlook : idLookup st'.ids a = some st.ids.length)
    (hids : st'.ids = st.ids ++ [(a, st.ids.length)])
    (hobj : st'.objects = st.objects
      ++ [.node (some kind) (some st.ids.length) none none none none])
    (hq : st'.deferredQ = st.deferredQ ++ [(a, st.objects.length)])
    (hshell : ShellFor h a st.ids.length
      (.node (some kind) (some st.ids.length) none none none none)) :
    Char2 h st st' ∧ encChild st'.ids (.addr a) = some out ∧
      ∀ k, out = .ref k → k ∈ oidsOf st'.objects := by
  have hstub : st'.objects[st.objects.length]? =
      some (.node (some kind) (some st.ids.length) none none none none) := by
    rw [hobj, List.getElem?_concat_length]
  refine ⟨⟨?_, ?_, ?_, ?_⟩, ?_, ?_⟩
  · intro bb kk hm hnm
    rw [hids] at hm
    rcases List.mem_append.mp hm with hms | hmd
    · exact absurd hms hnm
    · simp only [List.mem_singleton, Prod.mk.injEq] at hmd
      refine Or.inr ⟨st.objects.length, ?_⟩
      rw [hq, hmd.1]
      exact List.mem_append_right _ (List.mem_singleton.mpr rfl)
  · intro e he hne
    rw [hq] at he
    rcases List.mem_append.mp he with hes | hed
    · exact absurd hes hne
    · rw [List.mem_singleton.mp hed]
      exact ⟨st.ids.length, _, hlook, hstub, rfl, hshell⟩
  · intro e he hne
    rw [hq] at he
    rcases List.mem_append.mp he with hes | hed
    · exact absurd hes hne
    · rw [List.mem_singleton.mp hed]
      exact hk
  · rintro ⟨hnd, hsub⟩
    rw [hq, List.map_append]
    rw [List.nodup_append]
    refine ⟨hnd, by simp, ?_⟩
    intro x hx hx2
    simp only [List.map_cons, List.map_nil, List.mem_singleton] at hx2
    obtain ⟨e, he, hee⟩ := List.mem_map.mp hx
    have := hsub e he
    rw [hee, hx2] at this
    exact (idLookup_eq_none_iff st.ids a).mp hk this
  · rw [hout]
    simp [encChild, hlook]
  · intro k hkeq
    rw [hout] at hkeq
    injection hkeq with hkk
    rw [← hkk]
    exact mem_oidsOf_of_at hstub rfl

/-- Assembly of the per-call characterization for an immutable dispatch:
the fresh pair is completed at the final record position. -/
theorem imm_branch_char {h : Heap} {st st' : EncState} {a : Nat} {out : GRec} {p : Nat}
    {nd : GRec}
    (hw' : IdsWF st'.ids)
    (hout : out = GRec.ref st.ids.length)
    (hlook : idLookup st'.ids a = some st.ids.length)
    (hpos : st'.objects[p]? = some nd)
    (hoid : recOid nd = some st.ids.length)
    (hnf : NodeFor h st'.ids a st.ids.length nd)
    (hord : immNodeKind h a = true → ∀ b ∈ immChildAddrs h a,
      ∃ k', idLookup st'.ids b = some k' ∧ k' ∈ oidsOf (st'.objects.take p))
    (hC1x : ∀ bb kk, (bb, kk) ∈ st'.ids → (bb, kk) ∉ st.ids → bb ≠ a →
      DoneAt h st' bb kk ∨ ∃ idx, (bb, idx) ∈ st'.deferredQ)
    (hC2 : ∀ e ∈ st'.deferredQ, e ∉ st.deferredQ → QEntry h st' e)
    (hC3 : ∀ e ∈ st'.deferredQ, e ∉ st.deferredQ → idLookup st.ids e.1 = none)
    (hC4 : ((st.deferredQ.map Prod.fst).Nodup ∧
        ∀ e ∈ st.deferredQ, e.1 ∈ st.ids.map Prod.fst) →
      (st'.deferredQ.map Prod.fst).Nodup) :
    Char2 h st st' ∧ encChild st'.ids (.addr a) = some out ∧
      ∀ k, out = .ref k → k ∈ oidsOf st'.objects := by
  refine ⟨⟨?_, hC2, hC3, hC4⟩, ?_, ?_⟩
  · intro bb kk hm hnm
    by_cases hba : bb = a
    · subst hba
      have hx := mem_idLookup hw'.2 hm
      rw [hlook] at hx
      injection hx with hkk
      subst hkk
      exact Or.inl ⟨p, nd, hpos, hoid, hnf, hord⟩
    · exact hC1x bb kk hm hnm hba
  · rw [hout]
    simp [encChild, hlook]
  · intro k hkeq
    rw [hout] at hkeq
    injection hkeq with hkk
    rw [← hkk]
    exact mem_oidsOf_of_at hpos hoid

/-- One-step characterization of `_marshal`: the dispatch, branch by
branch, under the environment-sanity and rank hypotheses. -/
theorem recOK2_succ {h : Heap} {env : PyEnv} {rk : Nat → Nat}
    (hs : SupHeap h env rk) {F : Nat} (hr2 : RecOK2 h env rk F) :
    RecOK2 h env rk (F + 1) := by
  intro st r st' out hw hp hc
  obtain ⟨htAll, _⟩ := recOK_all h env (F + 1) st r st' out hc
  have hw' : IdsWF st'.ids := htAll.2.1 hw
  rw [marshalRec.eq_def] at hc
  simp only [] at hc
  split at hc
  · -- primitive
    cases hc
    exact ⟨char2_refl h st, rfl, fun k hk => by cases hk⟩
  · rename_i a
    split at hc
    · -- already seen: return a reference to the assigned oid
      rename_i k hk
      cases hc
      refine ⟨char2_refl h st, by simp [encChild, hk], ?_⟩
      intro k2 hk2
      injection hk2 with hke
      rw [← hke]
      by_contra hko
      have hmem : (a, k) ∈ st.ids := idLookup_some_mem hk
      have := hp a rfl a k hmem hko
      omega
    · rename_i hk
      split at hc
      · cases hc
      · rename_i o ho
        split at hc
        · -- list (mutable)
          rename_i xs
          obtain ⟨hout, hlook, _, hmutp⟩ := marshalObjectC_char hr2 st a _ false _ _ st' out
            hw hk (hp a rfl) (fun hx => Bool.noConfusion hx) hc
          obtain ⟨hobj, hids, hq⟩ := hmutp rfl
          refine mutable_branch_char hk hout hlook hids hobj hq ?_
          show shellForCore h st.ids.length h[a]? _
          rw [ho]
          rfl
        · -- tuple (immutable)
          rename_i xs
          have hch : (true : Bool) = true →
              ∀ b, b ∈ ispecAddrs (ISpec.seqI xs) ++ fspecAddrs (some []) → rk b < rk a := by
            intro _ b hb
            have hb' : b ∈ addrsOf xs := by
              simpa [ispecAddrs, fspecAddrs, addrsOf] using hb
            exact hs.ranks a b (by simp [immNodeKind, ho])
              (by simpa [immChildAddrs, ho] using hb')
          obtain ⟨hout, hlook, himmp, _⟩ := marshalObjectC_char hr2 st a _ true _ _ st' out
            hw hk (hp a rfl) hch hc
          obtain ⟨p, items, flds, hpos, hplen, hIsp, hFsp, hR, hC1x, hC2, hC3, hC4⟩ :=
            himmp rfl
          obtain ⟨rs, hrs, hitems⟩ := hIsp
          obtain ⟨gs, hgs, hflds⟩ := hFsp
          have hgseq : gs = [] := by
            simp only [encFields] at hgs
            injection hgs with hx
            exact hx.symm
          subst hitems hflds hgseq
          refine imm_branch_char hw' hout hlook hpos rfl ?_ ?_ hC1x hC2 hC3 hC4
          · show nodeForCore h st'.ids st.ids.length h[a]? _
            rw [ho]
            exact ⟨rs, hrs, rfl⟩
          · intro _ b hb
            have hb' : b ∈ addrsOf xs := by simpa [immChildAddrs, ho] using hb
            obtain ⟨k', hk'⟩ := encChildren_mem hrs b (addrsOf_mem hb')
            exact ⟨k', hk', hR b k' (List.mem_append_left _ hb') hk'⟩
        · -- dict (mutable)
          rename_i kvs
          obtain ⟨hout, hlook, _, hmutp⟩ := marshalObjectC_char hr2 st a _ false _ _ st' out
            hw hk (hp a rfl) (fun hx => Bool.noConfusion hx) hc
          obtain ⟨hobj, hids, hq⟩ := hmutp rfl
          refine mutable_branch_char hk hout hlook hids hobj hq ?_
          show shellForCore h st.ids.length h[a]? _
          rw [ho]
          rfl
        · -- set (mutable)
          rename_i xs
          obtain ⟨hout, hlook, _, hmutp⟩ := marshalObjectC_char hr2 st a _ false _ _ st' out
            hw hk (hp a rfl) (fun hx => Bool.noConfusion hx) hc
          obtain ⟨hobj, hids, hq⟩ := hmutp rfl
          refine mutable_branch_char hk hout hlook hids hobj hq ?_
          show shellForCore h st.ids.length h[a]? _
          rw [ho]
          rfl
        · -- frozenset (immutable)
          rename_i xs
          have hch : (true : Bool) = true →
              ∀ b, b ∈ ispecAddrs (ISpec.seqI xs) ++ fspecAddrs (some []) → rk b < rk a := by
            intro _ b hb
            have hb' : b ∈ addrsOf xs := by
              simpa [ispecAddrs, fspecAddrs, addrsOf] using hb
            exact hs.ranks a b (by simp [immNodeKind, ho])
              (by simpa [immChildAddrs, ho] using hb')
          obtain ⟨hout, hlook, himmp, _⟩ := marshalObjectC_char hr2 st a _ true _ _ st' out
            hw hk (hp a rfl) hch hc
          obtain ⟨p, items, flds, hpos, hplen, hIsp, hFsp, hR, hC1x, hC2, hC3, hC4⟩ :=
            himmp rfl
          obtain ⟨rs, hrs, hitems⟩ := hIsp
          obtain ⟨gs, hgs, hflds⟩ := hFsp
          have hgseq : gs = [] := by
            simp only [encFields] at hgs
            injection hgs with hx
            exact hx.symm
          subst hitems hflds hgseq
          refine imm_branch_char hw' hout hlook hpos rfl ?_ ?_ hC1x hC2 hC3 hC4
          · show nodeForCore h st'.ids st.ids.length h[a]? _
            rw [ho]
            exact ⟨rs, hrs, rfl⟩
          · intro _ b hb
            have hb' : b ∈ addrsOf xs := by simpa [immChildAddrs, ho] using hb
            obtain ⟨k', hk'⟩ := encChildren_mem hrs b (addrsOf_mem hb')
            exact ⟨k', hk', hR b k' (List.mem_append_left _ hb') hk'⟩
        · -- complex (immutable, string items)
          rename_i re im
          obtain ⟨hout, hlook, himmp, _⟩ := marshalObjectC_char hr2 st a _ true _ _ st' out
            hw hk (hp a rfl) (fun _ b hb => by simp [ispecAddrs, fspecAddrs, addrsOf] at hb) hc
          obtain ⟨p, items, flds, hpos, hplen, hIsp, hFsp, hR, hC1x, hC2, hC3, hC4⟩ :=
            himmp rfl
          have hitems : items = some (.istr (complexItemsStr re im)) := hIsp
          obtain ⟨gs, hgs, hflds⟩ := hFsp
          have hgseq : gs = [] := by
            simp only [encFields] at hgs
            injection hgs with hx
            exact hx.symm
          subst hitems hflds hgseq
          refine imm_branch_char hw' hout hlook hpos rfl ?_ ?_ hC1x hC2 hC3 hC4
          · show nodeForCore h st'.ids st.ids.length h[a]? _
            rw [ho]
            rfl
          · intro himm
            rw [show immNodeKind h a = false by simp [immNodeKind, ho]] at himm
            cases himm
        · -- function (immutable, name only)
          rename_i mo na
          split at hc
          · cases hc
          · rename_i kind hfind
            obtain ⟨ma, mattrs, h1, h2, h3, _⟩ := hs.funcRes a mo na ho
            have hfind2 := findScopedName_topLevel h env (F + 1) mo na ma a mattrs
              ho h1 h2 h3 (by omega)
            rw [hfind] at hfind2
            injection hfind2 with hkind
            obtain ⟨hout, hlook, himmp, _⟩ := marshalObjectC_char hr2 st a kind true _ _
              st' out hw hk (hp a rfl)
              (fun _ b hb => by simp [ispecAddrs, fspecAddrs, addrsOf] at hb) hc
            obtain ⟨p, items, flds, hpos, hplen, hIsp, hFsp, hR, hC1x, hC2, hC3, hC4⟩ :=
              himmp rfl
            have hitems : items = none := hIsp
            have hflds : flds = none := hFsp
            subst hitems hflds hkind
            refine imm_branch_char hw' hout hlook hpos rfl ?_ ?_ hC1x hC2 hC3 hC4
            · show nodeForCore h st'.ids st.ids.length h[a]? _
              rw [ho]
              rfl
            · intro himm
              rw [show immNodeKind h a = false by simp [immNodeKind, ho]] at himm
              cases himm
        · cases hc
        · cases hc
        · cases hc
        · cases hc
        · -- module
          rename_i mname ats
          rw [pyId_fresh st.ids a hk] at hc
          simp only [] at hc
          cases hc
          have hlook : idLookup (st.ids ++ [(a, st.ids.length)]) a = some st.ids.length :=
            idLookup_append_fresh st.ids.length [] hk
          have hpos : (st.objects
              ++ [GRec.node (some mname) (some st.ids.length) none none none none])[
                st.objects.length]? =
              some (GRec.node (some mname) (some st.ids.length) none none none none) := by
            rw [List.getElem?_concat_length]
          refine ⟨⟨?_, ?_, ?_, fun pr => pr.1⟩, by simp [encChild, hlook], ?_⟩
          · intro bb kk hm hnm
            rcases List.mem_append.mp hm with hms | hmd
            · exact absurd hms hnm
            · simp only [List.mem_singleton, Prod.mk.injEq] at hmd
              obtain ⟨hba, hbk⟩ := hmd
              subst hbk
              rw [hba]
              refine Or.inl ⟨st.objects.length, _, hpos, rfl, ?_, ?_⟩
              · show nodeForCore h _ st.ids.length h[a]? _
                rw [ho]
                rfl
              · intro himm
                rw [show immNodeKind h a = false by simp [immNodeKind, ho]] at himm
                cases himm
          · intro e he hne
            exact absurd he hne
          · intro e he hne
            exact absurd he hne
          · intro k hkeq
            injection hkeq with hke
            rw [← hke]
            exact mem_oidsOf_of_at hpos rfl
        · -- class (immutable, name only)
          rename_i mo na ats
          split at hc
          · cases hc
          · rename_i kind hfind
            obtain ⟨ma, mattrs, h1, h2, h3, _⟩ := hs.classRes a mo na ats ho
            have hfind2 := findScopedName_topLevelClass h env (F + 1) mo na ma a ats mattrs
              ho h1 h2 h3 (by omega)
            rw [hfind] at hfind2
            injection hfind2 with hkind
            obtain ⟨hout, hlook, himmp, _⟩ := marshalObjectC_char hr2 st a kind true _ _
              st' out hw hk (hp a rfl)
              (fun _ b hb => by simp [ispecAddrs, fspecAddrs, addrsOf] at hb) hc
            obtain ⟨p, items, flds, hpos, hplen, hIsp, hFsp, hR, hC1x, hC2, hC3, hC4⟩ :=
              himmp rfl
            have hitems : items = none := hIsp
            have hflds : flds = none := hFsp
            subst hitems hflds hkind
            refine imm_branch_char hw' hout hlook hpos rfl ?_ ?_ hC1x hC2 hC3 hC4
            · show nodeForCore h st'.ids st.ids.length h[a]? _
              rw [ho]
              rfl
            · intro himm
              rw [show immNodeKind h a = false by simp [immNodeKind, ho]] at himm
              cases himm
        · -- instance (mutable)
          rename_i ca fl
          split at hc
          · cases hc
          · rename_i kind hfind
            obtain ⟨mo, na, ats, hca⟩ := hs.instCls a ca fl ho
            obtain ⟨ma, mattrs, h1, h2, h3, _⟩ := hs.classRes ca mo na ats hca
            have hfind2 := findScopedName_topLevelClass h env (F + 1) mo na ma ca ats mattrs
              hca h1 h2 h3 (by omega)
            rw [hfind] at hfind2
            injection hfind2 with hkind
            obtain ⟨hout, hlook, _, hmutp⟩ := marshalObjectC_char hr2 st a kind false _ _
              st' out hw hk (hp a rfl) (fun hx => Bool.noConfusion hx) hc
            obtain ⟨hobj, hids, hq⟩ := hmutp rfl
            refine mutable_branch_char hk hout hlook hids hobj hq ?_
            show shellForCore h st.ids.length h[a]? _
            rw [ho]
            exact ⟨mo, na, ats, hca, by rw [hkind]⟩
        · -- bound method (immediate instance slot)
          rename_i iref fi
          split at hc
          · cases hc
          · rename_i m hm
            rw [pyId_fresh st.ids a hk] at hc
            simp only [] at hc
            split at hc
            · cases hc
            · rename_i st2 iv heq
              obtain ⟨ht2, hatom⟩ := recOK_all h env F _ iref st2 iv heq
              have hw1 : IdsWF (st.ids ++ [(a, st.ids.length)]) := by
                have := (pyId_spec st.ids a).2
                rw [pyId_fresh st.ids a hk] at this
                exact this hw
              have hpi : ∀ c, iref = .addr c →
                  PendBound h rk { st with ids := st.ids ++ [(a, st.ids.length)] }
                    (rk c) := by
                intro c hceq bb kk hmm hpend
                have hcm : c ∈ immChildAddrs h a := by
                  simp [immChildAddrs, ho, hceq, addrsOf]
                have hrc : rk c < rk a :=
                  hs.ranks a c (by simp [immNodeKind, ho]) hcm
                rcases List.mem_append.mp hmm with hms | hmd
                · exact Nat.lt_trans hrc (hp a rfl bb kk hms hpend)
                · simp only [List.mem_singleton, Prod.mk.injEq] at hmd
                  rw [hmd.1]
                  exact hrc
              obtain ⟨cI, heI, hRefI⟩ := hr2 _ iref st2 iv hw1 hpi heq
              have hw2 : IdsWF st2.ids := ht2.2.1 hw1
              cases hc
              obtain ⟨d2, hd2⟩ := ht2.1
              have hlook : idLookup st2.ids a = some st.ids.length := by
                rw [show st2.ids = (st.ids ++ [(a, st.ids.length)]) ++ d2 from hd2]
                exact idLookup_append_some (idLookup_append_fresh st.ids.length [] hk) d2
              have hext : ExtOnly st2 { st2 with objects := st2.objects
                  ++ [GRec.node none (some st.ids.length) none none (some m) (some iv)] } :=
                ⟨⟨_, rfl⟩, ⟨[], by simp⟩, ⟨[], by simp⟩⟩
              have hpos : (st2.objects
                  ++ [GRec.node none (some st.ids.length) none none (some m)
                    (some iv)])[st2.objects.length]? =
                  some (GRec.node none (some st.ids.length) none none (some m)
                    (some iv)) := by
                rw [List.getElem?_concat_length]
              refine ⟨⟨?_, ?_, ?_, ?_⟩, by simp [encChild, hlook], ?_⟩
              · intro bb kk hmm hnm
                by_cases hba : bb = a
                · rw [hba] at hmm
                  have hx := mem_idLookup hw2.2 hmm
                  rw [hlook] at hx
                  injection hx with hkk
                  subst hkk
                  rw [hba]
                  refine Or.inl ⟨st2.objects.length, _, hpos, rfl, ?_, ?_⟩
                  · show nodeForCore h st2.ids st.ids.length h[a]? _
                    rw [ho]
                    exact ⟨m, iv, hm, heI, rfl⟩
                  · intro _ b hb
                    rw [show immChildAddrs h a = addrsOf [iref]
                      by simp [immChildAddrs, ho]] at hb
                    cases hceq : iref with
                    | prim pz =>
                      rw [hceq] at hb
                      simp [addrsOf] at hb
                    | addr c =>
                      rw [hceq] at hb
                      simp only [addrsOf, List.filterMap, List.mem_singleton] at hb
                      subst hb
                      rw [hceq] at heI
                      simp only [encChild, Option.map_eq_some'] at heI
                      obtain ⟨k', hk', hiv⟩ := heI
                      refine ⟨k', hk', ?_⟩
                      rw [List.take_left]
                      exact hRefI k' hiv.symm
                · have hm1 : (bb, kk) ∉ st.ids ++ [(a, st.ids.length)] := by
                    intro hx
                    rcases List.mem_append.mp hx with hxs | hxd
                    · exact hnm hxs
                    · simp only [List.mem_singleton, Prod.mk.injEq] at hxd
                      exact hba hxd.1
                  rcases cI.1 bb kk hmm hm1 with hdone | ⟨idx, hidx⟩
                  · exact Or.inl (doneAt_ext hext hdone)
                  · exact Or.inr ⟨idx, hidx⟩
              · intro e he hne
                exact qentry_ext hext (cI.2.1 e he hne)
              · intro e he hne
                exact idLookup_append_none (cI.2.2.1 e he hne)
              · rintro ⟨hnd, hsub⟩
                refine cI.2.2.2 ⟨hnd, ?_⟩
                intro e he
                have := hsub e he
                show e.1 ∈ (st.ids ++ [(a, st.ids.length)]).map Prod.fst
                rw [List.map_append]
                exact List.mem_append_left _ this
              · intro k hkeq
                injection hkeq with hke
                rw [← hke]
                exact mem_oidsOf_of_at hpos rfl

/-- The characterization holds at every fuel level. -/
theorem recOK2_all {h : Heap} {env : PyEnv} {rk : Nat → Nat}
    (hs : SupHeap h env rk) : ∀ F, RecOK2 h env rk F := by
  intro F
  induction F with
  | zero =>
    intro st r st' out hw hp hc
    rw [marshalRec.eq_def] at hc
    cases hc
  | succ f ih => exact recOK2_succ hs ih

/-! ### Stability under the drain loop's in-place patching -/

theorem doneAt_ext2 {h : Heap} {s t : EncState} {a k : Nat}
    (hpo : ∃ po, t.objects = s.objects ++ po) (hdi : ∃ d, t.ids = s.ids ++ d)
    (hd : DoneAt h s a k) : DoneAt h t a k := by
  obtain ⟨p, g, hp, hk, hnf, hord⟩ := hd
  obtain ⟨po, hpo⟩ := hpo
  obtain ⟨d, hdi⟩ := hdi
  refine ⟨p, g, ?_, hk, ?_, ?_⟩
  · rw [hpo]
    exact getElem?_append_left_of_some hp
  · rw [hdi]
    exact nodeFor_ext hnf d
  · intro himm b hb
    obtain ⟨k', hk', hko⟩ := hord himm b hb
    refine ⟨k', by rw [hdi]; exact idLookup_append_some hk' d, ?_⟩
    rw [hpo]
    have hple : p ≤ s.objects.length :=
      Nat.le_of_lt (List.getElem?_eq_some_iff.mp hp).1
    rw [List.take_append_of_le_length hple]
    exact hko

theorem qentry_ext2 {h : Heap} {s t : EncState} {e : Nat × Nat}
    (hpo : ∃ po, t.objects = s.objects ++ po) (hdi : ∃ d, t.ids = s.ids ++ d)
    (hq : QEntry h s e) : QEntry h t e := by
  obtain ⟨k, g, h1, h2, h3, h4⟩ := hq
  obtain ⟨po, hpo⟩ := hpo
  obtain ⟨d, hdi⟩ := hdi
  exact ⟨k, g, by rw [hdi]; exact idLookup_append_some h1 d,
    by rw [hpo]; exact getElem?_append_left_of_some h2, h3, h4⟩

theorem oidsOf_set_patch {l : List GRec} {idx : Nat} {x g : GRec}
    (hg : l[idx]? = some g) (hrec : recOid x = recOid g) :
    oidsOf (l.set idx x) = oidsOf l :=
  filterMap_set_congr recOid l idx x g hg hrec

theorem oidsOf_take_set {l : List GRec} {idx p : Nat} {x g : GRec}
    (hg : l[idx]? = some g) (hrec : recOid x = recOid g) :
    oidsOf ((l.set idx x).take p) = oidsOf (l.take p) := by
  rw [List.set_take]
  by_cases hip : idx < p
  · have hgt : (l.take p)[idx]? = some g := by
      rw [List.getElem?_take_of_lt hip]
      exact hg
    exact filterMap_set_congr recOid (l.take p) idx x g hgt hrec
  · rw [List.set_eq_of_length_le]
    calc (l.take p).length = min p l.length := by rw [List.length_take]
    _ ≤ p := Nat.min_le_left _ _
    _ ≤ idx := Nat.le_of_not_lt hip

/-- The drain loop preserves the characterization: popped shells are
patched into completed nodes, statuses of all other pairs survive. -/
theorem drainDeferred_char {h : Heap} {env : PyEnv} {rk : Nat → Nat}
    (hs : SupHeap h env rk) :
    ∀ F st st', EncGood h st → CharInv h st → NoPend st →
      drainDeferred h env F st = .ok st' →
      CharInv h st' ∧ NoPend st' := by
  intro F
  induction F with
  | zero =>
    intro st st' hg hci hnp hc
    rw [drainDeferred.eq_def] at hc
    split at hc
    · cases hc
      exact ⟨hci, hnp⟩
    · cases hc
  | succ f ih =>
    intro st st' hg hci hnp hc
    rw [drainDeferred.eq_def] at hc
    split at hc
    · cases hc
      exact ⟨hci, hnp⟩
    · rename_i a idx rest heq
      simp only [] at hc
      split at hc
      · cases hc
      · rename_i o hoa
        split at hc
        · cases hc
        · rename_i st1 items heqI
          split at hc
          · cases hc
          · rename_i st2 flds heqF
            split at hc
            · cases hc
            · rename_i nd hnd
              have hw : IdsWF st.ids := hg.1
              obtain ⟨k, g, hlka, hga, hgoid, hshell⟩ :=
                hci.2.1 (a, idx) (by rw [heq]; exact List.mem_cons_self _ _)
              have hndfst : (List.map Prod.fst st.deferredQ).Nodup := hci.2.2
              have hnotin : a ∉ rest.map Prod.fst := by
                rw [heq] at hndfst
                exact (List.nodup_cons.mp hndfst).1
              have hg0 : EncGood h { st with deferredQ := rest } :=
                ⟨hg.1, hg.2.1, hg.2.2.1,
                 fun e he => hg.2.2.2 e (by rw [heq]; exact List.mem_cons_of_mem _ he)⟩
              obtain ⟨htI, haI⟩ := buildItems_trans (recOK_all h env f) _ _ _ _ heqI
              obtain ⟨htF, haF⟩ := buildFields_trans (recOK_all h env f) _ _ _ _ heqF
              have hw0 : IdsWF ({ st with deferredQ := rest } : EncState).ids := hw
              have hpbAll : ∀ ρ, PendBound h rk { st with deferredQ := rest } ρ :=
                fun ρ b k2 hm hpend => absurd (hnp b k2 hm) hpend
              obtain ⟨cI, hIspec⟩ := buildItems_char (recOK2_all hs f) _ _ _ _ hw0
                (fun b _ => hpbAll (rk b)) heqI
              have hw1 : IdsWF st1.ids := htI.2.1 hw0
              have hnp1 : NoPend st1 := by
                intro b k2 hm
                by_contra hko
                obtain ⟨hm0, hp0⟩ := pending_back htI hw0 hm hko
                exact hp0 (hnp b k2 hm0)
              obtain ⟨cF, hFspec⟩ := buildFields_char (recOK2_all hs f) _ _ _ _ hw1
                (fun b _ => fun b2 k2 hm hpend => absurd (hnp1 b2 k2 hm) hpend) heqF
              have hw2 : IdsWF st2.ids := htF.2.1 hw1
              have ht02 : EncTrans h { st with deferredQ := rest } st2 :=
                encTrans_trans htI htF
              have c02 : Char2 h { st with deferredQ := rest } st2 :=
                char2_trans (encTrans_extOnly htI) (encTrans_extOnly htF) cI cF
              have hnp2 : NoPend st2 := by
                intro b k2 hm
                by_contra hko
                obtain ⟨hm0, hp0⟩ := pending_back ht02 hw0 hm hko
                exact hp0 (hnp b k2 hm0)
              have hg2 : EncGood h st2 := encGood_step (encGood_step hg0 htI) htF
              obtain ⟨post02, hpost02⟩ := (encTrans_extOnly ht02).1
              obtain ⟨d02, hd02⟩ := ht02.1
              obtain ⟨dq02, hq02⟩ := (encTrans_extOnly ht02).2.2
              have hga2 : st2.objects[idx]? = some g := by
                rw [hpost02]
                exact getElem?_append_left_of_some hga
              have hgnd : g = nd := by
                rw [hga2] at hnd
                injection hnd
              subst hgnd
              have hlka2 : idLookup st2.ids a = some k := by
                rw [hd02]
                exact idLookup_append_some hlka d02
              have hka : (a, k) ∈ st2.ids := idLookup_some_mem hlka2
              have hidxlen : idx < st2.objects.length :=
                (List.getElem?_eq_some_iff.mp hga2).1
              have hrecp : recOid (patchNode g items flds) = recOid g :=
                recOid_patchNode g items flds
              have hpatchpos : (st2.objects.set idx (patchNode g items flds))[idx]? =
                  some (patchNode g items flds) := List.getElem?_set_self hidxlen
              have hkind : immNodeKind h a = false ∧
                  NodeFor h st2.ids a k (patchNode g items flds) := by
                unfold ShellFor at hshell
                rw [hoa] at hshell
                unfold NodeFor
                rw [hoa]
                obtain ⟨dF, hdF⟩ := htF.1
                cases o with
                | pylist xs =>
                  simp only [shellForCore] at hshell
                  subst hshell
                  refine ⟨by simp [immNodeKind, hoa], ?_⟩
                  obtain ⟨rs, hrs, hit⟩ := hIspec
                  obtain ⟨gs, hgs, hfl⟩ := hFspec
                  have hgseq : gs = [] := by
                    simp only [encFields] at hgs
                    injection hgs with hx
                    exact hx.symm
                  subst hit hfl hgseq
                  refine ⟨rs, ?_, rfl⟩
                  rw [hdF]
                  exact encChildren_ext hrs dF
                | pydict kvs =>
                  simp only [shellForCore] at hshell
                  subst hshell
                  refine ⟨by simp [immNodeKind, hoa], ?_⟩
                  obtain ⟨ps, hps, hit⟩ := hIspec
                  obtain ⟨gs, hgs, hfl⟩ := hFspec
                  have hgseq : gs = [] := by
                    simp only [encFields] at hgs
                    injection hgs with hx
                    exact hx.symm
                  subst hit hfl hgseq
                  refine ⟨ps, ?_, rfl⟩
                  rw [hdF]
                  exact encPairs_ext hps dF
                | pyset xs =>
                  simp only [shellForCore] at hshell
                  subst hshell
                  refine ⟨by simp [immNodeKind, hoa], ?_⟩
                  obtain ⟨rs, hrs, hit⟩ := hIspec
                  obtain ⟨gs, hgs, hfl⟩ := hFspec
                  have hgseq : gs = [] := by
                    simp only [encFields] at hgs
                    injection hgs with hx
                    exact hx.symm
                  subst hit hfl hgseq
                  refine ⟨rs, ?_, rfl⟩
                  rw [hdF]
                  exact encChildren_ext hrs dF
                | pyinstance ca fl =>
                  simp only [shellForCore] at hshell
                  obtain ⟨mo, na, ats, hca, hgeq⟩ := hshell
                  subst hgeq
                  refine ⟨by simp [immNodeKind, hoa], ?_⟩
                  have hit : items = none := hIspec
                  obtain ⟨gs, hgs, hfl⟩ := hFspec
                  subst hit hfl
                  exact ⟨mo, na, ats, gs, hca, hgs, rfl⟩
                | pytuple xs => simp only [shellForCore] at hshell
                | pyfrozenset xs => simp only [shellForCore] at hshell
                | pycomplex re im => simp only [shellForCore] at hshell
                | pyfunc mo na => simp only [shellForCore] at hshell
                | pylambda => simp only [shellForCore] at hshell
                | pyclosure mo na => simp only [shellForCore] at hshell
                | pygenerator => simp only [shellForCore] at hshell
                | pyiterator => simp only [shellForCore] at hshell
                | pymodule mn ats => simp only [shellForCore] at hshell
                | pyclass mo na ats => simp only [shellForCore] at hshell
                | pyboundmethod iref fi => simp only [shellForCore] at hshell
              have hciP : CharInv h { st2 with
                  objects := st2.objects.set idx (patchNode g items flds) } := by
                refine ⟨?_, ?_, ?_⟩
                · intro b kb hm
                  have hm2 : (b, kb) ∈ st2.ids := hm
                  by_cases hba : b = a
                  · subst hba
                    have hx := mem_idLookup hw2.2 hm2
                    rw [hlka2] at hx
                    injection hx with hkk
                    subst hkk
                    refine Or.inl ⟨idx, patchNode g items flds, hpatchpos,
                      by rw [hrecp]; exact hgoid, hkind.2, ?_⟩
                    intro himm
                    rw [hkind.1] at himm
                    cases himm
                  · have hkbne : kb ≠ k := by
                      intro hx
                      rw [hx] at hm2
                      exact hba (ids_snd_inj hw2 hm2 hka)
                    have hpatchDone : DoneAt h st2 b kb →
                        DoneAt h { st2 with
                          objects := st2.objects.set idx (patchNode g items flds) } b kb := by
                      intro hdone2
                      obtain ⟨p', nd', hp', hk', hnf', hord'⟩ := hdone2
                      have hpne : p' ≠ idx := by
                        intro he
                        rw [he, hga2] at hp'
                        injection hp' with hy
                        rw [← hy] at hk'
                        rw [hgoid] at hk'
                        injection hk' with hz
                        exact hkbne hz.symm
                      refine ⟨p', nd', ?_, hk', hnf', ?_⟩
                      · show (st2.objects.set idx (patchNode g items flds))[p']? = some nd'
                        rw [List.getElem?_set_ne (fun hx => hpne hx.symm)]
                        exact hp'
                      · intro himm bb hbb
                        obtain ⟨k', hkl, hko⟩ := hord' himm bb hbb
                        refine ⟨k', hkl, ?_⟩
                        show k' ∈ oidsOf ((st2.objects.set idx (patchNode g items flds)).take p')
                        rw [oidsOf_take_set hga2 hrecp]
                        exact hko
                    by_cases hmold : (b, kb) ∈ st.ids
                    · rcases hci.1 b kb hmold with hdone | ⟨idx', hidx'⟩ | hpend
                      · exact Or.inl (hpatchDone
                          (doneAt_ext2 ⟨post02, hpost02⟩ ⟨d02, hd02⟩ hdone))
                      · have hrest : (b, idx') ∈ rest := by
                          have := hidx'
                          rw [heq] at this
                          rcases List.mem_cons.mp this with hhd | htl
                          · injection hhd with hx _
                            exact absurd hx hba
                          · exact htl
                        refine Or.inr (Or.inl ⟨idx', ?_⟩)
                        show (b, idx') ∈ st2.deferredQ
                        rw [hq02]
                        exact List.mem_append_left _ hrest
                      · exact absurd (hnp b kb hmold) hpend
                    · have hm0 : (b, kb) ∉ ({st with deferredQ := rest} : EncState).ids :=
                        hmold
                      rcases c02.1 b kb hm2 hm0 with hdone2 | ⟨idx', hidx'⟩
                      · exact Or.inl (hpatchDone hdone2)
                      · exact Or.inr (Or.inl ⟨idx', hidx'⟩)
                · intro e he
                  have he2 : e ∈ st2.deferredQ := he
                  by_cases heold : e ∈ rest
                  · have hqe_st : QEntry h st e :=
                      hci.2.1 e (by rw [heq]; exact List.mem_cons_of_mem _ heold)
                    obtain ⟨ke, ge, hle, hpe, hoe, hse⟩ :=
                      qentry_ext2 ⟨post02, hpost02⟩ ⟨d02, hd02⟩ hqe_st
                    have hene : e.2 ≠ idx := by
                      intro hx
                      rw [hx, hga2] at hpe
                      injection hpe with hy
                      rw [← hy] at hoe
                      rw [hgoid] at hoe
                      injection hoe with hz
                      rw [← hz] at hle
                      have hma : (e.1, k) ∈ st2.ids := idLookup_some_mem hle
                      have hea : e.1 = a := ids_snd_inj hw2 hma hka
                      apply hnotin
                      rw [← hea]
                      exact List.mem_map.mpr ⟨e, heold, rfl⟩
                    refine ⟨ke, ge, hle, ?_, hoe, hse⟩
                    show (st2.objects.set idx (patchNode g items flds))[e.2]? = some ge
                    rw [List.getElem?_set_ne (fun hx => hene hx.symm)]
                    exact hpe
                  · have hq2 := c02.2.1 e he2 heold
                    have hfr := c02.2.2.1 e he2 heold
                    obtain ⟨ke, ge, hle, hpe, hoe, hse⟩ := hq2
                    have hene : e.2 ≠ idx := by
                      intro hx
                      rw [hx, hga2] at hpe
                      injection hpe with hy
                      rw [← hy] at hoe
                      rw [hgoid] at hoe
                      injection hoe with hz
                      rw [← hz] at hle
                      have hma : (e.1, k) ∈ st2.ids := idLookup_some_mem hle
                      have hea : e.1 = a := ids_snd_inj hw2 hma hka
                      rw [hea] at hfr
                      rw [hfr] at hlka
                      cases hlka
                    refine ⟨ke, ge, hle, ?_, hoe, hse⟩
                    show (st2.objects.set idx (patchNode g items flds))[e.2]? = some ge
                    rw [List.getElem?_set_ne (fun hx => hene hx.symm)]
                    exact hpe
                · show (st2.deferredQ.map Prod.fst).Nodup
                  apply c02.2.2.2
                  refine ⟨?_, ?_⟩
                  · rw [heq] at hndfst
                    exact (List.nodup_cons.mp hndfst).2
                  · intro e he
                    have hqe_st : QEntry h st e :=
                      hci.2.1 e (by rw [heq]; exact List.mem_cons_of_mem _ he)
                    obtain ⟨ke, ge, hle, _⟩ := hqe_st
                    exact List.mem_map.mpr ⟨(e.1, ke), idLookup_some_mem hle, rfl⟩
              have hnpP : NoPend { st2 with
                  objects := st2.objects.set idx (patchNode g items flds) } := by
                intro b kb hm
                show kb ∈ oidsOf (st2.objects.set idx (patchNode g items flds))
                rw [oidsOf_set_patch hga2 hrecp]
                exact hnp2 b kb hm
              have hgP : EncGood h { st2 with
                  objects := st2.objects.set idx (patchNode g items flds) } :=
                encGood_patch hg2 idx g hga2 items flds haI haF
              exact ih _ st' hgP hciP hnpP hc

/-- Faithfulness of a finished encode run: oids are `0..n-1`, the record
list holds exactly one well-shaped node per oid, every identity-mapped
object's node carries exactly its translated contents, and the children of
immediately-marshalled composites appear at strictly earlier record
positions. -/
def EncFaithful (h : Heap) (ids : List (Nat × Nat)) (records : List GRec) : Prop :=
  IdsWF ids ∧
  List.Perm (oidsOf records) (List.range ids.length) ∧
  (∀ g ∈ records, goodNodeB g = true) ∧
  (∀ a k, (a, k) ∈ ids → ∃ (p : Nat) (g : GRec), records[p]? = some g ∧
    recOid g = some k ∧ NodeFor h ids a k g ∧
    (immNodeKind h a = true → ∀ b ∈ immChildAddrs h a,
      ∃ k', idLookup ids b = some k' ∧ k' ∈ oidsOf (records.take p)))

/-- Every successful `marshal` run under the sanity hypotheses produces a
faithful record list, and the payload is the root's translation. -/
theorem genMarshal_characterized (h : Heap) (env : PyEnv) (rk : Nat → Nat)
    (fuel : Nat) (root : PyRef) (m : Marshalled)
    (hs : SupHeap h env rk)
    (hm : genMarshal h env fuel root = .ok m) :
    ∃ ids, EncFaithful h ids m.records ∧ encChild ids root = some m.payload ∧
      m.sentinel = SENTINEL := by
  rw [genMarshal] at hm
  split at hm
  · cases hm
  · rename_i st1 pay h1
    split at hm
    · cases hm
    · rename_i st2 h2
      cases hm
      have hg0 : EncGood h ⟨[], [], []⟩ := encGood_init h
      obtain ⟨ht1, _⟩ := recOK_all h env fuel _ root _ _ h1
      have hg1 : EncGood h st1 := encGood_step hg0 ht1
      obtain ⟨c1, he1, _⟩ := recOK2_all hs fuel _ root _ _ hg0.1
        (fun a _ b k hmm _ => nomatch hmm) h1
      have hci0 : CharInv h (⟨[], [], []⟩ : EncState) := by
        unfold CharInv
        refine ⟨?_, ?_, ?_⟩
        · intro a k hmm
          cases hmm
        · intro e he
          cases he
        · exact List.nodup_nil
      have hci1 : CharInv h st1 := charInv_step hg0.1 hci0 ht1 c1
      have hnp1 : NoPend st1 := by
        intro b k hmm
        by_contra hko
        obtain ⟨hm0, _⟩ := pending_back ht1 hg0.1 hmm hko
        cases hm0
      obtain ⟨hci2, hnp2⟩ := drainDeferred_char hs fuel st1 st2 hg1 hci1 hnp1 h2
      obtain ⟨hg2', ⟨dids, hdids⟩, hqe⟩ := drainDeferred_good h env fuel st1 st2 hg1 h2
      refine ⟨st2.ids, ?_, ?_, rfl⟩
      · unfold EncFaithful
        refine ⟨hg2'.1, hg2'.2.1, hg2'.2.2.1, ?_⟩
        intro a k hmm
        rcases hci2.1 a k hmm with hdone | ⟨idx, hidx⟩ | hpend
        · exact hdone
        · rw [hqe] at hidx
          cases hidx
        · exact absurd (hnp2 a k hmm) hpend
        
      · rw [hdids]
        exact encChild_ext he1 dids

/-! ## Decoder simulation

What the decoder reconstructs from a faithful record list: each oid's
table entry matches its source object, with references tied through the
object table. -/

/-- Decoded value of an atom record: a primitive is itself, a reference
denotes its table entry. -/
def AtomMatch (tbl : List (Nat × DVal)) : GRec → DVal → Prop
  | .prim p, v => v = .prim p
  | .ref k, v => lookupNat tbl k = some v
  | _, _ => False

/-- Correspondence between a source child and a decoded child: primitives
agree, an address denotes the table entry of its oid. -/
def ChildMatch (ids : List (Nat × Nat)) (tbl : List (Nat × DVal)) : PyRef → DVal → Prop
  | .prim p, v => v = .prim p
  | .addr b, v => ∃ k, idLookup ids b = some k ∧ lookupNat tbl k = some v

/-- The `__dict__` entries `_object` keeps: public names, non-callable
values. -/
def filteredFields (h : Heap) (fl : List (String × PyRef)) : List (String × PyRef) :=
  fl.filter (fun p => !(p.1.startsWith "__") && !(isCallable h p.2))

def PairMatch (ids : List (Nat × Nat)) (tbl : List (Nat × DVal))
    (kv : PyRef × PyRef) (q : DVal × DVal) : Prop :=
  ChildMatch ids tbl kv.1 q.1 ∧ ChildMatch ids tbl kv.2 q.2

def FldMatch (ids : List (Nat × Nat)) (tbl : List (Nat × DVal))
    (kv : String × PyRef) (q : String × DVal) : Prop :=
  kv.1 = q.1 ∧ ChildMatch ids tbl kv.2 q.2

/-- Full correspondence between the source object at `aSelf` and its
decoded value. -/
def objMatchCore (h : Heap) (ids : List (Nat × Nat)) (tbl : List (Nat × DVal))
    (dh : List DObj) (aSelf : Nat) : Option PyObj → DVal → Prop
  | some (.pylist xs), v => ∃ (w : Nat) (vs : List DVal), v = .daddr w ∧
      dh[w]? = some (.dlist vs) ∧ List.Forall₂ (ChildMatch ids tbl) xs vs
  | some (.pytuple xs), v => ∃ (w : Nat) (vs : List DVal), v = .daddr w ∧
      dh[w]? = some (.dtuple vs) ∧ List.Forall₂ (ChildMatch ids tbl) xs vs
  | some (.pydict kvs), v => ∃ (w : Nat) (qs : List (DVal × DVal)), v = .daddr w ∧
      dh[w]? = some (.ddict qs) ∧ List.Forall₂ (PairMatch ids tbl) kvs qs
  | some (.pyset xs), v => ∃ (w : Nat) (vs : List DVal), v = .daddr w ∧
      dh[w]? = some (.dset vs) ∧ List.Forall₂ (ChildMatch ids tbl) xs vs
  | some (.pyfrozenset xs), v => ∃ (w : Nat) (vs : List DVal), v = .daddr w ∧
      dh[w]? = some (.dfrozenset vs) ∧ List.Forall₂ (ChildMatch ids tbl) xs vs
  | some (.pycomplex re im), v => ∃ (w : Nat), v = .daddr w ∧
      dh[w]? = some (.dcomplex re im)
  | some (.pyfunc _ _), v => v = .live aSelf
  | some (.pyclass _ _ _), v => v = .live aSelf
  | some (.pymodule _ _), v => v = .live aSelf
  | some (.pyinstance ca fl), v => ∃ (w : Nat) (dfl : List (String × DVal)),
      v = .daddr w ∧ dh[w]? = some (.dinstance ca dfl) ∧
      List.Forall₂ (FldMatch ids tbl) (filteredFields h fl) dfl
  | some (.pyboundmethod iref fi), v => ∃ (w : Nat) (iv : DVal), v = .daddr w ∧
      dh[w]? = some (.dboundmethod iv fi) ∧ ChildMatch ids tbl iref iv
  | _, _ => False

def ObjMatch (h : Heap) (ids : List (Nat × Nat)) (tbl : List (Nat × DVal))
    (dh : List DObj) (a : Nat) (v : DVal) : Prop :=
  objMatchCore h ids tbl dh a h[a]? v

/-- Record-pass value of an oid: immediately decoded kinds are complete,
deferred mutable kinds are empty shells. -/
def rvalCore (h : Heap) (ids : List (Nat × Nat)) (tbl : List (Nat × DVal))
    (dh : List DObj) (aSelf : Nat) : Option PyObj → DVal → Prop
  | some (.pylist _), v => ∃ (w : Nat), v = .daddr w ∧ dh[w]? = some (.dlist [])
  | some (.pydict _), v => ∃ (w : Nat), v = .daddr w ∧ dh[w]? = some (.ddict [])
  | some (.pyset _), v => ∃ (w : Nat), v = .daddr w ∧ dh[w]? = some (.dset [])
  | some (.pyinstance ca _), v => ∃ (w : Nat), v = .daddr w ∧
      dh[w]? = some (.dinstance ca [])
  | some (.pytuple xs), v => ∃ (w : Nat) (vs : List DVal), v = .daddr w ∧
      dh[w]? = some (.dtuple vs) ∧ List.Forall₂ (ChildMatch ids tbl) xs vs
  | some (.pyfrozenset xs), v => ∃ (w : Nat) (vs : List DVal), v = .daddr w ∧
      dh[w]? = some (.dfrozenset vs) ∧ List.Forall₂ (ChildMatch ids tbl) xs vs
  | some (.pycomplex re im), v => ∃ (w : Nat), v = .daddr w ∧
      dh[w]? = some (.dcomplex re im)
  | some (.pyfunc _ _), v => v = .live aSelf
  | some (.pyclass _ _ _), v => v = .live aSelf
  | some (.pymodule _ _), v => v = .live aSelf
  | some (.pyboundmethod iref fi), v => ∃ (w : Nat) (iv : DVal), v = .daddr w ∧
      dh[w]? = some (.dboundmethod iv fi) ∧ ChildMatch ids tbl iref iv
  | _, _ => False

def RVal (h : Heap) (ids : List (Nat × Nat)) (tbl : List (Nat × DVal))
    (dh : List DObj) (a : Nat) (v : DVal) : Prop :=
  rvalCore h ids tbl dh a h[a]? v

/-- Record-pass invariant over the registered oid set `S`. -/
def RInv (h : Heap) (ids : List (Nat × Nat)) (S : List Nat) (dst : DecState) : Prop :=
  (∀ k v, lookupNat dst.objTable k = some v → k ∈ S) ∧
  (∀ a k, (a, k) ∈ ids → k ∈ S → ∃ v, lookupNat dst.objTable k = some v ∧
      RVal h ids dst.objTable dst.dheap a v ∧
      (mutableKindAt h a = true → ∃ e, e ∈ dst.toPopulate ∧ v = .daddr e.1 ∧
        NodeFor h ids a k e.2)) ∧
  (∀ kk vv, (kk, vv) ∈ dst.objTable → ∀ w, vv = .daddr w → w < dst.dheap.length) ∧
  (∀ k1 v1 k2 v2 w, lookupNat dst.objTable k1 = some v1 →
      lookupNat dst.objTable k2 = some v2 → v1 = .daddr w → v2 = .daddr w → k1 = k2) ∧
  (∀ e ∈ dst.toPopulate, ∃ (a k : Nat), (a, k) ∈ ids ∧ mutableKindAt h a = true ∧
      lookupNat dst.objTable k = some (.daddr e.1) ∧ NodeFor h ids a k e.2) ∧
  (dst.toPopulate.map Prod.fst).Nodup

/-! ### Table and heap toolbox for the decoder -/

theorem lookupNat_cons {α : Type} (q : Nat × α) (l : List (Nat × α)) (k : Nat) :
    lookupNat (q :: l) k = if q.1 == k then some q.2 else lookupNat l k := by
  unfold lookupNat
  cases hqa : (q.1 == k) <;> simp [List.find?_cons, hqa]

theorem lookupNat_some_mem {α : Type} {l : List (Nat × α)} {k : Nat} {v : α}
    (hl : lookupNat l k = some v) : (k, v) ∈ l := by
  induction l with
  | nil => simp [lookupNat] at hl
  | cons q rest ih =>
    rw [lookupNat_cons] at hl
    split at hl
    · rename_i hq
      obtain ⟨x, y⟩ := q
      simp only [Option.some.injEq] at hl
      have hx : x = k := by simpa using hq
      simp [hx, hl]
    · exact List.mem_cons_of_mem _ (ih hl)

theorem lookupNat_prepend_of_ne {α : Type} {l : List (Nat × α)} {k k2 : Nat} {v : α}
    (hne : k2 ≠ k) : lookupNat ((k2, v) :: l) k = lookupNat l k := by
  rw [lookupNat_cons]
  simp [hne]

theorem lookupNat_prepend_self {α : Type} (l : List (Nat × α)) (k : Nat) (v : α) :
    lookupNat ((k, v) :: l) k = some v := by
  rw [lookupNat_cons]
  simp

/-- Prepending an unregistered key preserves successful lookups. -/
theorem lookupNat_prepend_fresh {α : Type} {l : List (Nat × α)} {k k2 : Nat} {v v2 : α}
    (hfresh : lookupNat l k2 = none) (hl : lookupNat l k = some v) :
    lookupNat ((k2, v2) :: l) k = some v := by
  have hne : k2 ≠ k := by
    intro he
    rw [he, hl] at hfresh
    cases hfresh
  rw [lookupNat_prepend_of_ne hne]
  exact hl

theorem atomMatch_mono {tbl tbl2 : List (Nat × DVal)} {g : GRec} {v : DVal}
    (hmono : ∀ k v2, lookupNat tbl k = some v2 → lookupNat tbl2 k = some v2)
    (hm : AtomMatch tbl g v) : AtomMatch tbl2 g v := by
  cases g with
  | prim p => exact hm
  | ref k => exact hmono k v hm
  | node ty oid items flds attr inst => exact hm.elim

theorem childMatch_mono {ids : List (Nat × Nat)} {tbl tbl2 : List (Nat × DVal)}
    {r : PyRef} {v : DVal}
    (hmono : ∀ k v2, lookupNat tbl k = some v2 → lookupNat tbl2 k = some v2)
    (hm : ChildMatch ids tbl r v) : ChildMatch ids tbl2 r v := by
  cases r with
  | prim p => exact hm
  | addr b =>
    obtain ⟨k, h1, h2⟩ := hm
    exact ⟨k, h1, hmono k v h2⟩

theorem rvalCore_mono {h : Heap} {ids : List (Nat × Nat)} {tbl tbl2 : List (Nat × DVal)}
    {dh dh2 : List DObj} {aSelf : Nat} {ob : Option PyObj} {v : DVal}
    (hmono : ∀ k v2, lookupNat tbl k = some v2 → lookupNat tbl2 k = some v2)
    (hdh : ∀ (w : Nat) (d : DObj), dh[w]? = some d → dh2[w]? = some d)
    (hm : rvalCore h ids tbl dh aSelf ob v) : rvalCore h ids tbl2 dh2 aSelf ob v := by
  cases ob with
  | none => exact hm.elim
  | some o =>
    cases o with
    | pylist xs =>
      obtain ⟨w, h1, h2⟩ := hm
      exact ⟨w, h1, hdh w _ h2⟩
    | pydict kvs =>
      obtain ⟨w, h1, h2⟩ := hm
      exact ⟨w, h1, hdh w _ h2⟩
    | pyset xs =>
      obtain ⟨w, h1, h2⟩ := hm
      exact ⟨w, h1, hdh w _ h2⟩
    | pyinstance ca fl =>
      obtain ⟨w, h1, h2⟩ := hm
      exact ⟨w, h1, hdh w _ h2⟩
    | pytuple xs =>
      obtain ⟨w, vs, h1, h2, h3⟩ := hm
      exact ⟨w, vs, h1, hdh w _ h2, h3.imp (fun x y hx => childMatch_mono hmono hx)⟩
    | pyfrozenset xs =>
      obtain ⟨w, vs, h1, h2, h3⟩ := hm
      exact ⟨w, vs, h1, hdh w _ h2, h3.imp (fun x y hx => childMatch_mono hmono hx)⟩
    | pycomplex re im =>
      obtain ⟨w, h1, h2⟩ := hm
      exact ⟨w, h1, hdh w _ h2⟩
    | pyfunc mo na => exact hm
    | pyclass mo na ats => exact hm
    | pymodule mn ats => exact hm
    | pyboundmethod iref fi =>
      obtain ⟨w, iv, h1, h2, h3⟩ := hm
      exact ⟨w, iv, h1, hdh w _ h2, childMatch_mono hmono h3⟩
    | pylambda => exact hm.elim
    | pyclosure mo na => exact hm.elim
    | pygenerator => exact hm.elim
    | pyiterator => exact hm.elim

theorem rval_mono {h : Heap} {ids : List (Nat × Nat)} {tbl tbl2 : List (Nat × DVal)}
    {dh dh2 : List DObj} {a : Nat} {v : DVal}
    (hmono : ∀ k v2, lookupNat tbl k = some v2 → lookupNat tbl2 k = some v2)
    (hdh : ∀ (w : Nat) (d : DObj), dh[w]? = some d → dh2[w]? = some d)
    (hm : RVal h ids tbl dh a v) : RVal h ids tbl2 dh2 a v :=
  rvalCore_mono hmono hdh hm

/-! ### Builtin names resolve for any heap, and decode errors classified -/

theorem resolveType_blist (h : Heap) (env : PyEnv) :
    resolveType h env "__builtin__/list" = .ok (.bi .blist) := rfl

theorem resolveType_btuple (h : Heap) (env : PyEnv) :
    resolveType h env "__builtin__/tuple" = .ok (.bi .btuple) := rfl

theorem resolveType_bdict (h : Heap) (env : PyEnv) :
    resolveType h env "__builtin__/dict" = .ok (.bi .bdict) := rfl

theorem resolveType_bset (h : Heap) (env : PyEnv) :
    resolveType h env "__builtin__/set" = .ok (.bi .bset) := rfl

theorem resolveType_bfrozenset (h : Heap) (env : PyEnv) :
    resolveType h env "__builtin__/frozenset" = .ok (.bi .bfrozenset) := rfl

theorem resolveType_bcomplex (h : Heap) (env : PyEnv) :
    resolveType h env "__builtin__/complex" = .ok (.bi .bcomplex) := rfl

/-- Module names resolve to the module object itself. -/
theorem resolveType_module (h : Heap) (env : PyEnv) (mname : String) (a : Nat)
    (hma : lookupStr env.mods mname = some a)
    (hnb : mname ≠ "__builtin__") (hns : ¬ '/' ∈ mname.data) :
    resolveType h env mname = .ok (.heapObj a) := by
  unfold resolveType
  have hsplit : splitAllChar '/' mname.data = [mname.data] :=
    splitAllChar_no_occ '/' mname.data hns
  simp only [hsplit]
  unfold resolveIn
  have hmk : String.mk mname.data = mname := rfl
  rw [hmk, if_neg (by simpa using hnb), hma]
  simp [walkAttrs]

/-- An error is benign for the forward-reference claim when it is not a
`ForwardReferenceError`. -/
def NonFwd (e : DecErr) : Prop := ∀ k, e ≠ .forwardRef k

theorem walkAttrs_no_fwd (h : Heap) :
    ∀ (path : List (List Char)) (sc : Nat) (e : DecErr),
      walkAttrs h sc path = .error e → NonFwd e := by
  intro path
  induction path with
  | nil =>
    intro sc e hc
    rw [walkAttrs] at hc
    cases hc
  | cons n ns ih =>
    intro sc e hc
    rw [walkAttrs] at hc
    split at hc
    · exact ih sc e hc
    · split at hc
      · cases hc
        intro k2 hk
        cases hk
      · split at hc
        · rename_i b hb
          exact ih b e hc
        · cases hc
          intro k2 hk
          cases hk
        · cases hc
          intro k2 hk
          cases hk

theorem resolveType_no_fwd (h : Heap) (env : PyEnv) (s : String) (e : DecErr)
    (hc : resolveType h env s = .error e) : NonFwd e := by
  unfold resolveType at hc
  split at hc
  all_goals first
  | (unfold resolveIn at hc
     split at hc
     · split at hc
       · split at hc
         · cases hc
         · cases hc
           intro k2 hk
           cases hk
       · cases hc
         intro k2 hk
         cases hk
     · split at hc
       · cases hc
         intro k2 hk
         cases hk
       · split at hc
         · cases hc
         · rename_i heq
           cases hc
           exact walkAttrs_no_fwd h _ _ _ heq)
  | (cases hc
     intro k2 hk
     cases hk)

theorem allocShell_no_fwd (h : Heap) (kind : Resolved) (st : DecState) (e : DecErr)
    (hc : allocShell h kind st = .error e) : NonFwd e := by
  unfold allocShell at hc
  split at hc
  · cases hc
  · cases hc
  · cases hc
  · split at hc
    · cases hc
    · cases hc
      intro k2 hk
      cases hk
  · cases hc
    intro k2 hk
    cases hk

theorem pyGetattrD_no_fwd (h : Heap) (st : DecState) (iv : DVal) (name : String)
    (e : DecErr) (hc : pyGetattrD h st iv name = .error e) : NonFwd e := by
  unfold pyGetattrD at hc
  repeat
    first
    | (cases hc <;> (intro k2 hk; cases hk))
    | split at hc

/-! ### Decoding atoms -/

theorem decodeRec_atom_ok {h : Heap} {env : PyEnv} {f : Nat} {st : DecState}
    {g : GRec} {v : DVal} {st' : DecState}
    (hat : isAtomB g = true)
    (hc : decodeRec h env f st g = .ok (st', v)) :
    st' = st ∧ AtomMatch st.objTable g v := by
  cases f with
  | zero =>
    rw [decodeRec.eq_def] at hc
    cases hc
  | succ f =>
    cases g with
    | prim p =>
      rw [decodeRec.eq_def] at hc
      simp only [] at hc
      cases hc
      exact ⟨rfl, rfl⟩
    | ref k =>
      rw [decodeRec.eq_def] at hc
      simp only [] at hc
      split at hc
      · rename_i v0 hv0
        cases hc
        exact ⟨rfl, hv0⟩
      · cases hc
    | node ty oid items flds attr inst => cases hat

theorem decodeRec_atom_err {h : Heap} {env : PyEnv} {f : Nat} {st : DecState}
    {g : GRec}
    (hat : isAtomB g = true)
    (hreg : ∀ k, g = GRec.ref k → ∃ v, lookupNat st.objTable k = some v) :
    ∀ e, decodeRec h env f st g = .error e → NonFwd e := by
  intro e hc
  cases f with
  | zero =>
    rw [decodeRec.eq_def] at hc
    cases hc
    intro k2 hk
    cases hk
  | succ f =>
    cases g with
    | prim p =>
      rw [decodeRec.eq_def] at hc
      simp only [] at hc
      cases hc
    | ref k =>
      rw [decodeRec.eq_def] at hc
      simp only [] at hc
      split at hc
      · cases hc
      · rename_i hnone
        obtain ⟨v, hv⟩ := hreg k rfl
        rw [hv] at hnone
        cases hnone
    | node ty oid items flds attr inst => cases hat

theorem decodeSeq_atoms {h : Heap} {env : PyEnv} {f : Nat} :
    ∀ (rs : List GRec) (st : DecState),
      (∀ g ∈ rs, isAtomB g = true) →
      (∀ k, (GRec.ref k) ∈ rs → ∃ v, lookupNat st.objTable k = some v) →
      (∀ e, decodeSeq h env f st rs = .error e → NonFwd e) ∧
      (∀ st' vs, decodeSeq h env f st rs = .ok (st', vs) →
        st' = st ∧ List.Forall₂ (AtomMatch st.objTable) rs vs) := by
  intro rs
  induction rs with
  | nil =>
    intro st hat hreg
    constructor
    · intro e he
      rw [decodeSeq] at he
      cases he
    · intro st' vs hc
      rw [decodeSeq] at hc
      cases hc
      exact ⟨rfl, List.Forall₂.nil⟩
  | cons r rest ih =>
    intro st hat hreg
    have hatr : isAtomB r = true := hat r (List.mem_cons_self _ _)
    have hregr : ∀ k, r = GRec.ref k → ∃ v, lookupNat st.objTable k = some v :=
      fun k hk => hreg k (by rw [← hk]; exact List.mem_cons_self _ _)
    constructor
    · intro e he
      rw [decodeSeq] at he
      split at he
      · rename_i e1 heq
        cases he
        exact decodeRec_atom_err hatr hregr _ heq
      · rename_i st1 v heq
        obtain ⟨hst1, _⟩ := decodeRec_atom_ok hatr heq
        subst hst1
        split at he
        · rename_i e2 heq2
          cases he
          exact (ih _ (fun g hg => hat g (List.mem_cons_of_mem _ hg))
            (fun k hk => hreg k (List.mem_cons_of_mem _ hk))).1 _ heq2
        · cases he
    · intro st' vs hc
      rw [decodeSeq] at hc
      split at hc
      · cases hc
      · rename_i st1 v heq
        obtain ⟨hst1, hm1⟩ := decodeRec_atom_ok hatr heq
        subst hst1
        split at hc
        · cases hc
        · rename_i st2 vs2 heq2
          obtain ⟨hst2, hm2⟩ := (ih _ (fun g hg => hat g (List.mem_cons_of_mem _ hg))
            (fun k hk => hreg k (List.mem_cons_of_mem _ hk))).2 st2 vs2 heq2
          cases hc
          exact ⟨hst2, List.Forall₂.cons hm1 hm2⟩

theorem decodePairs_atoms {h : Heap} {env : PyEnv} {f : Nat} :
    ∀ (ps : List (GRec × GRec)) (st : DecState),
      (∀ q ∈ ps, isAtomB q.1 = true ∧ isAtomB q.2 = true) →
      (∀ k q, q ∈ ps → (q.1 = GRec.ref k ∨ q.2 = GRec.ref k) →
        ∃ v, lookupNat st.objTable k = some v) →
      (∀ e, decodePairs h env f st ps = .error e → NonFwd e) ∧
      (∀ st' qs, decodePairs h env f st ps = .ok (st', qs) →
        st' = st ∧ List.Forall₂ (fun q dq =>
          AtomMatch st.objTable q.1 dq.1 ∧ AtomMatch st.objTable q.2 dq.2) ps qs) := by
  intro ps
  induction ps with
  | nil =>
    intro st hat hreg
    constructor
    · intro e he
      rw [decodePairs] at he
      cases he
    · intro st' qs hc
      rw [decodePairs] at hc
      cases hc
      exact ⟨rfl, List.Forall₂.nil⟩
  | cons q rest ih =>
    intro st hat hreg
    obtain ⟨qk, qv⟩ := q
    have hatk : isAtomB qk = true := (hat (qk, qv) (List.mem_cons_self _ _)).1
    have hatv : isAtomB qv = true := (hat (qk, qv) (List.mem_cons_self _ _)).2
    have hregk : ∀ k, qk = GRec.ref k → ∃ v, lookupNat st.objTable k = some v :=
      fun k hk => hreg k (qk, qv) (List.mem_cons_self _ _) (Or.inl hk)
    have hregv : ∀ k, qv = GRec.ref k → ∃ v, lookupNat st.objTable k = some v :=
      fun k hk => hreg k (qk, qv) (List.mem_cons_self _ _) (Or.inr hk)
    constructor
    · intro e he
      rw [decodePairs] at he
      split at he
      · rename_i e1 heq
        cases he
        exact decodeRec_atom_err hatv hregv _ heq
      · rename_i st1 dv heq
        obtain ⟨hst1, _⟩ := decodeRec_atom_ok hatv heq
        subst hst1
        split at he
        · rename_i e2 heq2
          cases he
          exact decodeRec_atom_err hatk hregk _ heq2
        · rename_i st2 dk heq2
          obtain ⟨hst2, _⟩ := decodeRec_atom_ok hatk heq2
          subst hst2
          split at he
          · rename_i e3 heq3
            cases he
            exact (ih _ (fun g hg => hat g (List.mem_cons_of_mem _ hg))
              (fun k g hg ho => hreg k g (List.mem_cons_of_mem _ hg) ho)).1 _ heq3
          · cases he
    · intro st' qs hc
      rw [decodePairs] at hc
      split at hc
      · cases hc
      · rename_i st1 dv heq
        obtain ⟨hst1, hmv⟩ := decodeRec_atom_ok hatv heq
        subst hst1
        split at hc
        · cases hc
        · rename_i st2 dk heq2
          obtain ⟨hst2, hmk⟩ := decodeRec_atom_ok hatk heq2
          subst hst2
          split at hc
          · cases hc
          · rename_i st3 qs3 heq3
            obtain ⟨hst3, hm3⟩ := (ih _ (fun g hg => hat g (List.mem_cons_of_mem _ hg))
              (fun k g hg ho => hreg k g (List.mem_cons_of_mem _ hg) ho)).2 st3 qs3 heq3
            cases hc
            exact ⟨hst3, List.Forall₂.cons ⟨hmk, hmv⟩ hm3⟩

theorem decodeFieldVals_atoms {h : Heap} {env : PyEnv} {f : Nat} :
    ∀ (fl : List (String × GRec)) (st : DecState),
      (∀ q ∈ fl, isAtomB q.2 = true) →
      (∀ k q, q ∈ fl → q.2 = GRec.ref k → ∃ v, lookupNat st.objTable k = some v) →
      (∀ e, decodeFieldVals h env f st fl = .error e → NonFwd e) ∧
      (∀ st' dfl, decodeFieldVals h env f st fl = .ok (st', dfl) →
        st' = st ∧ List.Forall₂ (fun q dq =>
          q.1 = dq.1 ∧ AtomMatch st.objTable q.2 dq.2) fl dfl) := by
  intro fl
  induction fl with
  | nil =>
    intro st hat hreg
    constructor
    · intro e he
      rw [decodeFieldVals] at he
      cases he
    · intro st' dfl hc
      rw [decodeFieldVals] at hc
      cases hc
      exact ⟨rfl, List.Forall₂.nil⟩
  | cons q rest ih =>
    intro st hat hreg
    obtain ⟨key, gv⟩ := q
    have hatv : isAtomB gv = true := hat (key, gv) (List.mem_cons_self _ _)
    have hregv : ∀ k, gv = GRec.ref k → ∃ v, lookupNat st.objTable k = some v :=
      fun k hk => hreg k (key, gv) (List.mem_cons_self _ _) hk
    constructor
    · intro e he
      rw [decodeFieldVals] at he
      split at he
      · rename_i e1 heq
        cases he
        exact decodeRec_atom_err hatv hregv _ heq
      · rename_i st1 dv heq
        obtain ⟨hst1, _⟩ := decodeRec_atom_ok hatv heq
        subst hst1
        split at he
        · rename_i e2 heq2
          cases he
          exact (ih _ (fun g hg => hat g (List.mem_cons_of_mem _ hg))
            (fun k g hg ho => hreg k g (List.mem_cons_of_mem _ hg) ho)).1 _ heq2
        · cases he
    · intro st' dfl hc
      rw [decodeFieldVals] at hc
      split at hc
      · cases hc
      · rename_i st1 dv heq
        obtain ⟨hst1, hmv⟩ := decodeRec_atom_ok hatv heq
        subst hst1
        split at hc
        · cases hc
        · rename_i st2 dfl2 heq2
          obtain ⟨hst2, hm2⟩ := (ih _ (fun g hg => hat g (List.mem_cons_of_mem _ hg))
            (fun k g hg ho => hreg k g (List.mem_cons_of_mem _ hg) ho)).2 st2 dfl2 heq2
          cases hc
          exact ⟨hst2, List.Forall₂.cons ⟨rfl, hmv⟩ hm2⟩

/-! ### Position uniqueness and source-to-decoded composition -/

theorem oid_pos_unique {l : List GRec} (hnd : (oidsOf l).Nodup) :
    ∀ {p q : Nat} {g g2 : GRec} {k : Nat},
      l[p]? = some g → l[q]? = some g2 → recOid g = some k → recOid g2 = some k →
      p = q := by
  induction l with
  | nil =>
    intro p q g g2 k hp hq hkp hkq
    simp at hp
  | cons x t ih =>
    intro p q g g2 k hp hq hkp hkq
    cases p with
    | zero =>
      cases q with
      | zero => rfl
      | succ j =>
        exfalso
        simp only [List.getElem?_cons_zero, Option.some.injEq] at hp
        simp only [List.getElem?_cons_succ] at hq
        subst hp
        have hk2 : k ∈ oidsOf t := mem_oidsOf_of_at hq hkq
        simp only [oidsOf, List.filterMap_cons, hkp] at hnd
        exact (List.nodup_cons.mp hnd).1 hk2
    | succ i =>
      cases q with
      | zero =>
        exfalso
        simp only [List.getElem?_cons_zero, Option.some.injEq] at hq
        simp only [List.getElem?_cons_succ] at hp
        subst hq
        have hk2 : k ∈ oidsOf t := mem_oidsOf_of_at hp hkp
        simp only [oidsOf, List.filterMap_cons, hkq] at hnd
        exact (List.nodup_cons.mp hnd).1 hk2
      | succ j =>
        simp only [List.getElem?_cons_succ] at hp hq
        have htail : (oidsOf t).Nodup := by
          cases hr : recOid x with
          | none => simpa only [oidsOf, List.filterMap_cons, hr] using hnd
          | some k2 =>
            simp only [oidsOf, List.filterMap_cons, hr] at hnd
            exact (List.nodup_cons.mp hnd).2
        exact congrArg Nat.succ (ih htail hp hq hkp hkq)

theorem nodup_pos_unique {α β : Type} (f : α → β) :
    ∀ {l : List α}, (l.map f).Nodup → ∀ {i j : Nat} {x y : α},
      l[i]? = some x → l[j]? = some y → f x = f y → i = j := by
  intro l
  induction l with
  | nil =>
    intro _ i j x y hi hj hf
    simp at hi
  | cons z t ih =>
    intro hnd i j x y hi hj hf
    cases i with
    | zero =>
      cases j with
      | zero => rfl
      | succ j2 =>
        exfalso
        simp only [List.getElem?_cons_zero, Option.some.injEq] at hi
        simp only [List.getElem?_cons_succ] at hj
        subst hi
        have hy : f y ∈ t.map f := List.mem_map.mpr ⟨y, List.getElem?_mem hj, rfl⟩
        rw [← hf] at hy
        exact (List.nodup_cons.mp hnd).1 hy
    | succ i2 =>
      cases j with
      | zero =>
        exfalso
        simp only [List.getElem?_cons_zero, Option.some.injEq] at hj
        simp only [List.getElem?_cons_succ] at hi
        subst hj
        have hy : f x ∈ t.map f := List.mem_map.mpr ⟨x, List.getElem?_mem hi, rfl⟩
        rw [hf] at hy
        exact (List.nodup_cons.mp hnd).1 hy
      | succ j2 =>
        simp only [List.getElem?_cons_succ] at hi hj
        exact congrArg Nat.succ (ih (List.nodup_cons.mp hnd).2 hi hj hf)

theorem encChildren_atoms {ids : List (Nat × Nat)} :
    ∀ {xs : List PyRef} {rs : List GRec}, encChildren ids xs = some rs →
      ∀ g ∈ rs, isAtomB g = true := by
  intro xs
  induction xs with
  | nil =>
    intro rs hc g hg
    rw [encChildren] at hc
    cases hc
    cases hg
  | cons x xt ih =>
    intro rs hc g hg
    rw [encChildren] at hc
    split at hc
    · rename_i g1 gs hg1 hgs
      cases hc
      rcases List.mem_cons.mp hg with hx | hx
      · subst hx
        cases x with
        | prim p =>
          cases hg1
          rfl
        | addr b =>
          simp only [encChild, Option.map_eq_some'] at hg1
          obtain ⟨k, _, hk2⟩ := hg1
          rw [← hk2]
          rfl
      · exact ih hgs g hx
    · cases hc

theorem encChildren_ref_src {ids : List (Nat × Nat)} :
    ∀ {xs : List PyRef} {rs : List GRec} {k : Nat}, encChildren ids xs = some rs →
      (GRec.ref k) ∈ rs → ∃ b, (PyRef.addr b) ∈ xs ∧ idLookup ids b = some k := by
  intro xs
  induction xs with
  | nil =>
    intro rs k hc hm
    rw [encChildren] at hc
    cases hc
    cases hm
  | cons x xt ih =>
    intro rs k hc hm
    rw [encChildren] at hc
    split at hc
    · rename_i g1 gs hg1 hgs
      cases hc
      rcases List.mem_cons.mp hm with hx | hx
      · cases x with
        | prim p =>
          cases hg1
          cases hx
        | addr b =>
          simp only [encChild, Option.map_eq_some'] at hg1
          obtain ⟨k2, hk2, hgr⟩ := hg1
          rw [← hgr] at hx
          injection hx with hkk
          exact ⟨b, List.mem_cons_self _ _, by rw [← hkk] at hk2; exact hk2⟩
      · obtain ⟨b, hb1, hb2⟩ := ih hgs hx
        exact ⟨b, List.mem_cons_of_mem _ hb1, hb2⟩
    · cases hc

theorem childMatch_of_atoms {ids : List (Nat × Nat)} {tbl : List (Nat × DVal)} :
    ∀ {xs : List PyRef} {rs : List GRec} {vs : List DVal},
      encChildren ids xs = some rs → List.Forall₂ (AtomMatch tbl) rs vs →
      List.Forall₂ (ChildMatch ids tbl) xs vs := by
  intro xs
  induction xs with
  | nil =>
    intro rs vs hc hm
    rw [encChildren] at hc
    cases hc
    cases hm
    exact List.Forall₂.nil
  | cons x xt ih =>
    intro rs vs hc hm
    rw [encChildren] at hc
    split at hc
    · rename_i g1 gs hg1 hgs
      cases hc
      cases hm with
      | cons hm1 hm2 =>
        refine List.Forall₂.cons ?_ (ih hgs hm2)
        cases x with
        | prim p =>
          cases hg1
          exact hm1
        | addr b =>
          simp only [encChild, Option.map_eq_some'] at hg1
          obtain ⟨k, hk, hgr⟩ := hg1
          rw [← hgr] at hm1
          exact ⟨k, hk, hm1⟩
    · cases hc

theorem encPairs_atoms {ids : List (Nat × Nat)} :
    ∀ {kvs : List (PyRef × PyRef)} {ps : List (GRec × GRec)},
      encPairs ids kvs = some ps →
      ∀ q ∈ ps, isAtomB q.1 = true ∧ isAtomB q.2 = true := by
  intro kvs
  induction kvs with
  | nil =>
    intro ps hc q hq
    rw [encPairs] at hc
    cases hc
    cases hq
  | cons kv rest ih =>
    intro ps hc q hq
    obtain ⟨kk, vv⟩ := kv
    rw [encPairs] at hc
    split at hc
    · rename_i kg vg qs hkg hvg hqs
      cases hc
      rcases List.mem_cons.mp hq with hx | hx
      · subst hx
        constructor
        · cases kk with
          | prim p => cases hkg; rfl
          | addr b =>
            simp only [encChild, Option.map_eq_some'] at hkg
            obtain ⟨k, _, hk2⟩ := hkg
            rw [← hk2]
            rfl
        · cases vv with
          | prim p => cases hvg; rfl
          | addr b =>
            simp only [encChild, Option.map_eq_some'] at hvg
            obtain ⟨k, _, hk2⟩ := hvg
            rw [← hk2]
            rfl
      · exact ih hqs q hx
    · cases hc

theorem encPairs_ref_src {ids : List (Nat × Nat)} :
    ∀ {kvs : List (PyRef × PyRef)} {ps : List (GRec × GRec)} {k : Nat} {q : GRec × GRec},
      encPairs ids kvs = some ps → q ∈ ps → (q.1 = GRec.ref k ∨ q.2 = GRec.ref k) →
      ∃ b, idLookup ids b = some k := by
  intro kvs
  induction kvs with
  | nil =>
    intro ps k q hc hq ho
    rw [encPairs] at hc
    cases hc
    cases hq
  | cons kv rest ih =>
    intro ps k q hc hq ho
    obtain ⟨kk, vv⟩ := kv
    rw [encPairs] at hc
    split at hc
    · rename_i kg vg qs hkg hvg hqs
      cases hc
      rcases List.mem_cons.mp hq with hx | hx
      · subst hx
        rcases ho with hx1 | hx1
        · simp only [] at hx1
          cases kk with
          | prim p =>
            cases hkg
            cases hx1
          | addr b =>
            simp only [encChild, Option.map_eq_some'] at hkg
            obtain ⟨k2, hk2, hgr⟩ := hkg
            rw [← hgr] at hx1
            injection hx1 with hkk
            exact ⟨b, by rw [hkk] at hk2; exact hk2⟩
        · simp only [] at hx1
          cases vv with
          | prim p =>
            cases hvg
            cases hx1
          | addr b =>
            simp only [encChild, Option.map_eq_some'] at hvg
            obtain ⟨k2, hk2, hgr⟩ := hvg
            rw [← hgr] at hx1
            injection hx1 with hkk
            exact ⟨b, by rw [hkk] at hk2; exact hk2⟩
      · exact ih hqs hx ho
    · cases hc

theorem pairMatch_of_atoms {ids : List (Nat × Nat)} {tbl : List (Nat × DVal)} :
    ∀ {kvs : List (PyRef × PyRef)} {ps : List (GRec × GRec)} {qs : List (DVal × DVal)},
      encPairs ids kvs = some ps →
      List.Forall₂ (fun q dq => AtomMatch tbl q.1 dq.1 ∧ AtomMatch tbl q.2 dq.2) ps qs →
      List.Forall₂ (PairMatch ids tbl) kvs qs := by
  intro kvs
  induction kvs with
  | nil =>
    intro ps qs hc hm
    rw [encPairs] at hc
    cases hc
    cases hm
    exact List.Forall₂.nil
  | cons kv rest ih =>
    intro ps qs hc hm
    obtain ⟨kk, vv⟩ := kv
    rw [encPairs] at hc
    split at hc
    · rename_i kg vg qs2 hkg hvg hqs
      cases hc
      cases hm with
      | cons hm1 hm2 =>
        refine List.Forall₂.cons ⟨?_, ?_⟩ (ih hqs hm2)
        · cases kk with
          | prim p =>
            cases hkg
            exact hm1.1
          | addr b =>
            simp only [encChild, Option.map_eq_some'] at hkg
            obtain ⟨k, hk, hgr⟩ := hkg
            have := hm1.1
            rw [← hgr] at this
            exact ⟨k, hk, this⟩
        · cases vv with
          | prim p =>
            cases hvg
            exact hm1.2
          | addr b =>
            simp only [encChild, Option.map_eq_some'] at hvg
            obtain ⟨k, hk, hgr⟩ := hvg
            have := hm1.2
            rw [← hgr] at this
            exact ⟨k, hk, this⟩
    · cases hc

theorem encFields_atoms {h : Heap} {ids : List (Nat × Nat)} :
    ∀ {fl : List (String × PyRef)} {gs : List (String × GRec)},
      encFields h ids fl = some gs → ∀ q ∈ gs, isAtomB q.2 = true := by
  intro fl
  induction fl with
  | nil =>
    intro gs hc q hq
    rw [encFields] at hc
    cases hc
    cases hq
  | cons kv rest ih =>
    intro gs hc q hq
    obtain ⟨key, v⟩ := kv
    rw [encFields] at hc
    split at hc
    · exact ih hc q hq
    · split at hc
      · rename_i g hs hg hhs
        cases hc
        rcases List.mem_cons.mp hq with hx | hx
        · subst hx
          cases v with
          | prim p => cases hg; rfl
          | addr b =>
            simp only [encChild, Option.map_eq_some'] at hg
            obtain ⟨k, _, hk2⟩ := hg
            rw [← hk2]
            rfl
        · exact ih hhs q hx
      · cases hc

theorem encFields_ref_src {h : Heap} {ids : List (Nat × Nat)} :
    ∀ {fl : List (String × PyRef)} {gs : List (String × GRec)} {k : Nat}
      {q : String × GRec},
      encFields h ids fl = some gs → q ∈ gs → q.2 = GRec.ref k →
      ∃ b, idLookup ids b = some k := by
  intro fl
  induction fl with
  | nil =>
    intro gs k q hc hq ho
    rw [encFields] at hc
    cases hc
    cases hq
  | cons kv rest ih =>
    intro gs k q hc hq ho
    obtain ⟨key, v⟩ := kv
    rw [encFields] at hc
    split at hc
    · exact ih hc hq ho
    · split at hc
      · rename_i g hs hg hhs
        cases hc
        rcases List.mem_cons.mp hq with hx | hx
        · subst hx
          simp only [] at ho
          cases v with
          | prim p =>
            cases hg
            cases ho
          | addr b =>
            simp only [encChild, Option.map_eq_some'] at hg
            obtain ⟨k2, hk2, hgr⟩ := hg
            rw [← hgr] at ho
            injection ho with hkk
            exact ⟨b, by rw [hkk] at hk2; exact hk2⟩
        · exact ih hhs hx ho
      · cases hc

theorem fldMatch_of_atoms {h : Heap} {ids : List (Nat × Nat)} {tbl : List (Nat × DVal)} :
    ∀ {fl : List (String × PyRef)} {gs : List (String × GRec)}
      {dfl : List (String × DVal)},
      encFields h ids fl = some gs →
      List.Forall₂ (fun q dq => q.1 = dq.1 ∧ AtomMatch tbl q.2 dq.2) gs dfl →
      List.Forall₂ (FldMatch ids tbl) (filteredFields h fl) dfl := by
  intro fl
  induction fl with
  | nil =>
    intro gs dfl hc hm
    rw [encFields] at hc
    cases hc
    cases hm
    exact List.Forall₂.nil
  | cons kv rest ih =>
    intro gs dfl hc hm
    obtain ⟨key, v⟩ := kv
    rw [encFields] at hc
    split at hc
    · rename_i hskip
      have hsk2 : ¬ ((!(key.startsWith "__") && !(isCallable h v)) = true) := by
        cases hb : key.startsWith "__" <;> cases hcb : isCallable h v <;> simp_all
      rw [show filteredFields h ((key, v) :: rest) = filteredFields h rest by
        simp only [filteredFields, List.filter_cons]
        rw [if_neg hsk2]]
      exact ih hc hm
    · rename_i hskip
      have hsk2 : (!(key.startsWith "__") && !(isCallable h v)) = true := by
        cases hb : key.startsWith "__" <;> cases hcb : isCallable h v <;> simp_all
      split at hc
      · rename_i g hs hg hhs
        cases hc
        cases hm with
        | cons hm1 hm2 =>
          rw [show filteredFields h ((key, v) :: rest)
              = (key, v) :: filteredFields h rest by
            simp only [filteredFields, List.filter_cons]
            rw [if_pos hsk2]]
          refine List.Forall₂.cons ⟨hm1.1, ?_⟩ (ih hhs hm2)
          cases v with
          | prim p =>
            cases hg
            exact hm1.2
          | addr b =>
            simp only [encChild, Option.map_eq_some'] at hg
            obtain ⟨k, hk, hgr⟩ := hg
            have := hm1.2
            rw [← hgr] at this
            exact ⟨k, hk, this⟩
      · cases hc

/-- Registering one fresh oid: the invariant advances by that oid,
provided the registered value matches and any allocated address is
fresh. -/
theorem rinv_step {h : Heap} {ids : List (Nat × Nat)} {S : List Nat} {dst : DecState}
    (hRI : RInv h ids S dst) (hw : IdsWF ids)
    {a k : Nat} {v : DVal} {dd : List DObj} {dt : List (Nat × GRec)}
    (hpair : (a, k) ∈ ids)
    (hfresh : lookupNat dst.objTable k = none)
    (hval : RVal h ids ((k, v) :: dst.objTable) (dst.dheap ++ dd) a v)
    (hwb : ∀ w, v = .daddr w → w < (dst.dheap ++ dd).length ∧ dst.dheap.length ≤ w)
    (hmut : mutableKindAt h a = true → ∃ e ∈ dt, v = .daddr e.1 ∧ NodeFor h ids a k e.2)
    (hdt : ∀ e ∈ dt, mutableKindAt h a = true ∧ v = .daddr e.1 ∧ NodeFor h ids a k e.2)
    (hdtnd : (dt.map Prod.fst).Nodup) :
    RInv h ids (S ++ [k]) { objTable := (k, v) :: dst.objTable
                            dheap := dst.dheap ++ dd
                            toPopulate := dst.toPopulate ++ dt } := by
  obtain ⟨hdom, hpairs, hwbO, hwinj, hent, hwnd⟩ := hRI
  have hmono : ∀ k2 v2, lookupNat dst.objTable k2 = some v2 →
      lookupNat ((k, v) :: dst.objTable) k2 = some v2 :=
    fun k2 v2 h2 => lookupNat_prepend_fresh hfresh h2
  have hdh : ∀ (w : Nat) (d : DObj), dst.dheap[w]? = some d →
      (dst.dheap ++ dd)[w]? = some d :=
    fun w d hd => getElem?_append_left_of_some hd
  refine ⟨?_, ?_, ?_, ?_, ?_, ?_⟩
  · intro k2 v2 h2
    rw [lookupNat_cons] at h2
    split at h2
    · rename_i hq
      have : k = k2 := by simpa using hq
      rw [← this]
      exact List.mem_append_right _ (List.mem_singleton.mpr rfl)
    · exact List.mem_append_left _ (hdom k2 v2 h2)
  · intro a2 k2 hm2 hk2
    rcases List.mem_append.mp hk2 with hks | hkn
    · obtain ⟨v2, hv2, hrv2, hmut2⟩ := hpairs a2 k2 hm2 hks
      refine ⟨v2, hmono k2 v2 hv2, rval_mono hmono hdh hrv2, ?_⟩
      intro hmk
      obtain ⟨e, he1, he2, he3⟩ := hmut2 hmk
      exact ⟨e, List.mem_append_left _ he1, he2, he3⟩
    · have hkk : k2 = k := by simpa using hkn
      subst hkk
      have ha2 : a2 = a := ids_snd_inj hw hm2 hpair
      subst ha2
      refine ⟨v, ?_, hval, ?_⟩
      · show lookupNat ((k2, v) :: dst.objTable) k2 = some v
        exact lookupNat_prepend_self _ _ _
      · intro hmk
        obtain ⟨e, he1, he2, he3⟩ := hmut hmk
        exact ⟨e, List.mem_append_right _ he1, he2, he3⟩
  · intro kk vv hmm w hvw
    rcases List.mem_cons.mp hmm with hx | hx
    · injection hx with hx1 hx2
      rw [hx2] at hvw
      exact (hwb w hvw).1
    · have := hwbO kk vv hx w hvw
      rw [List.length_append]
      omega
  · intro k1 v1 k2 v2 w h1 h2 hv1 hv2
    rw [lookupNat_cons] at h1 h2
    split at h1
    · rename_i hq1
      split at h2
      · rename_i hq2
        have e1 : k = k1 := by simpa using hq1
        have e2 : k = k2 := by simpa using hq2
        rw [← e1, ← e2]
      · injection h1 with hv1e
        exfalso
        have hge := (hwb w (by have e : v = v1 := hv1e; rw [e]; exact hv1)).2
        have hlt := hwbO k2 v2 (lookupNat_some_mem h2) w hv2
        omega
    · split at h2
      · injection h2 with hv2e
        exfalso
        have hge := (hwb w (by have e : v = v2 := hv2e; rw [e]; exact hv2)).2
        have hlt := hwbO k1 v1 (lookupNat_some_mem h1) w hv1
        omega
      · exact hwinj k1 v1 k2 v2 w h1 h2 hv1 hv2
  · intro e he
    rcases List.mem_append.mp he with hx | hx
    · obtain ⟨a2, k2, hm2, hmu2, hl2, hn2⟩ := hent e hx
      exact ⟨a2, k2, hm2, hmu2, hmono k2 _ hl2, hn2⟩
    · obtain ⟨hmu2, hve, hn2⟩ := hdt e hx
      refine ⟨a, k, hpair, hmu2, ?_, hn2⟩
      rw [← hve]
      exact lookupNat_prepend_self _ _ _
  · rw [List.map_append]
    rw [List.nodup_append]
    refine ⟨hwnd, hdtnd, ?_⟩
    intro x hx hx2
    obtain ⟨e, he, hee⟩ := List.mem_map.mp hx
    obtain ⟨e2, he2, hee2⟩ := List.mem_map.mp hx2
    obtain ⟨a2, k2, hm2, hmu2, hl2, hn2⟩ := hent e he
    have hlt := hwbO k2 (.daddr e.1) (lookupNat_some_mem hl2) e.1 rfl
    obtain ⟨_, hve2, _⟩ := hdt e2 he2
    have hge := (hwb e2.1 hve2).2
    rw [hee] at hlt
    rw [hee2] at hge
    omega

/-! ### Records pass: per-kind simulation of one faithful node -/

theorem decodeNode_list {h : Heap} {env : PyEnv} {ids : List (Nat × Nat)}
    {S : List Nat} {dst : DecState} {a k : Nat} {xs : List PyRef} {rs : List GRec}
    (f : Nat) (hw : IdsWF ids) (hRI : RInv h ids S dst)
    (hpair : (a, k) ∈ ids) (hoa : h[a]? = some (.pylist xs))
    (hrs : encChildren ids xs = some rs)
    (hnf : NodeFor h ids a k
      (.node (some "__builtin__/list") (some k) (some (.iseq rs)) (some []) none none))
    (hfresh : lookupNat dst.objTable k = none) :
    (∀ e, decodeRec h env (f + 1) dst
      (.node (some "__builtin__/list") (some k) (some (.iseq rs)) (some []) none none)
        = .error e → NonFwd e) ∧
    (∀ dst' v, decodeRec h env (f + 1) dst
      (.node (some "__builtin__/list") (some k) (some (.iseq rs)) (some []) none none)
        = .ok (dst', v) → RInv h ids (S ++ [k]) dst') := by
  have hev : decodeRec h env (f + 1) dst
      (.node (some "__builtin__/list") (some k) (some (.iseq rs)) (some []) none none)
      = .ok (⟨dst.dheap ++ [.dlist []], (k, .daddr dst.dheap.length) :: dst.objTable,
          dst.toPopulate ++ [(dst.dheap.length,
            .node (some "__builtin__/list") (some k) (some (.iseq rs)) (some []) none none)]⟩,
          .daddr dst.dheap.length) := by
    simp [decodeRec, resolveType_blist, isImmutableKind, allocShell, registerOid]
  constructor
  · intro e hc
    rw [hev] at hc
    cases hc
  · intro dst' v hc
    rw [hev] at hc
    cases hc
    refine rinv_step hRI hw hpair hfresh ?_ ?_ ?_ ?_ ?_
    · show rvalCore h ids _ _ a h[a]? _
      rw [hoa]
      exact ⟨dst.dheap.length, rfl, List.getElem?_concat_length _ _⟩
    · intro w hweq
      injection hweq with hweq
      rw [← hweq, List.length_append]
      simp
    · intro hmk
      exact ⟨_, List.mem_singleton.mpr rfl, rfl, hnf⟩
    · intro e he
      rw [List.mem_singleton] at he
      subst he
      exact ⟨by simp [mutableKindAt, hoa], rfl, hnf⟩
    · simp

theorem decodeNode_dict {h : Heap} {env : PyEnv} {ids : List (Nat × Nat)}
    {S : List Nat} {dst : DecState} {a k : Nat} {kvs : List (PyRef × PyRef)}
    {ps : List (GRec × GRec)}
    (f : Nat) (hw : IdsWF ids) (hRI : RInv h ids S dst)
    (hpair : (a, k) ∈ ids) (hoa : h[a]? = some (.pydict kvs))
    (hps : encPairs ids kvs = some ps)
    (hnf : NodeFor h ids a k
      (.node (some "__builtin__/dict") (some k) (some (.imap ps)) (some []) none none))
    (hfresh : lookupNat dst.objTable k = none) :
    (∀ e, decodeRec h env (f + 1) dst
      (.node (some "__builtin__/dict") (some k) (some (.imap ps)) (some []) none none)
        = .error e → NonFwd e) ∧
    (∀ dst' v, decodeRec h env (f + 1) dst
      (.node (some "__builtin__/dict") (some k) (some (.imap ps)) (some []) none none)
        = .ok (dst', v) → RInv h ids (S ++ [k]) dst') := by
  have hev : decodeRec h env (f + 1) dst
      (.node (some "__builtin__/dict") (some k) (some (.imap ps)) (some []) none none)
      = .ok (⟨dst.dheap ++ [.ddict []], (k, .daddr dst.dheap.length) :: dst.objTable,
          dst.toPopulate ++ [(dst.dheap.length,
            .node (some "__builtin__/dict") (some k) (some (.imap ps)) (some []) none none)]⟩,
          .daddr dst.dheap.length) := by
    simp [decodeRec, resolveType_bdict, isImmutableKind, allocShell, registerOid]
  constructor
  · intro e hc
    rw [hev] at hc
    cases hc
  · intro dst' v hc
    rw [hev] at hc
    cases hc
    refine rinv_step hRI hw hpair hfresh ?_ ?_ ?_ ?_ ?_
    · show rvalCore h ids _ _ a h[a]? _
      rw [hoa]
      exact ⟨dst.dheap.length, rfl, List.getElem?_concat_length _ _⟩
    · intro w hweq
      injection hweq with hweq
      rw [← hweq, List.length_append]
      simp
    · intro hmk
      exact ⟨_, List.mem_singleton.mpr rfl, rfl, hnf⟩
    · intro e he
      rw [List.mem_singleton] at he
      subst he
      exact ⟨by simp [mutableKindAt, hoa], rfl, hnf⟩
    · simp

theorem decodeNode_set {h : Heap} {env : PyEnv} {ids : List (Nat × Nat)}
    {S : List Nat} {dst : DecState} {a k : Nat} {xs : List PyRef} {rs : List GRec}
    (f : Nat) (hw : IdsWF ids) (hRI : RInv h ids S dst)
    (hpair : (a, k) ∈ ids) (hoa : h[a]? = some (.pyset xs))
    (hrs : encChildren ids xs = some rs)
    (hnf : NodeFor h ids a k
      (.node (some "__builtin__/set") (some k) (some (.iseq rs)) (some []) none none))
    (hfresh : lookupNat dst.objTable k = none) :
    (∀ e, decodeRec h env (f + 1) dst
      (.node (some "__builtin__/set") (some k) (some (.iseq rs)) (some []) none none)
        = .error e → NonFwd e) ∧
    (∀ dst' v, decodeRec h env (f + 1) dst
      (.node (some "__builtin__/set") (some k) (some (.iseq rs)) (some []) none none)
        = .ok (dst', v) → RInv h ids (S ++ [k]) dst') := by
  have hev : decodeRec h env (f + 1) dst
      (.node (some "__builtin__/set") (some k) (some (.iseq rs)) (some []) none none)
      = .ok (⟨dst.dheap ++ [.dset []], (k, .daddr dst.dheap.length) :: dst.objTable,
          dst.toPopulate ++ [(dst.dheap.length,
            .node (some "__builtin__/set") (some k) (some (.iseq rs)) (some []) none none)]⟩,
          .daddr dst.dheap.length) := by
    simp [decodeRec, resolveType_bset, isImmutableKind, allocShell, registerOid]
  constructor
  · intro e hc
    rw [hev] at hc
    cases hc
  · intro dst' v hc
    rw [hev] at hc
    cases hc
    refine rinv_step hRI hw hpair hfresh ?_ ?_ ?_ ?_ ?_
    · show rvalCore h ids _ _ a h[a]? _
      rw [hoa]
      exact ⟨dst.dheap.length, rfl, List.getElem?_concat_length _ _⟩
    · intro w hweq
      injection hweq with hweq
      rw [← hweq, List.length_append]
      simp
    · intro hmk
      exact ⟨_, List.mem_singleton.mpr rfl, rfl, hnf⟩
    · intro e he
      rw [List.mem_singleton] at he
      subst he
      exact ⟨by simp [mutableKindAt, hoa], rfl, hnf⟩
    · simp

theorem decodeNode_instance {h : Heap} {env : PyEnv} {rk : Nat → Nat}
    {ids : List (Nat × Nat)} {S : List Nat} {dst : DecState} {a k ca : Nat}
    {fl : List (String × PyRef)} {mo na : String} {ats : List (String × PyRef)}
    {gs : List (String × GRec)}
    (f : Nat) (hs : SupHeap h env rk) (hw : IdsWF ids) (hRI : RInv h ids S dst)
    (hpair : (a, k) ∈ ids) (hoa : h[a]? = some (.pyinstance ca fl))
    (hca : h[ca]? = some (.pyclass mo na ats))
    (hgs : encFields h ids fl = some gs)
    (hnf : NodeFor h ids a k
      (.node (some (mo ++ "/" ++ na)) (some k) none (some gs) none none))
    (hfresh : lookupNat dst.objTable k = none) :
    (∀ e, decodeRec h env (f + 1) dst
      (.node (some (mo ++ "/" ++ na)) (some k) none (some gs) none none)
        = .error e → NonFwd e) ∧
    (∀ dst' v, decodeRec h env (f + 1) dst
      (.node (some (mo ++ "/" ++ na)) (some k) none (some gs) none none)
        = .ok (dst', v) → RInv h ids (S ++ [k]) dst') := by
  obtain ⟨ma, mattrs, hma, hmod, hattr, hmo1, hmob, hna1, hna2, hnane⟩ :=
    hs.classRes ca mo na ats hca
  have hres : resolveType h env (mo ++ "/" ++ na) = .ok (.heapObj ca) :=
    resolveType_topLevel h env mo na ma ca mattrs hma hmod hattr hmo1 hmob hna1 hna2 hnane
  have hev : decodeRec h env (f + 1) dst
      (.node (some (mo ++ "/" ++ na)) (some k) none (some gs) none none)
      = .ok (⟨dst.dheap ++ [.dinstance ca []],
          (k, .daddr dst.dheap.length) :: dst.objTable,
          dst.toPopulate ++ [(dst.dheap.length,
            .node (some (mo ++ "/" ++ na)) (some k) none (some gs) none none)]⟩,
          .daddr dst.dheap.length) := by
    simp [decodeRec, hres, isImmutableKind, allocShell, hca, registerOid]
  constructor
  · intro e hc
    rw [hev] at hc
    cases hc
  · intro dst' v hc
    rw [hev] at hc
    cases hc
    refine rinv_step hRI hw hpair hfresh ?_ ?_ ?_ ?_ ?_
    · show rvalCore h ids _ _ a h[a]? _
      rw [hoa]
      exact ⟨dst.dheap.length, rfl, List.getElem?_concat_length _ _⟩
    · intro w hweq
      injection hweq with hweq
      rw [← hweq, List.length_append]
      simp
    · intro hmk
      exact ⟨_, List.mem_singleton.mpr rfl, rfl, hnf⟩
    · intro e he
      rw [List.mem_singleton] at he
      subst he
      exact ⟨by simp [mutableKindAt, hoa], rfl, hnf⟩
    · simp

theorem decodeNode_func {h : Heap} {env : PyEnv} {rk : Nat → Nat}
    {ids : List (Nat × Nat)} {S : List Nat} {dst : DecState} {a k : Nat}
    {mo na : String}
    (f : Nat) (hs : SupHeap h env rk) (hw : IdsWF ids) (hRI : RInv h ids S dst)
    (hpair : (a, k) ∈ ids) (hoa : h[a]? = some (.pyfunc mo na))
    (hfresh : lookupNat dst.objTable k = none) :
    (∀ e, decodeRec h env (f + 1) dst
      (.node (some (mo ++ "/" ++ na)) (some k) none none none none)
        = .error e → NonFwd e) ∧
    (∀ dst' v, decodeRec h env (f + 1) dst
      (.node (some (mo ++ "/" ++ na)) (some k) none none none none)
        = .ok (dst', v) → RInv h ids (S ++ [k]) dst') := by
  obtain ⟨ma, mattrs, hma, hmod, hattr, hmo1, hmob, hna1, hna2, hnane⟩ :=
    hs.funcRes a mo na hoa
  have hres : resolveType h env (mo ++ "/" ++ na) = .ok (.heapObj a) :=
    resolveType_topLevel h env mo na ma a mattrs hma hmod hattr hmo1 hmob hna1 hna2 hnane
  have hev : decodeRec h env (f + 1) dst
      (.node (some (mo ++ "/" ++ na)) (some k) none none none none)
      = .ok ({ dst with objTable := (k, .live a) :: dst.objTable }, .live a) := by
    simp [decodeRec, hres, rawValue, registerOid]
  constructor
  · intro e hc
    rw [hev] at hc
    cases hc
  · intro dst' v hc
    rw [hev] at hc
    cases hc
    have hri : RInv h ids (S ++ [k]) { objTable := (k, DVal.live a) :: dst.objTable
                                       dheap := dst.dheap ++ []
                                       toPopulate := dst.toPopulate ++ [] } := by
      refine rinv_step hRI hw hpair hfresh ?_ ?_ ?_ ?_ ?_
      · show rvalCore h ids _ _ a h[a]? _
        rw [hoa]
        rfl
      · intro w hq
        cases hq
      · intro hmk
        simp [mutableKindAt, hoa] at hmk
      · intro e he
        simp at he
      · simp
    simpa using hri

theorem decodeNode_class {h : Heap} {env : PyEnv} {rk : Nat → Nat}
    {ids : List (Nat × Nat)} {S : List Nat} {dst : DecState} {a k : Nat}
    {mo na : String} {ats : List (String × PyRef)}
    (f : Nat) (hs : SupHeap h env rk) (hw : IdsWF ids) (hRI : RInv h ids S dst)
    (hpair : (a, k) ∈ ids) (hoa : h[a]? = some (.pyclass mo na ats))
    (hfresh : lookupNat dst.objTable k = none) :
    (∀ e, decodeRec h env (f + 1) dst
      (.node (some (mo ++ "/" ++ na)) (some k) none none none none)
        = .error e → NonFwd e) ∧
    (∀ dst' v, decodeRec h env (f + 1) dst
      (.node (some (mo ++ "/" ++ na)) (some k) none none none none)
        = .ok (dst', v) → RInv h ids (S ++ [k]) dst') := by
  obtain ⟨ma, mattrs, hma, hmod, hattr, hmo1, hmob, hna1, hna2, hnane⟩ :=
    hs.classRes a mo na ats hoa
  have hres : resolveType h env (mo ++ "/" ++ na) = .ok (.heapObj a) :=
    resolveType_topLevel h env mo na ma a mattrs hma hmod hattr hmo1 hmob hna1 hna2 hnane
  have hev : decodeRec h env (f + 1) dst
      (.node (some (mo ++ "/" ++ na)) (some k) none none none none)
      = .ok ({ dst with objTable := (k, .live a) :: dst.objTable }, .live a) := by
    simp [decodeRec, hres, rawValue, registerOid]
  constructor
  · intro e hc
    rw [hev] at hc
    cases hc
  · intro dst' v hc
    rw [hev] at hc
    cases hc
    have hri : RInv h ids (S ++ [k]) { objTable := (k, DVal.live a) :: dst.objTable
                                       dheap := dst.dheap ++ []
                                       toPopulate := dst.toPopulate ++ [] } := by
      refine rinv_step hRI hw hpair hfresh ?_ ?_ ?_ ?_ ?_
      · show rvalCore h ids _ _ a h[a]? _
        rw [hoa]
        rfl
      · intro w hq
        cases hq
      · intro hmk
        simp [mutableKindAt, hoa] at hmk
      · intro e he
        simp at he
      · simp
    simpa using hri

theorem decodeNode_module {h : Heap} {env : PyEnv} {rk : Nat → Nat}
    {ids : List (Nat × Nat)} {S : List Nat} {dst : DecState} {a k : Nat}
    {mname : String} {mats : List (String × PyRef)}
    (f : Nat) (hs : SupHeap h env rk) (hw : IdsWF ids) (hRI : RInv h ids S dst)
    (hpair : (a, k) ∈ ids) (hoa : h[a]? = some (.pymodule mname mats))
    (hfresh : lookupNat dst.objTable k = none) :
    (∀ e, decodeRec h env (f + 1) dst
      (.node (some mname) (some k) none none none none)
        = .error e → NonFwd e) ∧
    (∀ dst' v, decodeRec h env (f + 1) dst
      (.node (some mname) (some k) none none none none)
        = .ok (dst', v) → RInv h ids (S ++ [k]) dst') := by
  obtain ⟨hma, hmob, hms⟩ := hs.modRes a mname mats hoa
  have hres : resolveType h env mname = .ok (.heapObj a) :=
    resolveType_module h env mname a hma hmob hms
  have hev : decodeRec h env (f + 1) dst
      (.node (some mname) (some k) none none none none)
      = .ok ({ dst with objTable := (k, .live a) :: dst.objTable }, .live a) := by
    simp [decodeRec, hres, rawValue, registerOid]
  constructor
  · intro e hc
    rw [hev] at hc
    cases hc
  · intro dst' v hc
    rw [hev] at hc
    cases hc
    have hri : RInv h ids (S ++ [k]) { objTable := (k, DVal.live a) :: dst.objTable
                                       dheap := dst.dheap ++ []
                                       toPopulate := dst.toPopulate ++ [] } := by
      refine rinv_step hRI hw hpair hfresh ?_ ?_ ?_ ?_ ?_
      · show rvalCore h ids _ _ a h[a]? _
        rw [hoa]
        rfl
      · intro w hq
        cases hq
      · intro hmk
        simp [mutableKindAt, hoa] at hmk
      · intro e he
        simp at he
      · simp
    simpa using hri

theorem decodeNode_tuple {h : Heap} {env : PyEnv} {ids : List (Nat × Nat)}
    {S : List Nat} {dst : DecState} {a k : Nat} {xs : List PyRef} {rs : List GRec}
    (f : Nat) (hw : IdsWF ids) (hRI : RInv h ids S dst)
    (hpair : (a, k) ∈ ids) (hoa : h[a]? = some (.pytuple xs))
    (hrs : encChildren ids xs = some rs)
    (hord : ∀ b k2, b ∈ immChildAddrs h a → idLookup ids b = some k2 → k2 ∈ S)
    (hfresh : lookupNat dst.objTable k = none) :
    (∀ e, decodeRec h env (f + 1) dst
      (.node (some "__builtin__/tuple") (some k) (some (.iseq rs)) (some []) none none)
        = .error e → NonFwd e) ∧
    (∀ dst' v, decodeRec h env (f + 1) dst
      (.node (some "__builtin__/tuple") (some k) (some (.iseq rs)) (some []) none none)
        = .ok (dst', v) → RInv h ids (S ++ [k]) dst') := by
  have hat : ∀ g ∈ rs, isAtomB g = true := encChildren_atoms hrs
  have hregd : ∀ k2, (GRec.ref k2) ∈ rs → ∃ v, lookupNat dst.objTable k2 = some v := by
    intro k2 hm
    obtain ⟨b, hbx, hbl⟩ := encChildren_ref_src hrs hm
    have hbi : b ∈ immChildAddrs h a := by
      rw [immChildAddrs, hoa]
      exact mem_addrsOf hbx
    obtain ⟨v, hv, -, -⟩ := hRI.2.1 b k2 (idLookup_some_mem hbl) (hord b k2 hbi hbl)
    exact ⟨v, hv⟩
  obtain ⟨hserr, hsok⟩ := decodeSeq_atoms rs dst hat hregd
  cases hsd : decodeSeq h env f dst rs with
  | error e0 =>
    have hev : decodeRec h env (f + 1) dst
        (.node (some "__builtin__/tuple") (some k) (some (.iseq rs)) (some []) none none)
        = .error e0 := by
      simp [decodeRec, resolveType_btuple, isImmutableKind, decodeImmutable, hsd]
    constructor
    · intro e hc
      rw [hev] at hc
      cases hc
      exact hserr e0 hsd
    · intro dst' v hc
      rw [hev] at hc
      cases hc
  | ok pr =>
    obtain ⟨st1, vs⟩ := pr
    obtain ⟨hst1, hfa⟩ := hsok st1 vs hsd
    rw [hst1] at hsd
    have hev : decodeRec h env (f + 1) dst
        (.node (some "__builtin__/tuple") (some k) (some (.iseq rs)) (some []) none none)
        = .ok (⟨dst.dheap ++ [.dtuple vs],
            (k, .daddr dst.dheap.length) :: dst.objTable, dst.toPopulate⟩,
            .daddr dst.dheap.length) := by
      simp [decodeRec, resolveType_btuple, isImmutableKind, decodeImmutable, hsd,
        registerOid]
    constructor
    · intro e hc
      rw [hev] at hc
      cases hc
    · intro dst' v hc
      rw [hev] at hc
      cases hc
      have hri : RInv h ids (S ++ [k])
          { objTable := (k, DVal.daddr dst.dheap.length) :: dst.objTable
            dheap := dst.dheap ++ [.dtuple vs]
            toPopulate := dst.toPopulate ++ [] } := by
        refine rinv_step hRI hw hpair hfresh ?_ ?_ ?_ ?_ ?_
        · show rvalCore h ids _ _ a h[a]? _
          rw [hoa]
          refine ⟨dst.dheap.length, vs, rfl, List.getElem?_concat_length _ _, ?_⟩
          have hcm := childMatch_of_atoms hrs hfa
          exact hcm.imp (fun x y hx =>
            childMatch_mono (fun k2 v2 h2 => lookupNat_prepend_fresh hfresh h2) hx)
        · intro w hq
          injection hq with hq
          rw [← hq, List.length_append]
          simp
        · intro hmk
          simp [mutableKindAt, hoa] at hmk
        · intro e he
          simp at he
        · simp
      simpa using hri

theorem decodeNode_frozenset {h : Heap} {env : PyEnv} {ids : List (Nat × Nat)}
    {S : List Nat} {dst : DecState} {a k : Nat} {xs : List PyRef} {rs : List GRec}
    (f : Nat) (hw : IdsWF ids) (hRI : RInv h ids S dst)
    (hpair : (a, k) ∈ ids) (hoa : h[a]? = some (.pyfrozenset xs))
    (hrs : encChildren ids xs = some rs)
    (hord : ∀ b k2, b ∈ immChildAddrs h a → idLookup ids b = some k2 → k2 ∈ S)
    (hfresh : lookupNat dst.objTable k = none) :
    (∀ e, decodeRec h env (f + 1) dst
      (.node (some "__builtin__/frozenset") (some k) (some (.iseq rs)) (some []) none none)
        = .error e → NonFwd e) ∧
    (∀ dst' v, decodeRec h env (f + 1) dst
      (.node (some "__builtin__/frozenset") (some k) (some (.iseq rs)) (some []) none none)
        = .ok (dst', v) → RInv h ids (S ++ [k]) dst') := by
  have hat : ∀ g ∈ rs, isAtomB g = true := encChildren_atoms hrs
  have hregd : ∀ k2, (GRec.ref k2) ∈ rs → ∃ v, lookupNat dst.objTable k2 = some v := by
    intro k2 hm
    obtain ⟨b, hbx, hbl⟩ := encChildren_ref_src hrs hm
    have hbi : b ∈ immChildAddrs h a := by
      rw [immChildAddrs, hoa]
      exact mem_addrsOf hbx
    obtain ⟨v, hv, -, -⟩ := hRI.2.1 b k2 (idLookup_some_mem hbl) (hord b k2 hbi hbl)
    exact ⟨v, hv⟩
  obtain ⟨hserr, hsok⟩ := decodeSeq_atoms rs dst hat hregd
  cases hsd : decodeSeq h env f dst rs with
  | error e0 =>
    have hev : decodeRec h env (f + 1) dst
        (.node (some "__builtin__/frozenset") (some k) (some (.iseq rs)) (some []) none none)
        = .error e0 := by
      simp [decodeRec, resolveType_bfrozenset, isImmutableKind, decodeImmutable, hsd]
    constructor
    · intro e hc
      rw [hev] at hc
      cases hc
      exact hserr e0 hsd
    · intro dst' v hc
      rw [hev] at hc
      cases hc
  | ok pr =>
    obtain ⟨st1, vs⟩ := pr
    obtain ⟨hst1, hfa⟩ := hsok st1 vs hsd
    rw [hst1] at hsd
    have hev : decodeRec h env (f + 1) dst
        (.node (some "__builtin__/frozenset") (some k) (some (.iseq rs)) (some []) none none)
        = .ok (⟨dst.dheap ++ [.dfrozenset vs],
            (k, .daddr dst.dheap.length) :: dst.objTable, dst.toPopulate⟩,
            .daddr dst.dheap.length) := by
      simp [decodeRec, resolveType_bfrozenset, isImmutableKind, decodeImmutable, hsd,
        registerOid]
    constructor
    · intro e hc
      rw [hev] at hc
      cases hc
    · intro dst' v hc
      rw [hev] at hc
      cases hc
      have hri : RInv h ids (S ++ [k])
          { objTable := (k, DVal.daddr dst.dheap.length) :: dst.objTable
            dheap := dst.dheap ++ [.dfrozenset vs]
            toPopulate := dst.toPopulate ++ [] } := by
        refine rinv_step hRI hw hpair hfresh ?_ ?_ ?_ ?_ ?_
        · show rvalCore h ids _ _ a h[a]? _
          rw [hoa]
          refine ⟨dst.dheap.length, vs, rfl, List.getElem?_concat_length _ _, ?_⟩
          have hcm := childMatch_of_atoms hrs hfa
          exact hcm.imp (fun x y hx =>
            childMatch_mono (fun k2 v2 h2 => lookupNat_prepend_fresh hfresh h2) hx)
        · intro w hq
          injection hq with hq
          rw [← hq, List.length_append]
          simp
        · intro hmk
          simp [mutableKindAt, hoa] at hmk
        · intro e he
          simp at he
        · simp
      simpa using hri

theorem decodeNode_complex {h : Heap} {env : PyEnv} {rk : Nat → Nat}
    {ids : List (Nat × Nat)} {S : List Nat} {dst : DecState} {a k : Nat} {re im : Int}
    (f : Nat) (hs : SupHeap h env rk) (hw : IdsWF ids) (hRI : RInv h ids S dst)
    (hpair : (a, k) ∈ ids) (hoa : h[a]? = some (.pycomplex re im))
    (hfresh : lookupNat dst.objTable k = none) :
    (∀ e, decodeRec h env (f + 1) dst
      (.node (some "__builtin__/complex") (some k)
        (some (.istr (complexItemsStr re im))) (some []) none none)
        = .error e → NonFwd e) ∧
    (∀ dst' v, decodeRec h env (f + 1) dst
      (.node (some "__builtin__/complex") (some k)
        (some (.istr (complexItemsStr re im))) (some []) none none)
        = .ok (dst', v) → RInv h ids (S ++ [k]) dst') := by
  have hre : re ≠ 0 := hs.cplxRe a re im hoa
  have hev : decodeRec h env (f + 1) dst
      (.node (some "__builtin__/complex") (some k)
        (some (.istr (complexItemsStr re im))) (some []) none none)
      = .ok (⟨dst.dheap ++ [.dcomplex re im],
          (k, .daddr dst.dheap.length) :: dst.objTable, dst.toPopulate⟩,
          .daddr dst.dheap.length) := by
    simp [decodeRec, resolveType_bcomplex, isImmutableKind, decodeImmutable,
      parseComplexChars_roundtrip re im hre, registerOid]
  constructor
  · intro e hc
    rw [hev] at hc
    cases hc
  · intro dst' v hc
    rw [hev] at hc
    cases hc
    have hri : RInv h ids (S ++ [k])
        { objTable := (k, DVal.daddr dst.dheap.length) :: dst.objTable
          dheap := dst.dheap ++ [.dcomplex re im]
          toPopulate := dst.toPopulate ++ [] } := by
      refine rinv_step hRI hw hpair hfresh ?_ ?_ ?_ ?_ ?_
      · show rvalCore h ids _ _ a h[a]? _
        rw [hoa]
        exact ⟨dst.dheap.length, rfl, List.getElem?_concat_length _ _⟩
      · intro w hq
        injection hq with hq
        rw [← hq, List.length_append]
        simp
      · intro hmk
        simp [mutableKindAt, hoa] at hmk
      · intro e he
        simp at he
      · simp
    simpa using hri

theorem decodeNode_bm {h : Heap} {env : PyEnv} {rk : Nat → Nat}
    {ids : List (Nat × Nat)} {S : List Nat} {dst : DecState} {a k fi ia kia : Nat}
    {m : String}
    (f : Nat) (hs : SupHeap h env rk) (hw : IdsWF ids) (hRI : RInv h ids S dst)
    (hpair : (a, k) ∈ ids) (hoa : h[a]? = some (.pyboundmethod (.addr ia) fi))
    (hial : idLookup ids ia = some kia)
    (hmfn : funcNameOf h fi = some m)
    (hord : ∀ b k2, b ∈ immChildAddrs h a → idLookup ids b = some k2 → k2 ∈ S)
    (hfresh : lookupNat dst.objTable k = none) :
    (∀ e, decodeRec h env (f + 1) dst
      (.node none (some k) none none (some m) (some (.ref kia)))
        = .error e → NonFwd e) ∧
    (∀ dst' v, decodeRec h env (f + 1) dst
      (.node none (some k) none none (some m) (some (.ref kia)))
        = .ok (dst', v) → RInv h ids (S ++ [k]) dst') := by
  obtain ⟨ia2, ca, fl2, hia2, hia, ⟨mo2, na2, ats, hca, m2, mo3, hfn, hats, hfi⟩⟩ :=
    hs.bmRes a (.addr ia) fi hoa
  injection hia2 with hia2
  rw [← hia2] at hia
  have hkiaS : kia ∈ S := by
    refine hord ia kia ?_ hial
    rw [immChildAddrs, hoa]
    simp [addrsOf]
  obtain ⟨viv, hviv, hrv, -⟩ := hRI.2.1 ia kia (idLookup_some_mem hial) hkiaS
  have hrv2 : rvalCore h ids dst.objTable dst.dheap ia h[ia]? viv := hrv
  rw [hia] at hrv2
  obtain ⟨wia, hwia1, hwia2⟩ := hrv2
  subst hwia1
  cases f with
  | zero =>
    constructor
    · intro e hc
      rw [decodeRec.eq_def] at hc
      simp only [] at hc
      rw [decodeRec.eq_def] at hc
      simp only [] at hc
      cases hc
      intro k2 hk
      cases hk
    · intro dst' v hc
      rw [decodeRec.eq_def] at hc
      simp only [] at hc
      rw [decodeRec.eq_def] at hc
      simp only [] at hc
      cases hc
  | succ f2 =>
    have hev : decodeRec h env (f2 + 1 + 1) dst
        (.node none (some k) none none (some m) (some (.ref kia)))
        = .ok (⟨dst.dheap ++ [.dboundmethod (.daddr wia) fi],
            (k, .daddr dst.dheap.length) :: dst.objTable, dst.toPopulate⟩,
            .daddr dst.dheap.length) := by
      rw [hmfn] at hfn
      injection hfn with hfn
      rw [← hfn] at hats hfi
      have hn : lookupStr ([] : List (String × PyRef)) m = none := rfl
      have hn2 : lookupStr ([] : List (String × DVal)) m = none := rfl
      simp [decodeRec, hviv, pyGetattrD, hwia2, hn, hn2, hca, hats, hfi, registerOid]
    constructor
    · intro e hc
      rw [hev] at hc
      cases hc
    · intro dst' v hc
      rw [hev] at hc
      cases hc
      have hri : RInv h ids (S ++ [k])
          { objTable := (k, DVal.daddr dst.dheap.length) :: dst.objTable
            dheap := dst.dheap ++ [.dboundmethod (.daddr wia) fi]
            toPopulate := dst.toPopulate ++ [] } := by
        refine rinv_step hRI hw hpair hfresh ?_ ?_ ?_ ?_ ?_
        · show rvalCore h ids _ _ a h[a]? _
          rw [hoa]
          refine ⟨dst.dheap.length, .daddr wia, rfl, List.getElem?_concat_length _ _, ?_⟩
          exact ⟨kia, hial, lookupNat_prepend_fresh hfresh hviv⟩
        · intro w hq
          injection hq with hq
          rw [← hq, List.length_append]
          simp
        · intro hmk
          simp [mutableKindAt, hoa] at hmk
        · intro e he
          simp at he
        · simp
      simpa using hri

/-- One faithful record decodes in the record pass without a forward
reference, and registration preserves the invariant. -/
theorem decodeNode_sim {h : Heap} {env : PyEnv} {rk : Nat → Nat}
    {ids : List (Nat × Nat)} {S : List Nat} {dst : DecState} {a k : Nat} {g : GRec}
    (f : Nat) (hs : SupHeap h env rk) (hw : IdsWF ids) (hRI : RInv h ids S dst)
    (hpair : (a, k) ∈ ids) (hnf : NodeFor h ids a k g) (hkS : k ∉ S)
    (hord : ∀ b k2, b ∈ immChildAddrs h a → idLookup ids b = some k2 → k2 ∈ S) :
    (∀ e, decodeRec h env (f + 1) dst g = .error e → NonFwd e) ∧
    (∀ dst' v, decodeRec h env (f + 1) dst g = .ok (dst', v) →
      RInv h ids (S ++ [k]) dst') := by
  have hfresh : lookupNat dst.objTable k = none := by
    cases hx : lookupNat dst.objTable k with
    | none => rfl
    | some v2 => exact absurd (hRI.1 k v2 hx) hkS
  have hnf2 : nodeForCore h ids k h[a]? g := hnf
  cases hoa : h[a]? with
  | none =>
    rw [hoa] at hnf2
    exact hnf2.elim
  | some o =>
    rw [hoa] at hnf2
    cases o with
    | pylist xs =>
      simp only [nodeForCore] at hnf2
      obtain ⟨rs, hrs, hgq⟩ := hnf2
      subst hgq
      exact decodeNode_list f hw hRI hpair hoa hrs hnf hfresh
    | pydict kvs =>
      simp only [nodeForCore] at hnf2
      obtain ⟨ps, hps, hgq⟩ := hnf2
      subst hgq
      exact decodeNode_dict f hw hRI hpair hoa hps hnf hfresh
    | pyset xs =>
      simp only [nodeForCore] at hnf2
      obtain ⟨rs, hrs, hgq⟩ := hnf2
      subst hgq
      exact decodeNode_set f hw hRI hpair hoa hrs hnf hfresh
    | pyinstance ca fl =>
      simp only [nodeForCore] at hnf2
      obtain ⟨mo, na, ats, gs, hca, hgs, hgq⟩ := hnf2
      subst hgq
      exact decodeNode_instance f hs hw hRI hpair hoa hca hgs hnf hfresh
    | pytuple xs =>
      simp only [nodeForCore] at hnf2
      obtain ⟨rs, hrs, hgq⟩ := hnf2
      subst hgq
      exact decodeNode_tuple f hw hRI hpair hoa hrs hord hfresh
    | pyfrozenset xs =>
      simp only [nodeForCore] at hnf2
      obtain ⟨rs, hrs, hgq⟩ := hnf2
      subst hgq
      exact decodeNode_frozenset f hw hRI hpair hoa hrs hord hfresh
    | pycomplex re im =>
      simp only [nodeForCore] at hnf2
      subst hnf2
      exact decodeNode_complex f hs hw hRI hpair hoa hfresh
    | pyfunc mo na =>
      simp only [nodeForCore] at hnf2
      subst hnf2
      exact decodeNode_func f hs hw hRI hpair hoa hfresh
    | pyclass mo na ats =>
      simp only [nodeForCore] at hnf2
      subst hnf2
      exact decodeNode_class f hs hw hRI hpair hoa hfresh
    | pymodule mname mats =>
      simp only [nodeForCore] at hnf2
      subst hnf2
      exact decodeNode_module f hs hw hRI hpair hoa hfresh
    | pyboundmethod iref fi =>
      simp only [nodeForCore] at hnf2
      obtain ⟨m, iv, hfn, hiv, hgq⟩ := hnf2
      obtain ⟨ia, ca, fl2, hia2, -⟩ := hs.bmRes a iref fi hoa
      subst hia2
      simp only [encChild, Option.map_eq_some'] at hiv
      obtain ⟨kia, hial, hivq⟩ := hiv
      rw [← hivq] at hgq
      subst hgq
      exact decodeNode_bm f hs hw hRI hpair hoa hial hfn hord hfresh
    | pygenerator =>
      simp only [nodeForCore] at hnf2
    | pyiterator =>
      simp only [nodeForCore] at hnf2
    | pylambda =>
      simp only [nodeForCore] at hnf2
    | pyclosure mo na =>
      simp only [nodeForCore] at hnf2

theorem immNodeKind_false_children {h : Heap} {a : Nat}
    (hk : immNodeKind h a = false) : immChildAddrs h a = [] := by
  cases hoa : h[a]? with
  | none => simp [immChildAddrs, hoa]
  | some o => cases o <;> simp_all [immNodeKind, immChildAddrs, hoa]

theorem goodNodeB_oid {g : GRec} (hg : goodNodeB g = true) : ∃ k, recOid g = some k := by
  cases g with
  | prim p => cases hg
  | ref k => cases hg
  | node ty oid items flds attr inst =>
    simp only [goodNodeB, Bool.and_eq_true] at hg
    obtain ⟨⟨⟨hoid, -⟩, -⟩, -⟩ := hg
    obtain ⟨k, hk⟩ := Option.isSome_iff_exists.mp hoid
    exact ⟨k, hk⟩

/-- Record pass over the full faithful record list: no forward reference
is ever raised, and on success every oid is registered with its
record-pass value. -/
theorem decodeRecords_sim {h : Heap} {env : PyEnv} {rk : Nat → Nat}
    {ids : List (Nat × Nat)} {records : List GRec}
    (hs : SupHeap h env rk) (hf : EncFaithful h ids records) (fuel : Nat) :
    ∀ (todo done : List GRec) (dst : DecState), records = done ++ todo →
      RInv h ids (oidsOf done) dst →
      (∀ e, decodeRecords h env fuel dst todo = .error e → NonFwd e) ∧
      (∀ dst', decodeRecords h env fuel dst todo = .ok dst' →
        RInv h ids (oidsOf records) dst') := by
  obtain ⟨hw, hperm, hgood, hpairs⟩ := hf
  have hnd : (oidsOf records).Nodup :=
    (List.Perm.nodup_iff hperm).mpr (List.nodup_range _)
  intro todo
  induction todo with
  | nil =>
    intro done dst hsplit hRI
    rw [List.append_nil] at hsplit
    subst hsplit
    constructor
    · intro e hc
      rw [decodeRecords] at hc
      cases hc
    · intro dst' hc
      rw [decodeRecords] at hc
      cases hc
      exact hRI
  | cons g rest ih =>
    intro done dst hsplit hRI
    have hgmem : g ∈ records := by
      rw [hsplit]
      exact List.mem_append_right _ (List.mem_cons_self _ _)
    obtain ⟨k, hk⟩ := goodNodeB_oid (hgood g hgmem)
    have hgat : records[done.length]? = some g := by
      rw [hsplit, List.getElem?_append_right (Nat.le_refl _)]
      simp
    have hkmem : k ∈ oidsOf records := mem_oidsOf_of_at hgat hk
    have hklt : k < ids.length := by
      have := hperm.mem_iff.mp hkmem
      exact List.mem_range.mp this
    obtain ⟨a, hpair⟩ := ids_snd_surj hw hklt
    obtain ⟨p, g2, hgat2, hk2, hnf, himm⟩ := hpairs a k hpair
    have hpq : p = done.length := oid_pos_unique hnd hgat2 hgat hk2 hk
    have hg2 : g2 = g := by
      rw [hpq] at hgat2
      rw [hgat2] at hgat
      injection hgat
    rw [hpq] at himm
    rw [hg2] at hnf
    have htake : records.take done.length = done := by
      rw [hsplit]
      exact List.take_left done (g :: rest)
    rw [htake] at himm
    have hkS : k ∉ oidsOf done := by
      intro hkin
      obtain ⟨q, g3, hq3, hk3⟩ := oidsOf_at_of_mem hkin
      have hqlt : q < done.length := by
        obtain ⟨hh, -⟩ := List.getElem?_eq_some_iff.mp hq3
        exact hh
      have hq3r : records[q]? = some g3 := by
        rw [hsplit, List.getElem?_append_left hqlt]
        exact hq3
      have := oid_pos_unique hnd hq3r hgat hk3 hk
      omega
    have hord : ∀ b k2, b ∈ immChildAddrs h a → idLookup ids b = some k2 →
        k2 ∈ oidsOf done := by
      intro b k2 hb hbl
      cases hik : immNodeKind h a with
      | false =>
        rw [immNodeKind_false_children hik] at hb
        cases hb
      | true =>
        obtain ⟨k', hbl', hk'⟩ := himm hik b hb
        rw [hbl] at hbl'
        injection hbl' with hbl'
        rw [← hbl'] at hk'
        exact hk'
    cases fuel with
    | zero =>
      have hz : decodeRec h env 0 dst g = .error .outOfFuel := by
        rw [decodeRec.eq_def]
      constructor
      · intro e hc
        rw [decodeRecords, hz] at hc
        cases hc
        intro k2 hke
        cases hke
      · intro dst' hc
        rw [decodeRecords, hz] at hc
        cases hc
    | succ fu =>
      obtain ⟨herr, hok⟩ := decodeNode_sim fu hs hw hRI hpair hnf hkS hord
      have hS2 : oidsOf done ++ [k] = oidsOf (done ++ [g]) := by
        rw [oidsOf_append]
        simp [oidsOf, hk]
      constructor
      · intro e hc
        rw [decodeRecords] at hc
        cases hd : decodeRec h env (fu + 1) dst g with
        | error e0 =>
          rw [hd] at hc
          cases hc
          exact herr e hd
        | ok pr =>
          obtain ⟨st1, v⟩ := pr
          rw [hd] at hc
          have hri1 := hok st1 v hd
          rw [hS2] at hri1
          have hsplit2 : records = (done ++ [g]) ++ rest := by
            rw [hsplit, List.append_assoc]
            rfl
          exact (ih (done ++ [g]) st1 hsplit2 hri1).1 e hc
      · intro dst' hc
        rw [decodeRecords] at hc
        cases hd : decodeRec h env (fu + 1) dst g with
        | error e0 =>
          rw [hd] at hc
          cases hc
        | ok pr =>
          obtain ⟨st1, v⟩ := pr
          rw [hd] at hc
          have hri1 := hok st1 v hd
          rw [hS2] at hri1
          have hsplit2 : records = (done ++ [g]) ++ rest := by
            rw [hsplit, List.append_assoc]
            rfl
          exact (ih (done ++ [g]) st1 hsplit2 hri1).2 dst' hc

/-- Full correspondence of the final object table: every marshalled object
is registered under its oid with a fully populated decoded value. -/
def TableMatch (h : Heap) (ids : List (Nat × Nat)) (st : DecState) : Prop :=
  ∀ a k, (a, k) ∈ ids → ∃ v, lookupNat st.objTable k = some v ∧
    ObjMatch h ids st.objTable st.dheap a v

/-- Effect of one `populate_object` call: a point update of the decoded
heap at the shell's address. -/
def PopSpec (st : DecState) (w : Nat) (d : DObj) (st' : DecState) : Prop :=
  st'.objTable = st.objTable ∧ st'.toPopulate = st.toPopulate ∧
  st'.dheap.length = st.dheap.length ∧ st'.dheap[w]? = some d ∧
  ∀ x, x ≠ w → st'.dheap[x]? = st.dheap[x]?

theorem popSpec_of_set {st : DecState} {w : Nat} {d : DObj}
    (hlt : w < st.dheap.length) :
    PopSpec st w d { st with dheap := st.dheap.set w d } := by
  refine ⟨rfl, rfl, by simp, ?_, ?_⟩
  · show (st.dheap.set w d)[w]? = some d
    exact List.getElem?_set_self hlt
  · intro x hx
    show (st.dheap.set w d)[x]? = st.dheap[x]?
    exact List.getElem?_set_ne (by omega)

theorem popNode_list {h : Heap} {env : PyEnv} {ids : List (Nat × Nat)}
    {st : DecState} {w : Nat} {xs : List PyRef} {rs : List GRec} (f : Nat)
    (hrs : encChildren ids xs = some rs)
    (hreg : ∀ k2, (GRec.ref k2) ∈ rs → ∃ v, lookupNat st.objTable k2 = some v)
    (hwsh : st.dheap[w]? = some (.dlist [])) :
    (∀ e, populateObject h env f st w (some (.iseq rs)) (some []) = .error e →
      NonFwd e) ∧
    (∀ st', populateObject h env f st w (some (.iseq rs)) (some []) = .ok st' →
      ∃ vs, PopSpec st w (.dlist vs) st' ∧
        List.Forall₂ (ChildMatch ids st.objTable) xs vs) := by
  have hwlt : w < st.dheap.length := by
    obtain ⟨hh, -⟩ := List.getElem?_eq_some_iff.mp hwsh
    exact hh
  obtain ⟨hserr, hsok⟩ := decodeSeq_atoms rs st (encChildren_atoms hrs) hreg
  cases hsd : decodeSeq h env f st rs with
  | error e0 =>
    have hev : populateObject h env f st w (some (.iseq rs)) (some []) = .error e0 := by
      rw [populateObject.eq_def, populateItems.eq_def]
      simp [hwsh, hsd, populateFields]
    constructor
    · intro e hc
      rw [hev] at hc
      cases hc
      exact hserr _ hsd
    · intro st' hc
      rw [hev] at hc
      cases hc
  | ok pr =>
    obtain ⟨st1, vs⟩ := pr
    obtain ⟨hst1, hfa⟩ := hsok st1 vs hsd
    rw [hst1] at hsd
    have hev : populateObject h env f st w (some (.iseq rs)) (some [])
        = .ok { st with dheap := st.dheap.set w (.dlist vs) } := by
      rw [populateObject.eq_def, populateItems.eq_def]
      simp [hwsh, hsd, populateFields]
    constructor
    · intro e hc
      rw [hev] at hc
      cases hc
    · intro st' hc
      rw [hev] at hc
      cases hc
      exact ⟨vs, popSpec_of_set hwlt, childMatch_of_atoms hrs hfa⟩

theorem popNode_set {h : Heap} {env : PyEnv} {ids : List (Nat × Nat)}
    {st : DecState} {w : Nat} {xs : List PyRef} {rs : List GRec} (f : Nat)
    (hrs : encChildren ids xs = some rs)
    (hreg : ∀ k2, (GRec.ref k2) ∈ rs → ∃ v, lookupNat st.objTable k2 = some v)
    (hwsh : st.dheap[w]? = some (.dset [])) :
    (∀ e, populateObject h env f st w (some (.iseq rs)) (some []) = .error e →
      NonFwd e) ∧
    (∀ st', populateObject h env f st w (some (.iseq rs)) (some []) = .ok st' →
      ∃ vs, PopSpec st w (.dset vs) st' ∧
        List.Forall₂ (ChildMatch ids st.objTable) xs vs) := by
  have hwlt : w < st.dheap.length := by
    obtain ⟨hh, -⟩ := List.getElem?_eq_some_iff.mp hwsh
    exact hh
  obtain ⟨hserr, hsok⟩ := decodeSeq_atoms rs st (encChildren_atoms hrs) hreg
  cases hsd : decodeSeq h env f st rs with
  | error e0 =>
    have hev : populateObject h env f st w (some (.iseq rs)) (some []) = .error e0 := by
      rw [populateObject.eq_def, populateItems.eq_def]
      simp [hwsh, hsd, populateFields]
    constructor
    · intro e hc
      rw [hev] at hc
      cases hc
      exact hserr _ hsd
    · intro st' hc
      rw [hev] at hc
      cases hc
  | ok pr =>
    obtain ⟨st1, vs⟩ := pr
    obtain ⟨hst1, hfa⟩ := hsok st1 vs hsd
    rw [hst1] at hsd
    have hev : populateObject h env f st w (some (.iseq rs)) (some [])
        = .ok { st with dheap := st.dheap.set w (.dset vs) } := by
      rw [populateObject.eq_def, populateItems.eq_def]
      simp [hwsh, hsd, populateFields]
    constructor
    · intro e hc
      rw [hev] at hc
      cases hc
    · intro st' hc
      rw [hev] at hc
      cases hc
      exact ⟨vs, popSpec_of_set hwlt, childMatch_of_atoms hrs hfa⟩

theorem popNode_dict {h : Heap} {env : PyEnv} {ids : List (Nat × Nat)}
    {st : DecState} {w : Nat} {kvs : List (PyRef × PyRef)}
    {ps : List (GRec × GRec)} (f : Nat)
    (hps : encPairs ids kvs = some ps)
    (hreg : ∀ k2 q, q ∈ ps → (q.1 = GRec.ref k2 ∨ q.2 = GRec.ref k2) →
      ∃ v, lookupNat st.objTable k2 = some v)
    (hwsh : st.dheap[w]? = some (.ddict [])) :
    (∀ e, populateObject h env f st w (some (.imap ps)) (some []) = .error e →
      NonFwd e) ∧
    (∀ st', populateObject h env f st w (some (.imap ps)) (some []) = .ok st' →
      ∃ qs, PopSpec st w (.ddict qs) st' ∧
        List.Forall₂ (PairMatch ids st.objTable) kvs qs) := by
  have hwlt : w < st.dheap.length := by
    obtain ⟨hh, -⟩ := List.getElem?_eq_some_iff.mp hwsh
    exact hh
  obtain ⟨hserr, hsok⟩ := decodePairs_atoms ps st (encPairs_atoms hps)
    (fun k2 q hq hor => hreg k2 q hq hor)
  cases hsd : decodePairs h env f st ps with
  | error e0 =>
    have hev : populateObject h env f st w (some (.imap ps)) (some []) = .error e0 := by
      rw [populateObject.eq_def, populateItems.eq_def]
      simp [hwsh, hsd, populateFields]
    constructor
    · intro e hc
      rw [hev] at hc
      cases hc
      exact hserr _ hsd
    · intro st' hc
      rw [hev] at hc
      cases hc
  | ok pr =>
    obtain ⟨st1, qs⟩ := pr
    obtain ⟨hst1, hfa⟩ := hsok st1 qs hsd
    rw [hst1] at hsd
    have hev : populateObject h env f st w (some (.imap ps)) (some [])
        = .ok { st with dheap := st.dheap.set w (.ddict qs) } := by
      rw [populateObject.eq_def, populateItems.eq_def]
      simp [hwsh, hsd, populateFields]
    constructor
    · intro e hc
      rw [hev] at hc
      cases hc
    · intro st' hc
      rw [hev] at hc
      cases hc
      exact ⟨qs, popSpec_of_set hwlt, pairMatch_of_atoms hps hfa⟩

theorem popNode_instance {h : Heap} {env : PyEnv} {ids : List (Nat × Nat)}
    {st : DecState} {w ca : Nat} {fl : List (String × PyRef)}
    {gs : List (String × GRec)} (f : Nat)
    (hgs : encFields h ids fl = some gs)
    (hreg : ∀ k2 q, q ∈ gs → q.2 = GRec.ref k2 →
      ∃ v, lookupNat st.objTable k2 = some v)
    (hwsh : st.dheap[w]? = some (.dinstance ca [])) :
    (∀ e, populateObject h env f st w none (some gs) = .error e → NonFwd e) ∧
    (∀ st', populateObject h env f st w none (some gs) = .ok st' →
      ∃ dfl, PopSpec st w (.dinstance ca dfl) st' ∧
        List.Forall₂ (FldMatch ids st.objTable) (filteredFields h fl) dfl) := by
  have hwlt : w < st.dheap.length := by
    obtain ⟨hh, -⟩ := List.getElem?_eq_some_iff.mp hwsh
    exact hh
  cases hgse : gs with
  | nil =>
    subst hgse
    have hev : populateObject h env f st w none (some []) = .ok st := by
      rw [populateObject.eq_def, populateItems.eq_def]
      show populateFields h env f st w (some []) = Except.ok st
      rw [populateFields.eq_def]
      simp
    constructor
    · intro e hc
      rw [hev] at hc
      cases hc
    · intro st' hc
      rw [hev] at hc
      cases hc
      refine ⟨[], ⟨rfl, rfl, rfl, hwsh, fun x hx => rfl⟩, ?_⟩
      exact fldMatch_of_atoms hgs List.Forall₂.nil
  | cons q0 gt =>
    subst hgse
    obtain ⟨hserr, hsok⟩ := @decodeFieldVals_atoms h env f (q0 :: gt) st
      (encFields_atoms hgs) (fun k2 q hq he => hreg k2 q hq he)
    cases hsd : decodeFieldVals h env f st (q0 :: gt) with
    | error e0 =>
      have hev : populateObject h env f st w none (some (q0 :: gt)) = .error e0 := by
        rw [populateObject.eq_def, populateItems.eq_def]
        show populateFields h env f st w (some (q0 :: gt)) = Except.error e0
        rw [populateFields.eq_def]
        simp [hwsh, hsd]
      constructor
      · intro e hc
        rw [hev] at hc
        cases hc
        exact hserr _ hsd
      · intro st' hc
        rw [hev] at hc
        cases hc
    | ok pr =>
      obtain ⟨st1, dfl⟩ := pr
      obtain ⟨hst1, hfa⟩ := hsok st1 dfl hsd
      rw [hst1] at hsd
      have hev : populateObject h env f st w none (some (q0 :: gt))
          = .ok { st with dheap := st.dheap.set w (.dinstance ca dfl) } := by
        rw [populateObject.eq_def, populateItems.eq_def]
        show populateFields h env f st w (some (q0 :: gt))
          = Except.ok { st with dheap := st.dheap.set w (.dinstance ca dfl) }
        rw [populateFields.eq_def]
        simp [hwsh, hsd]
      constructor
      · intro e hc
        rw [hev] at hc
        cases hc
      · intro st' hc
        rw [hev] at hc
        cases hc
        exact ⟨dfl, popSpec_of_set hwlt, fldMatch_of_atoms hgs hfa⟩

theorem objMatch_dh_ext {h : Heap} {ids : List (Nat × Nat)} {tbl : List (Nat × DVal)}
    {dh dh2 : List DObj} {a : Nat} {v : DVal}
    (hdh : ∀ w, v = .daddr w → dh2[w]? = dh[w]?)
    (hm : ObjMatch h ids tbl dh a v) : ObjMatch h ids tbl dh2 a v := by
  have hm2 : objMatchCore h ids tbl dh a h[a]? v := hm
  show objMatchCore h ids tbl dh2 a h[a]? v
  cases hoa : h[a]? with
  | none =>
    rw [hoa] at hm2
    exact hm2.elim
  | some o =>
    rw [hoa] at hm2
    cases o with
    | pylist xs =>
      obtain ⟨w, vs, hv, hw, hfa⟩ := hm2
      exact ⟨w, vs, hv, by rw [hdh w hv]; exact hw, hfa⟩
    | pytuple xs =>
      obtain ⟨w, vs, hv, hw, hfa⟩ := hm2
      exact ⟨w, vs, hv, by rw [hdh w hv]; exact hw, hfa⟩
    | pydict kvs =>
      obtain ⟨w, qs, hv, hw, hfa⟩ := hm2
      exact ⟨w, qs, hv, by rw [hdh w hv]; exact hw, hfa⟩
    | pyset xs =>
      obtain ⟨w, vs, hv, hw, hfa⟩ := hm2
      exact ⟨w, vs, hv, by rw [hdh w hv]; exact hw, hfa⟩
    | pyfrozenset xs =>
      obtain ⟨w, vs, hv, hw, hfa⟩ := hm2
      exact ⟨w, vs, hv, by rw [hdh w hv]; exact hw, hfa⟩
    | pycomplex re im =>
      obtain ⟨w, hv, hw⟩ := hm2
      exact ⟨w, hv, by rw [hdh w hv]; exact hw⟩
    | pyfunc mo na => exact hm2
    | pyclass mo na ats => exact hm2
    | pymodule mname mats => exact hm2
    | pyinstance ca fl =>
      obtain ⟨w, dfl, hv, hw, hfa⟩ := hm2
      exact ⟨w, dfl, hv, by rw [hdh w hv]; exact hw, hfa⟩
    | pyboundmethod iref fi =>
      obtain ⟨w, iv, hv, hw, hcm⟩ := hm2
      exact ⟨w, iv, hv, by rw [hdh w hv]; exact hw, hcm⟩
    | pygenerator => exact hm2.elim
    | pyiterator => exact hm2.elim
    | pylambda => exact hm2.elim
    | pyclosure mo na => exact hm2.elim

/-- An immediately-decoded kind's record-pass value is already its full
decoded value. -/
theorem rval_nonmut_objMatch {h : Heap} {ids : List (Nat × Nat)}
    {tbl : List (Nat × DVal)} {dh dh2 : List DObj} {a : Nat} {v : DVal}
    (hmk : mutableKindAt h a = false)
    (hdh : ∀ w, v = .daddr w → dh2[w]? = dh[w]?)
    (hrv : RVal h ids tbl dh a v) : ObjMatch h ids tbl dh2 a v := by
  have hm2 : rvalCore h ids tbl dh a h[a]? v := hrv
  show objMatchCore h ids tbl dh2 a h[a]? v
  cases hoa : h[a]? with
  | none =>
    rw [hoa] at hm2
    exact hm2.elim
  | some o =>
    rw [hoa] at hm2
    cases o with
    | pylist xs => simp [mutableKindAt, hoa] at hmk
    | pydict kvs => simp [mutableKindAt, hoa] at hmk
    | pyset xs => simp [mutableKindAt, hoa] at hmk
    | pyinstance ca fl => simp [mutableKindAt, hoa] at hmk
    | pytuple xs =>
      obtain ⟨w, vs, hv, hw, hfa⟩ := hm2
      exact ⟨w, vs, hv, by rw [hdh w hv]; exact hw, hfa⟩
    | pyfrozenset xs =>
      obtain ⟨w, vs, hv, hw, hfa⟩ := hm2
      exact ⟨w, vs, hv, by rw [hdh w hv]; exact hw, hfa⟩
    | pycomplex re im =>
      obtain ⟨w, hv, hw⟩ := hm2
      exact ⟨w, hv, by rw [hdh w hv]; exact hw⟩
    | pyfunc mo na => exact hm2
    | pyclass mo na ats => exact hm2
    | pymodule mname mats => exact hm2
    | pyboundmethod iref fi =>
      obtain ⟨w, iv, hv, hw, hcm⟩ := hm2
      exact ⟨w, iv, hv, by rw [hdh w hv]; exact hw, hcm⟩
    | pygenerator => exact hm2.elim
    | pyiterator => exact hm2.elim
    | pylambda => exact hm2.elim
    | pyclosure mo na => exact hm2.elim

/-- The `to_populate` drain: every pending shell is filled from its node,
no forward reference can be raised, and afterwards the object table fully
matches the source heap. -/
theorem drainPopulate_sim {h : Heap} {env : PyEnv} {rk : Nat → Nat}
    {ids : List (Nat × Nat)} {S0 : List Nat} {dst2 : DecState}
    (hs : SupHeap h env rk) (hw : IdsWF ids)
    (hRI : RInv h ids S0 dst2)
    (hall : ∀ a k, (a, k) ∈ ids → k ∈ S0) :
    ∀ (fl i : Nat) (st : DecState),
      st.objTable = dst2.objTable → st.toPopulate = dst2.toPopulate →
      st.dheap.length = dst2.dheap.length →
      (∀ w, (∀ j e, dst2.toPopulate[j]? = some e → j < i → e.1 ≠ w) →
        st.dheap[w]? = dst2.dheap[w]?) →
      (∀ j e, dst2.toPopulate[j]? = some e → j < i →
        ∀ a k, (a, k) ∈ ids → lookupNat dst2.objTable k = some (.daddr e.1) →
          ObjMatch h ids dst2.objTable st.dheap a (.daddr e.1)) →
      (∀ e2, drainPopulate h env fl i st = .error e2 → NonFwd e2) ∧
      (∀ st', drainPopulate h env fl i st = .ok st' →
        st'.objTable = dst2.objTable ∧ TableMatch h ids st') := by
  obtain ⟨hdom, hpairs, hwb, hwinj, hent, hnd⟩ := hRI
  intro fl
  induction fl with
  | zero =>
    intro i st h1 h2 h3 h4 h5
    constructor
    · intro e2 hc
      rw [drainPopulate] at hc
      cases hc
      intro k2 hk
      cases hk
    · intro st' hc
      rw [drainPopulate] at hc
      cases hc
  | succ fu ih =>
    intro i st h1 h2 h3 h4 h5
    cases hentry : dst2.toPopulate[i]? with
    | none =>
      have hlen : dst2.toPopulate.length ≤ i := List.getElem?_eq_none_iff.mp hentry
      have hev : drainPopulate h env (fu + 1) i st = .ok st := by
        simp [drainPopulate, h2, hentry]
      constructor
      · intro e2 hc
        rw [hev] at hc
        cases hc
      · intro st' hc
        rw [hev] at hc
        cases hc
        refine ⟨h1, ?_⟩
        intro a k hpair
        obtain ⟨v, hv, hrv, hmut⟩ := hpairs a k hpair (hall a k hpair)
        rw [h1]
        refine ⟨v, hv, ?_⟩
        cases hmk : mutableKindAt h a with
        | false =>
          refine rval_nonmut_objMatch hmk ?_ hrv
          intro w0 hveq
          refine h4 w0 ?_
          intro j e' hje hjlt hww
          obtain ⟨ae, ke, hpae, hmutae, hlk, hnf⟩ := hent e' (List.getElem?_mem hje)
          rw [hww] at hlk
          rw [hveq] at hv
          have hke : k = ke := hwinj k _ ke _ w0 hv hlk rfl rfl
          rw [← hke] at hpae
          have hae : a = ae := ids_snd_inj hw hpair hpae
          rw [← hae] at hmutae
          rw [hmutae] at hmk
          cases hmk
        | true =>
          obtain ⟨e, he, hveq, hnf⟩ := hmut hmk
          obtain ⟨j, hjlt, hje⟩ := List.getElem_of_mem he
          have hje2 : dst2.toPopulate[j]? = some e := by
            rw [List.getElem?_eq_getElem hjlt, hje]
          rw [hveq]
          rw [hveq] at hv
          exact h5 j e hje2 (by omega) a k hpair hv
    | some e =>
      obtain ⟨w, g⟩ := e
      have hstp : st.toPopulate[i]? = some (w, g) := by
        rw [h2]
        exact hentry
      obtain ⟨ae, ke, hpae, hmutae, hlk, hnf⟩ := hent (w, g) (List.getElem?_mem hentry)
      obtain ⟨v2, hv2, hrv2, -⟩ := hpairs ae ke hpae (hall ae ke hpae)
      rw [hlk] at hv2
      have hv2q : v2 = .daddr w := by injection hv2 with hq; rw [hq]
      rw [hv2q] at hrv2
      have hshpres : st.dheap[w]? = dst2.dheap[w]? := by
        refine h4 w ?_
        intro j e' hje hjlt hww
        have := nodup_pos_unique Prod.fst hnd hje hentry hww
        omega
      have hregd : ∀ k2 b, idLookup ids b = some k2 →
          ∃ v, lookupNat st.objTable k2 = some v := by
        intro k2 b hbl
        have hp2 := idLookup_some_mem hbl
        obtain ⟨v, hv, -, -⟩ := hpairs b k2 hp2 (hall b k2 hp2)
        rw [h1]
        exact ⟨v, hv⟩
      have hrvc : rvalCore h ids dst2.objTable dst2.dheap ae h[ae]? (.daddr w) := hrv2
      have hnfc : nodeForCore h ids ke h[ae]? g := hnf
      cases hoa : h[ae]? with
      | none =>
        rw [hoa] at hnfc
        exact hnfc.elim
      | some o =>
        rw [hoa] at hnfc hrvc
        cases o with
        | pyfunc mo na => simp [mutableKindAt, hoa] at hmutae
        | pyclass mo na ats => simp [mutableKindAt, hoa] at hmutae
        | pymodule mname mats => simp [mutableKindAt, hoa] at hmutae
        | pytuple xs => simp [mutableKindAt, hoa] at hmutae
        | pyfrozenset xs => simp [mutableKindAt, hoa] at hmutae
        | pycomplex re im => simp [mutableKindAt, hoa] at hmutae
        | pyboundmethod iref fi => simp [mutableKindAt, hoa] at hmutae
        | pygenerator => simp [mutableKindAt, hoa] at hmutae
        | pyiterator => simp [mutableKindAt, hoa] at hmutae
        | pylambda => simp [mutableKindAt, hoa] at hmutae
        | pyclosure mo na => simp [mutableKindAt, hoa] at hmutae
        | pylist xs =>
          simp only [nodeForCore] at hnfc
          obtain ⟨rs, hrs, hgq⟩ := hnfc
          subst hgq
          obtain ⟨w2, hveq, hshell⟩ := hrvc
          have hw2 : w2 = w := by injection hveq with hq; rw [← hq]
          rw [hw2] at hshell
          have hwsh : st.dheap[w]? = some (.dlist []) := by
            rw [hshpres]
            exact hshell
          have hreg2 : ∀ k2, (GRec.ref k2) ∈ rs →
              ∃ v, lookupNat st.objTable k2 = some v := by
            intro k2 hm
            obtain ⟨b, -, hbl⟩ := encChildren_ref_src hrs hm
            exact hregd k2 b hbl
          obtain ⟨perr, pok⟩ := popNode_list fu hrs hreg2 hwsh
          cases hpo : populateObject h env fu st w (some (.iseq rs)) (some []) with
          | error e0 =>
            have hev : drainPopulate h env (fu + 1) i st = .error e0 := by
              simp [drainPopulate, hstp, hpo]
            constructor
            · intro e2 hc
              rw [hev] at hc
              cases hc
              exact perr _ hpo
            · intro st' hc
              rw [hev] at hc
              cases hc
          | ok st1 =>
            obtain ⟨vs, hps, hfa⟩ := pok st1 hpo
            obtain ⟨hp1, hp2, hp3, hp4, hp5⟩ := hps
            have hev : drainPopulate h env (fu + 1) i st
                = drainPopulate h env fu (i + 1) st1 := by
              simp [drainPopulate, hstp, hpo]
            have hnew : ObjMatch h ids dst2.objTable st1.dheap ae (.daddr w) := by
              show objMatchCore h ids dst2.objTable st1.dheap ae h[ae]? (.daddr w)
              rw [hoa]
              refine ⟨w, vs, rfl, hp4, ?_⟩
              rw [h1] at hfa
              exact hfa
            have hih := ih (i + 1) st1 (hp1.trans h1) (hp2.trans h2) (hp3.trans h3)
              (by
                intro w' hgd
                by_cases hww : w' = w
                · exfalso
                  exact hgd i _ hentry (Nat.lt_succ_self i) (by rw [hww])
                · rw [hp5 w' (by omega)]
                  refine h4 w' ?_
                  intro j e' hje hjlt
                  exact hgd j e' hje (by omega))
              (by
                intro j e' hje hjlt a2 k2 hp2x hlk2
                rcases Nat.lt_succ_iff_lt_or_eq.mp hjlt with hji | hji
                · have hold := h5 j e' hje hji a2 k2 hp2x hlk2
                  refine objMatch_dh_ext ?_ hold
                  intro w0 hq
                  injection hq with hq
                  rw [← hq]
                  refine hp5 e'.1 ?_
                  intro hww
                  have := nodup_pos_unique Prod.fst hnd hje hentry hww
                  omega
                · subst hji
                  rw [hentry] at hje
                  injection hje with hq
                  rw [← hq] at hlk2
                  have hke : k2 = ke := hwinj k2 _ ke _ w hlk2 hlk rfl rfl
                  rw [hke] at hp2x
                  have hae : a2 = ae := ids_snd_inj hw hp2x hpae
                  rw [← hq, hae]
                  exact hnew)
            constructor
            · intro e2 hc
              rw [hev] at hc
              exact hih.1 e2 hc
            · intro st' hc
              rw [hev] at hc
              exact hih.2 st' hc
        | pyset xs =>
          simp only [nodeForCore] at hnfc
          obtain ⟨rs, hrs, hgq⟩ := hnfc
          subst hgq
          obtain ⟨w2, hveq, hshell⟩ := hrvc
          have hw2 : w2 = w := by injection hveq with hq; rw [← hq]
          rw [hw2] at hshell
          have hwsh : st.dheap[w]? = some (.dset []) := by
            rw [hshpres]
            exact hshell
          have hreg2 : ∀ k2, (GRec.ref k2) ∈ rs →
              ∃ v, lookupNat st.objTable k2 = some v := by
            intro k2 hm
            obtain ⟨b, -, hbl⟩ := encChildren_ref_src hrs hm
            exact hregd k2 b hbl
          obtain ⟨perr, pok⟩ := popNode_set fu hrs hreg2 hwsh
          cases hpo : populateObject h env fu st w (some (.iseq rs)) (some []) with
          | error e0 =>
            have hev : drainPopulate h env (fu + 1) i st = .error e0 := by
              simp [drainPopulate, hstp, hpo]
            constructor
            · intro e2 hc
              rw [hev] at hc
              cases hc
              exact perr _ hpo
            · intro st' hc
              rw [hev] at hc
              cases hc
          | ok st1 =>
            obtain ⟨vs, hps, hfa⟩ := pok st1 hpo
            obtain ⟨hp1, hp2, hp3, hp4, hp5⟩ := hps
            have hev : drainPopulate h env (fu + 1) i st
                = drainPopulate h env fu (i + 1) st1 := by
              simp [drainPopulate, hstp, hpo]
            have hnew : ObjMatch h ids dst2.objTable st1.dheap ae (.daddr w) := by
              show objMatchCore h ids dst2.objTable st1.dheap ae h[ae]? (.daddr w)
              rw [hoa]
              refine ⟨w, vs, rfl, hp4, ?_⟩
              rw [h1] at hfa
              exact hfa
            have hih := ih (i + 1) st1 (hp1.trans h1) (hp2.trans h2) (hp3.trans h3)
              (by
                intro w' hgd
                by_cases hww : w' = w
                · exfalso
                  exact hgd i _ hentry (Nat.lt_succ_self i) (by rw [hww])
                · rw [hp5 w' (by omega)]
                  refine h4 w' ?_
                  intro j e' hje hjlt
                  exact hgd j e' hje (by omega))
              (by
                intro j e' hje hjlt a2 k2 hp2x hlk2
                rcases Nat.lt_succ_iff_lt_or_eq.mp hjlt with hji | hji
                · have hold := h5 j e' hje hji a2 k2 hp2x hlk2
                  refine objMatch_dh_ext ?_ hold
                  intro w0 hq
                  injection hq with hq
                  rw [← hq]
                  refine hp5 e'.1 ?_
                  intro hww
                  have := nodup_pos_unique Prod.fst hnd hje hentry hww
                  omega
                · subst hji
                  rw [hentry] at hje
                  injection hje with hq
                  rw [← hq] at hlk2
                  have hke : k2 = ke := hwinj k2 _ ke _ w hlk2 hlk rfl rfl
                  rw [hke] at hp2x
                  have hae : a2 = ae := ids_snd_inj hw hp2x hpae
                  rw [← hq, hae]
                  exact hnew)
            constructor
            · intro e2 hc
              rw [hev] at hc
              exact hih.1 e2 hc
            · intro st' hc
              rw [hev] at hc
              exact hih.2 st' hc
        | pydict kvs =>
          simp only [nodeForCore] at hnfc
          obtain ⟨ps, hpsq, hgq⟩ := hnfc
          subst hgq
          obtain ⟨w2, hveq, hshell⟩ := hrvc
          have hw2 : w2 = w := by injection hveq with hq; rw [← hq]
          rw [hw2] at hshell
          have hwsh : st.dheap[w]? = some (.ddict []) := by
            rw [hshpres]
            exact hshell
          have hreg2 : ∀ k2 q, q ∈ ps → (q.1 = GRec.ref k2 ∨ q.2 = GRec.ref k2) →
              ∃ v, lookupNat st.objTable k2 = some v := by
            intro k2 q hq hor
            obtain ⟨b, hbl⟩ := encPairs_ref_src hpsq hq hor
            exact hregd k2 b hbl
          obtain ⟨perr, pok⟩ := popNode_dict fu hpsq hreg2 hwsh
          cases hpo : populateObject h env fu st w (some (.imap ps)) (some []) with
          | error e0 =>
            have hev : drainPopulate h env (fu + 1) i st = .error e0 := by
              simp [drainPopulate, hstp, hpo]
            constructor
            · intro e2 hc
              rw [hev] at hc
              cases hc
              exact perr _ hpo
            · intro st' hc
              rw [hev] at hc
              cases hc
          | ok st1 =>
            obtain ⟨qs, hps, hfa⟩ := pok st1 hpo
            obtain ⟨hp1, hp2, hp3, hp4, hp5⟩ := hps
            have hev : drainPopulate h env (fu + 1) i st
                = drainPopulate h env fu (i + 1) st1 := by
              simp [drainPopulate, hstp, hpo]
            have hnew : ObjMatch h ids dst2.objTable st1.dheap ae (.daddr w) := by
              show objMatchCore h ids dst2.objTable st1.dheap ae h[ae]? (.daddr w)
              rw [hoa]
              refine ⟨w, qs, rfl, hp4, ?_⟩
              rw [h1] at hfa
              exact hfa
            have hih := ih (i + 1) st1 (hp1.trans h1) (hp2.trans h2) (hp3.trans h3)
              (by
                intro w' hgd
                by_cases hww : w' = w
                · exfalso
                  exact hgd i _ hentry (Nat.lt_succ_self i) (by rw [hww])
                · rw [hp5 w' (by omega)]
                  refine h4 w' ?_
                  intro j e' hje hjlt
                  exact hgd j e' hje (by omega))
              (by
                intro j e' hje hjlt a2 k2 hp2x hlk2
                rcases Nat.lt_succ_iff_lt_or_eq.mp hjlt with hji | hji
                · have hold := h5 j e' hje hji a2 k2 hp2x hlk2
                  refine objMatch_dh_ext ?_ hold
                  intro w0 hq
                  injection hq with hq
                  rw [← hq]
                  refine hp5 e'.1 ?_
                  intro hww
                  have := nodup_pos_unique Prod.fst hnd hje hentry hww
                  omega
                · subst hji
                  rw [hentry] at hje
                  injection hje with hq
                  rw [← hq] at hlk2
                  have hke : k2 = ke := hwinj k2 _ ke _ w hlk2 hlk rfl rfl
                  rw [hke] at hp2x
                  have hae : a2 = ae := ids_snd_inj hw hp2x hpae
                  rw [← hq, hae]
                  exact hnew)
            constructor
            · intro e2 hc
              rw [hev] at hc
              exact hih.1 e2 hc
            · intro st' hc
              rw [hev] at hc
              exact hih.2 st' hc
        | pyinstance ca flx =>
          simp only [nodeForCore] at hnfc
          obtain ⟨mo, na, ats, gs, hca, hgs, hgq⟩ := hnfc
          subst hgq
          obtain ⟨w2, hveq, hshell⟩ := hrvc
          have hw2 : w2 = w := by injection hveq with hq; rw [← hq]
          rw [hw2] at hshell
          have hwsh : st.dheap[w]? = some (.dinstance ca []) := by
            rw [hshpres]
            exact hshell
          have hreg2 : ∀ k2 q, q ∈ gs → q.2 = GRec.ref k2 →
              ∃ v, lookupNat st.objTable k2 = some v := by
            intro k2 q hq he
            obtain ⟨b, hbl⟩ := encFields_ref_src hgs hq he
            exact hregd k2 b hbl
          obtain ⟨perr, pok⟩ := popNode_instance fu hgs hreg2 hwsh
          cases hpo : populateObject h env fu st w none (some gs) with
          | error e0 =>
            have hev : drainPopulate h env (fu + 1) i st = .error e0 := by
              simp [drainPopulate, hstp, hpo]
            constructor
            · intro e2 hc
              rw [hev] at hc
              cases hc
              exact perr _ hpo
            · intro st' hc
              rw [hev] at hc
              cases hc
          | ok st1 =>
            obtain ⟨dfl, hps, hfa⟩ := pok st1 hpo
            obtain ⟨hp1, hp2, hp3, hp4, hp5⟩ := hps
            have hev : drainPopulate h env (fu + 1) i st
                = drainPopulate h env fu (i + 1) st1 := by
              simp [drainPopulate, hstp, hpo]
            have hnew : ObjMatch h ids dst2.objTable st1.dheap ae (.daddr w) := by
              show objMatchCore h ids dst2.objTable st1.dheap ae h[ae]? (.daddr w)
              rw [hoa]
              refine ⟨w, dfl, rfl, hp4, ?_⟩
              rw [h1] at hfa
              exact hfa
            have hih := ih (i + 1) st1 (hp1.trans h1) (hp2.trans h2) (hp3.trans h3)
              (by
                intro w' hgd
                by_cases hww : w' = w
                · exfalso
                  exact hgd i _ hentry (Nat.lt_succ_self i) (by rw [hww])
                · rw [hp5 w' (by omega)]
                  refine h4 w' ?_
                  intro j e' hje hjlt
                  exact hgd j e' hje (by omega))
              (by
                intro j e' hje hjlt a2 k2 hp2x hlk2
                rcases Nat.lt_succ_iff_lt_or_eq.mp hjlt with hji | hji
                · have hold := h5 j e' hje hji a2 k2 hp2x hlk2
                  refine objMatch_dh_ext ?_ hold
                  intro w0 hq
                  injection hq with hq
                  rw [← hq]
                  refine hp5 e'.1 ?_
                  intro hww
                  have := nodup_pos_unique Prod.fst hnd hje hentry hww
                  omega
                · subst hji
                  rw [hentry] at hje
                  injection hje with hq
                  rw [← hq] at hlk2
                  have hke : k2 = ke := hwinj k2 _ ke _ w hlk2 hlk rfl rfl
                  rw [hke] at hp2x
                  have hae : a2 = ae := ids_snd_inj hw hp2x hpae
                  rw [← hq, hae]
                  exact hnew)
            constructor
            · intro e2 hc
              rw [hev] at hc
              exact hih.1 e2 hc
            · intro st' hc
              rw [hev] at hc
              exact hih.2 st' hc

theorem rinv_empty (h : Heap) (ids : List (Nat × Nat)) :
    RInv h ids [] ⟨[], [], []⟩ := by
  refine ⟨?_, ?_, ?_, ?_, ?_, ?_⟩
  · intro k v h2
    cases h2
  · intro a k hm hk
    cases hk
  · intro kk vv hmm
    cases hmm
  · intro k1 v1 k2 v2 w h1 h2 hv1 hv2
    cases h1
  · intro e he
    cases he
  · simp

/-- Decoding a successful `marshal` result: the decoder can fail only
benignly (never with a forward reference), and on success the object
table matches the source heap object-for-object and the returned payload
matches the marshalled root. -/
theorem genUnmarshal_sim {h : Heap} {env : PyEnv} {rk : Nat → Nat}
    {fuel : Nat} {root : PyRef} {m : Marshalled}
    (hs : SupHeap h env rk) (hm : genMarshal h env fuel root = .ok m) (fuel2 : Nat) :
    ∃ ids, EncFaithful h ids m.records ∧ encChild ids root = some m.payload ∧
      (∀ e, genUnmarshal h env fuel2 m = .error e → NonFwd e) ∧
      (∀ st pv, genUnmarshal h env fuel2 m = .ok (st, pv) →
        TableMatch h ids st ∧ ChildMatch ids st.objTable root pv) := by
  obtain ⟨ids, hf, hpay, hsent⟩ := genMarshal_characterized h env rk fuel root m hs hm
  have hw : IdsWF ids := hf.1
  have hperm := hf.2.1
  refine ⟨ids, hf, hpay, ?_⟩
  obtain ⟨rerr, rok⟩ := decodeRecords_sim hs hf fuel2 m.records [] ⟨[], [], []⟩ rfl
    (rinv_empty h ids)
  cases hrec : decodeRecords h env fuel2 ⟨[], [], []⟩ m.records with
  | error e0 =>
    have hev : genUnmarshal h env fuel2 m = .error e0 := by
      simp [genUnmarshal, hsent, hrec]
    constructor
    · intro e hc
      rw [hev] at hc
      cases hc
      exact rerr _ hrec
    · intro st pv hc
      rw [hev] at hc
      cases hc
  | ok st1 =>
    have hRI1 : RInv h ids (oidsOf m.records) st1 := rok st1 hrec
    have hall : ∀ a k, (a, k) ∈ ids → k ∈ oidsOf m.records := by
      intro a k hp
      exact hperm.mem_iff.mpr (List.mem_range.mpr (ids_snd_lt hw hp))
    have hat : isAtomB m.payload = true := by
      cases root with
      | prim p =>
        rw [encChild] at hpay
        injection hpay with hpe
        rw [← hpe]
        rfl
      | addr b =>
        rw [encChild] at hpay
        simp only [Option.map_eq_some'] at hpay
        obtain ⟨k, -, hk2⟩ := hpay
        rw [← hk2]
        rfl
    have hregp : ∀ k, m.payload = GRec.ref k → ∃ v, lookupNat st1.objTable k = some v := by
      intro k hpk
      cases root with
      | prim p =>
        rw [encChild] at hpay
        injection hpay with hpe
        rw [← hpe] at hpk
        cases hpk
      | addr b =>
        rw [encChild] at hpay
        simp only [Option.map_eq_some'] at hpay
        obtain ⟨k2, hlk2, hk2⟩ := hpay
        rw [← hk2] at hpk
        injection hpk with hke
        rw [hke] at hlk2
        have hp2 := idLookup_some_mem hlk2
        obtain ⟨v, hv, -, -⟩ := hRI1.2.1 b k hp2 (hall b k hp2)
        exact ⟨v, hv⟩
    cases hpd : decodeRec h env fuel2 st1 m.payload with
    | error e1 =>
      have hev : genUnmarshal h env fuel2 m = .error e1 := by
        simp [genUnmarshal, hsent, hrec, hpd]
      constructor
      · intro e hc
        rw [hev] at hc
        cases hc
        exact decodeRec_atom_err hat hregp _ hpd
      · intro st pv hc
        rw [hev] at hc
        cases hc
    | ok pr =>
      obtain ⟨st2, pv⟩ := pr
      obtain ⟨hst2, ham⟩ := decodeRec_atom_ok hat hpd
      rw [hst2] at hpd
      obtain ⟨derr, dok⟩ := drainPopulate_sim hs hw hRI1 hall fuel2 0 st1 rfl rfl rfl
        (fun w hg => rfl) (fun j e hje hjlt => by omega)
      cases hdr : drainPopulate h env fuel2 0 st1 with
      | error e2 =>
        have hev : genUnmarshal h env fuel2 m = .error e2 := by
          simp [genUnmarshal, hsent, hrec, hpd, hdr]
        constructor
        · intro e hc
          rw [hev] at hc
          cases hc
          exact derr _ hdr
        · intro st pv2 hc
          rw [hev] at hc
          cases hc
      | ok st3 =>
        obtain ⟨ht3, htm⟩ := dok st3 hdr
        have hev : genUnmarshal h env fuel2 m = .ok (st3, pv) := by
          simp [genUnmarshal, hsent, hrec, hpd, hdr]
        constructor
        · intro e hc
          rw [hev] at hc
          cases hc
        · intro st pv2 hc
          rw [hev] at hc
          cases hc
          refine ⟨htm, ?_⟩
          cases root with
          | prim p =>
            rw [encChild] at hpay
            injection hpay with hpe
            rw [← hpe] at ham
            exact ham
          | addr b =>
            rw [encChild] at hpay
            simp only [Option.map_eq_some'] at hpay
            obtain ⟨k2, hlk2, hk2⟩ := hpay
            rw [← hk2] at ham
            refine ⟨k2, hlk2, ?_⟩
            rw [ht3]
            exact ham

theorem forall2_mem_left {α β : Type} {R : α → β → Prop} :
    ∀ {xs : List α} {vs : List β}, List.Forall₂ R xs vs → ∀ {x}, x ∈ xs →
      ∃ v, v ∈ vs ∧ R x v := by
  intro xs
  induction xs with
  | nil =>
    intro vs hf x hx
    cases hx
  | cons x0 xt ih =>
    intro vs hf x hx
    cases hf with
    | cons h1 h2 =>
      rcases List.mem_cons.mp hx with hq | hq
      · subst hq
        exact ⟨_, List.mem_cons_self _ _, h1⟩
      · obtain ⟨v, hv1, hv2⟩ := ih h2 hq
        exact ⟨v, List.mem_cons_of_mem _ hv1, hv2⟩

/-- A mutable container that holds a reference to itself (directly, in a
slot the encoder keeps). -/
def SelfContaining (h : Heap) (c : Nat) : Prop :=
  match h[c]? with
  | some (.pylist xs) => (PyRef.addr c) ∈ xs
  | some (.pyset xs) => (PyRef.addr c) ∈ xs
  | some (.pydict kvs) => ∃ kv ∈ kvs, kv.1 = PyRef.addr c ∨ kv.2 = PyRef.addr c
  | some (.pyinstance _ fl) => ∃ q ∈ filteredFields h fl, q.2 = PyRef.addr c
  | _ => False

/-- The decoded object at `w` has a slot holding the address `w` itself. -/
def SlotSelf (st : DecState) (w : Nat) : Prop :=
  match st.dheap[w]? with
  | some (.dlist vs) => (DVal.daddr w) ∈ vs
  | some (.dset vs) => (DVal.daddr w) ∈ vs
  | some (.ddict qs) => ∃ q ∈ qs, q.1 = DVal.daddr w ∨ q.2 = DVal.daddr w
  | some (.dinstance _ dfl) => ∃ q ∈ dfl, q.2 = DVal.daddr w
  | _ => False

/-- C2: a self-containing mutable container decodes to a true
self-reference: the decoded payload is a decoded-heap address whose
corresponding slot holds that same address, because every oid-bearing
shell is registered in the object table before it is populated. -/
theorem cycle_fidelity {h : Heap} {env : PyEnv} {rk : Nat → Nat}
    {fuel fuel2 c : Nat} {m : Marshalled} {st : DecState} {pv : DVal}
    (hs : SupHeap h env rk)
    (hm : genMarshal h env fuel (.addr c) = .ok m)
    (hu : genUnmarshal h env fuel2 m = .ok (st, pv))
    (hself : SelfContaining h c) :
    ∃ w, pv = .daddr w ∧ SlotSelf st w := by
  obtain ⟨ids, hf, hpay, herr, hok⟩ := genUnmarshal_sim hs hm fuel2
  obtain ⟨htm, hcm⟩ := hok st pv hu
  obtain ⟨k, hlk, hlkv⟩ := hcm
  obtain ⟨v, hv, hom⟩ := htm c k (idLookup_some_mem hlk)
  rw [hlkv] at hv
  have hvq : v = pv := by injection hv with hq; rw [hq]
  rw [hvq] at hom
  have hom2 : objMatchCore h ids st.objTable st.dheap c h[c]? pv := hom
  have hself2 : (match h[c]? with
    | some (.pylist xs) => (PyRef.addr c) ∈ xs
    | some (.pyset xs) => (PyRef.addr c) ∈ xs
    | some (.pydict kvs) => ∃ kv ∈ kvs, kv.1 = PyRef.addr c ∨ kv.2 = PyRef.addr c
    | some (.pyinstance _ fl) => ∃ q ∈ filteredFields h fl, q.2 = PyRef.addr c
    | _ => False) := hself
  cases hoc : h[c]? with
  | none =>
    rw [hoc] at hself2
    exact hself2.elim
  | some o =>
    rw [hoc] at hself2 hom2
    cases o with
    | pylist xs =>
      obtain ⟨w, vs, hpv, hdw, hfa⟩ := hom2
      refine ⟨w, hpv, ?_⟩
      unfold SlotSelf
      rw [hdw]
      obtain ⟨vx, hvx, hcmx⟩ := forall2_mem_left hfa hself2
      obtain ⟨k2, hk2, hk2v⟩ := hcmx
      rw [hlk] at hk2
      injection hk2 with hk2
      rw [← hk2] at hk2v
      rw [hlkv] at hk2v
      injection hk2v with hk2v
      rw [← hk2v] at hvx
      rw [← hpv]
      exact hvx
    | pyset xs =>
      obtain ⟨w, vs, hpv, hdw, hfa⟩ := hom2
      refine ⟨w, hpv, ?_⟩
      unfold SlotSelf
      rw [hdw]
      obtain ⟨vx, hvx, hcmx⟩ := forall2_mem_left hfa hself2
      obtain ⟨k2, hk2, hk2v⟩ := hcmx
      rw [hlk] at hk2
      injection hk2 with hk2
      rw [← hk2] at hk2v
      rw [hlkv] at hk2v
      injection hk2v with hk2v
      rw [← hk2v] at hvx
      rw [← hpv]
      exact hvx
    | pydict kvs =>
      obtain ⟨w, qs, hpv, hdw, hfa⟩ := hom2
      refine ⟨w, hpv, ?_⟩
      unfold SlotSelf
      rw [hdw]
      obtain ⟨kv, hkv, hor⟩ := hself2
      obtain ⟨dq, hdq, hpm1, hpm2⟩ := forall2_mem_left hfa hkv
      refine ⟨dq, hdq, ?_⟩
      rcases hor with hq | hq
      · left
        rw [hq] at hpm1
        obtain ⟨k2, hk2, hk2v⟩ := hpm1
        rw [hlk] at hk2
        injection hk2 with hk2
        rw [← hk2] at hk2v
        rw [hlkv] at hk2v
        injection hk2v with hk2v
        rw [← hk2v, ← hpv]
      · right
        rw [hq] at hpm2
        obtain ⟨k2, hk2, hk2v⟩ := hpm2
        rw [hlk] at hk2
        injection hk2 with hk2
        rw [← hk2] at hk2v
        rw [hlkv] at hk2v
        injection hk2v with hk2v
        rw [← hk2v, ← hpv]
    | pyinstance ca fl =>
      obtain ⟨w, dfl, hpv, hdw, hfa⟩ := hom2
      refine ⟨w, hpv, ?_⟩
      unfold SlotSelf
      rw [hdw]
      obtain ⟨q, hq, hq2⟩ := hself2
      obtain ⟨dq, hdq, hfm1, hfm2⟩ := forall2_mem_left hfa hq
      refine ⟨dq, hdq, ?_⟩
      rw [hq2] at hfm2
      obtain ⟨k2, hk2, hk2v⟩ := hfm2
      rw [hlk] at hk2
      injection hk2 with hk2
      rw [← hk2] at hk2v
      rw [hlkv] at hk2v
      injection hk2v with hk2v
      rw [← hk2v, ← hpv]
    | pytuple xs => exact hself2.elim
    | pyfrozenset xs => exact hself2.elim
    | pycomplex re im => exact hself2.elim
    | pyfunc mo na => exact hself2.elim
    | pyclass mo na ats => exact hself2.elim
    | pymodule mname mats => exact hself2.elim
    | pyboundmethod iref fi => exact hself2.elim
    | pygenerator => exact hself2.elim
    | pyiterator => exact hself2.elim
    | pylambda => exact hself2.elim
    | pyclosure mo na => exact hself2.elim

/-! ### A one-object cyclic heap for concrete runs -/

theorem supHeap_selfList :
    SupHeap [PyObj.pylist [PyRef.addr 0]] ⟨[]⟩ (fun _ => 0) := by
  refine ⟨?_, ?_, ?_, ?_, ?_, ?_, ?_⟩
  · intro a b himm hb
    rcases a with _ | a
    · simp [immNodeKind] at himm
    · simp [immNodeKind, List.getElem?_cons_succ, List.getElem?_nil] at himm
  · intro a mo na hf
    rcases a with _ | a
    · simp at hf
    · simp [List.getElem?_cons_succ, List.getElem?_nil] at hf
  · intro a mo na ats hf
    rcases a with _ | a
    · simp at hf
    · simp [List.getElem?_cons_succ, List.getElem?_nil] at hf
  · intro a ca fl hf
    rcases a with _ | a
    · simp at hf
    · simp [List.getElem?_cons_succ, List.getElem?_nil] at hf
  · intro a mname ats hf
    rcases a with _ | a
    · simp at hf
    · simp [List.getElem?_cons_succ, List.getElem?_nil] at hf
  · intro a iref fi hf
    rcases a with _ | a
    · simp at hf
    · simp [List.getElem?_cons_succ, List.getElem?_nil] at hf
  · intro a re im hf
    rcases a with _ | a
    · simp at hf
    · simp [List.getElem?_cons_succ, List.getElem?_nil] at hf

theorem selfList_marshal :
    genMarshal [PyObj.pylist [PyRef.addr 0]] ⟨[]⟩ 3 (.addr 0)
      = .ok ⟨SENTINEL,
          [.node (some "__builtin__/list") (some 0) (some (.iseq [GRec.ref 0]))
            (some []) none none], .ref 0⟩ := by
  have s1 : marshalRec [PyObj.pylist [PyRef.addr 0]] ⟨[]⟩ 3 ⟨[], [], []⟩ (.addr 0)
      = .ok (⟨[.node (some "__builtin__/list") (some 0) none none none none],
          [(0, 0)], [(0, 0)]⟩, .ref 0) := by
    simp [marshalRec, idLookup, marshalObjectC, pyId, buildItems, buildFields, marshalSeq,
      marshalFlds]
  have s2 : drainDeferred [PyObj.pylist [PyRef.addr 0]] ⟨[]⟩ 3
      ⟨[.node (some "__builtin__/list") (some 0) none none none none], [(0, 0)], [(0, 0)]⟩
      = .ok ⟨[.node (some "__builtin__/list") (some 0) (some (.iseq [GRec.ref 0]))
          (some []) none none], [(0, 0)], []⟩ := by
    rw [drainDeferred.eq_def]
    simp [ispecOf, fspecOf, buildItems, buildFields, marshalSeq, marshalFlds, marshalRec,
      idLookup, pyId, marshalObjectC, patchNode, drainDeferred]
  simp only [genMarshal, s1, s2]

theorem selfList_unmarshal :
    genUnmarshal [PyObj.pylist [PyRef.addr 0]] ⟨[]⟩ 3
      ⟨SENTINEL, [.node (some "__builtin__/list") (some 0) (some (.iseq [GRec.ref 0]))
        (some []) none none], .ref 0⟩
      = .ok (⟨[DObj.dlist [DVal.daddr 0]], [(0, DVal.daddr 0)],
          [(0, .node (some "__builtin__/list") (some 0) (some (.iseq [GRec.ref 0]))
            (some []) none none)]⟩, DVal.daddr 0) := by
  have d1 : decodeRecords [PyObj.pylist [PyRef.addr 0]] ⟨[]⟩ 3 ⟨[], [], []⟩
      [.node (some "__builtin__/list") (some 0) (some (.iseq [GRec.ref 0]))
        (some []) none none]
      = .ok ⟨[DObj.dlist []], [(0, DVal.daddr 0)],
          [(0, .node (some "__builtin__/list") (some 0) (some (.iseq [GRec.ref 0]))
            (some []) none none)]⟩ := by
    simp [decodeRecords, decodeRec, resolveType_blist, isImmutableKind, allocShell,
      registerOid]
  have d2 : decodeRec [PyObj.pylist [PyRef.addr 0]] ⟨[]⟩ 3
      (⟨[DObj.dlist []], [(0, DVal.daddr 0)],
        [(0, .node (some "__builtin__/list") (some 0) (some (.iseq [GRec.ref 0]))
          (some []) none none)]⟩ : DecState) (.ref 0)
      = .ok (⟨[DObj.dlist []], [(0, DVal.daddr 0)],
          [(0, .node (some "__builtin__/list") (some 0) (some (.iseq [GRec.ref 0]))
            (some []) none none)]⟩, DVal.daddr 0) := by
    simp [decodeRec, lookupNat]
  have p1 : populateObject [PyObj.pylist [PyRef.addr 0]] ⟨[]⟩ 2
      (⟨[DObj.dlist []], [(0, DVal.daddr 0)],
        [(0, .node (some "__builtin__/list") (some 0) (some (.iseq [GRec.ref 0]))
          (some []) none none)]⟩ : DecState) 0 (some (.iseq [GRec.ref 0])) (some [])
      = .ok ⟨[DObj.dlist [DVal.daddr 0]], [(0, DVal.daddr 0)],
          [(0, .node (some "__builtin__/list") (some 0) (some (.iseq [GRec.ref 0]))
            (some []) none none)]⟩ := by
    rw [populateObject.eq_def, populateItems.eq_def]
    simp [decodeSeq, decodeRec, lookupNat, populateFields]
  have d3 : drainPopulate [PyObj.pylist [PyRef.addr 0]] ⟨[]⟩ 3 0
      (⟨[DObj.dlist []], [(0, DVal.daddr 0)],
        [(0, .node (some "__builtin__/list") (some 0) (some (.iseq [GRec.ref 0]))
          (some []) none none)]⟩ : DecState)
      = .ok ⟨[DObj.dlist [DVal.daddr 0]], [(0, DVal.daddr 0)],
          [(0, .node (some "__builtin__/list") (some 0) (some (.iseq [GRec.ref 0]))
            (some []) none none)]⟩ := by
    simp [drainPopulate, p1]
  simp [genUnmarshal, SENTINEL, d1, d2, d3]
